import Mathlib

/-!
# LinkedBinaryTree: a heap-level embedding of `include/linked_binary_tree.hpp`

The C++ class is a pointer structure: nodes live on the free store, carry a
parent pointer and two child pointers, and a `Position` is a bare node
pointer.  The embedding keeps all of that explicit.

* A `Heap` is the free store: cell `a` is `some node` when address `a` holds a
  live `Node`, and `none` when it does not (never allocated, or deleted).
  `new` takes the next address never used before (a bump allocator), `delete`
  empties the cell.
* A pointer is an `Option Nat`; `none` is `nullptr`.
* A `World` is the heap together with every `LinkedBinaryTree` object (the two
  fields `rt` and `sz`), indexed by object identity, so that reference
  parameters (`attach`, copy, move) may alias as they can in C++.
* A member function returns an `Outcome`: it returns normally with the new
  world, or throws `std::runtime_error` (the world at the throw is kept, so
  that "nothing changed" is a statement and not a convention), or it hits
  undefined behaviour by reading through a null or dangling pointer.
* Recursive member functions and the breadth-first loop take a fuel argument;
  `none` means that the fuel ran out or that a dead pointer was read.
-/

namespace LBT

/-! ## Data model -/

/-- The class `Node`: element, parent pointer, left and right child pointers. -/
structure Node (E : Type) where
  elem : E
  par : Option Nat
  left : Option Nat
  right : Option Nat
deriving DecidableEq

/-- The free store.  Cell `a` is `some nd` exactly when a live node sits at address `a`. -/
structure Heap (E : Type) where
  cells : List (Option (Node E))
deriving DecidableEq

/-- Read through a node pointer; `none` when no live node sits at `a`. -/
def Heap.read {E : Type} (h : Heap E) (a : Nat) : Option (Node E) :=
  (h.cells[a]?).join

/-- Overwrite the node stored at address `a` (a field assignment `a->f = x`). -/
def Heap.write {E : Type} (h : Heap E) (a : Nat) (nd : Node E) : Heap E :=
  ⟨h.cells.set a (some nd)⟩

/-- The expression `new Node(...)`: the node is placed at the next unused address. -/
def Heap.alloc {E : Type} (h : Heap E) (nd : Node E) : Heap E × Nat :=
  (⟨h.cells ++ [some nd]⟩, h.cells.length)

/-- The statement `delete a`. -/
def Heap.free {E : Type} (h : Heap E) (a : Nat) : Heap E :=
  ⟨h.cells.set a none⟩

/-- The data members of a `LinkedBinaryTree` object: `Node* rt` and `int sz`.  The counter
is an unbounded integer here: no tree of the development comes near the range of `int`. -/
structure LinkedBinaryTree where
  rt : Option Nat
  sz : Int
deriving DecidableEq

/-- The heap and all tree objects, indexed by object identity.  Every object
starts out default-constructed (`rt{nullptr}`, `sz{0}`). -/
structure World (E : Type) where
  heap : Heap E
  trees : Nat → LinkedBinaryTree

/-- The world before anything has been done: empty heap, every tree default-constructed. -/
def World.init (E : Type) : World E :=
  ⟨⟨[]⟩, fun _ => ⟨none, 0⟩⟩

/-- The class `Position`: a wrapped node pointer. -/
structure Position where
  node : Option Nat
deriving DecidableEq

/-- The position of the node at address `a`. -/
def pos (a : Nat) : Position := ⟨some a⟩

/-- The messages of the `std::runtime_error`s thrown by the class. -/
inductive Err where
  /-- Message "Root already exists". -/
  | rootAlreadyExists
  /-- Message "Invalid position". -/
  | invalidPosition
  /-- Message "Left child already exists". -/
  | leftChildAlreadyExists
  /-- Message "Right child already exists". -/
  | rightChildAlreadyExists
  /-- Message "Cannot erase node with two children". -/
  | cannotEraseTwoChildren
  /-- Message "Node already has children". -/
  | nodeAlreadyHasChildren
deriving DecidableEq

/-- What a call of a mutating member function does. -/
inductive Outcome (E : Type) where
  /-- returned normally, leaving this world -/
  | done (w : World E)
  /-- threw `std::runtime_error`, leaving this world -/
  | thrown (e : Err) (w : World E)
  /-- read through a null or dangling pointer -/
  | undefined

/-! ## Position accessors -/

/-- Member `Position::is_null`. -/
def Position.is_null (p : Position) : Bool :=
  p.node == none

/-- Member `Position::is_root`: `node && node->par == nullptr`. -/
def Position.is_root {E : Type} (h : Heap E) (p : Position) : Option Bool :=
  match p.node with
  | none => some false
  | some n =>
    match h.read n with
    | none => none
    | some nd => some (nd.par == none)

/-- Member `Position::is_external`: `node && node->left == nullptr && node->right == nullptr`. -/
def Position.is_external {E : Type} (h : Heap E) (p : Position) : Option Bool :=
  match p.node with
  | none => some false
  | some n =>
    match h.read n with
    | none => none
    | some nd => some (nd.left == none && nd.right == none)

/-- Member `Position::element`: `node->elem`. -/
def Position.element {E : Type} (h : Heap E) (p : Position) : Option E :=
  match p.node with
  | none => none
  | some n =>
    match h.read n with
    | none => none
    | some nd => some nd.elem

/-- Assignment through the reference returned by `Position::element()`. -/
def Position.set_element {E : Type} (h : Heap E) (p : Position) (v : E) : Option (Heap E) :=
  match p.node with
  | none => none
  | some n =>
    match h.read n with
    | none => none
    | some nd => some (h.write n { nd with elem := v })

/-- Member `Position::parent`: `Position(node ? node->par : nullptr)`. -/
def Position.parent {E : Type} (h : Heap E) (p : Position) : Option Position :=
  match p.node with
  | none => some ⟨none⟩
  | some n =>
    match h.read n with
    | none => none
    | some nd => some ⟨nd.par⟩

/-- Member `Position::left`: `Position(node ? node->left : nullptr)`. -/
def Position.left {E : Type} (h : Heap E) (p : Position) : Option Position :=
  match p.node with
  | none => some ⟨none⟩
  | some n =>
    match h.read n with
    | none => none
    | some nd => some ⟨nd.left⟩

/-- Member `Position::right`: `Position(node ? node->right : nullptr)`. -/
def Position.right {E : Type} (h : Heap E) (p : Position) : Option Position :=
  match p.node with
  | none => some ⟨none⟩
  | some n =>
    match h.read n with
    | none => none
    | some nd => some ⟨nd.right⟩

/-- Member `Position::num_children`. -/
def Position.num_children {E : Type} (h : Heap E) (p : Position) : Option Int :=
  match p.node with
  | none => some 0
  | some n =>
    match h.read n with
    | none => none
    | some nd =>
      some ((if nd.left ≠ none then 1 else 0) + (if nd.right ≠ none then 1 else 0))

/-- Member `Position::children`. -/
def Position.children {E : Type} (h : Heap E) (p : Position) : Option (List Position) :=
  match p.node with
  | none => some []
  | some n =>
    match h.read n with
    | none => none
    | some nd =>
      some ((if nd.left ≠ none then [⟨nd.left⟩] else []) ++
            (if nd.right ≠ none then [⟨nd.right⟩] else []))

/-! ## Queries -/

/-- Member `size()`. -/
def size {E : Type} (w : World E) (self : Nat) : Int :=
  (w.trees self).sz

/-- Member `empty()`: `sz == 0`. -/
def empty {E : Type} (w : World E) (self : Nat) : Bool :=
  (w.trees self).sz == 0

/-- Member `root()`. -/
def root {E : Type} (w : World E) (self : Nat) : Position :=
  ⟨(w.trees self).rt⟩

/-- The private helper `preorder(n, v)`: push `n`, then the left subtree, then the right. -/
def preorder {E : Type} (h : Heap E) : Nat → Option Nat → List Position → Option (List Position)
  | 0, _, _ => none
  | _ + 1, none, v => some v
  | fuel + 1, some n, v =>
    match h.read n with
    | none => none
    | some nd =>
      match preorder h fuel nd.left (v ++ [⟨some n⟩]) with
      | none => none
      | some v1 => preorder h fuel nd.right v1

/-- Member `positions()`. -/
def positions {E : Type} (fuel : Nat) (w : World E) (self : Nat) : Option (List Position) :=
  preorder w.heap fuel (w.trees self).rt []

/-! ## Mutators -/

/-- Member `add_root(e)`. -/
def add_root {E : Type} (w : World E) (self : Nat) (e : E) : Outcome E :=
  if (w.trees self).rt ≠ none then
    .thrown .rootAlreadyExists w
  else
    let (h1, a) := w.heap.alloc ⟨e, none, none, none⟩
    .done ⟨h1, Function.update w.trees self ⟨some a, 1⟩⟩

/-- Member `add_left(p, e)`. -/
def add_left {E : Type} (w : World E) (self : Nat) (p : Position) (e : E) : Outcome E :=
  match p.node with
  | none => .thrown .invalidPosition w
  | some n =>
    match w.heap.read n with
    | none => .undefined
    | some nd =>
      if nd.left ≠ none then
        .thrown .leftChildAlreadyExists w
      else
        let (h1, a) := w.heap.alloc ⟨e, some n, none, none⟩
        let h2 := h1.write n { nd with left := some a }
        .done ⟨h2, Function.update w.trees self
          { w.trees self with sz := (w.trees self).sz + 1 }⟩

/-- Member `add_right(p, e)`. -/
def add_right {E : Type} (w : World E) (self : Nat) (p : Position) (e : E) : Outcome E :=
  match p.node with
  | none => .thrown .invalidPosition w
  | some n =>
    match w.heap.read n with
    | none => .undefined
    | some nd =>
      if nd.right ≠ none then
        .thrown .rightChildAlreadyExists w
      else
        let (h1, a) := w.heap.alloc ⟨e, some n, none, none⟩
        let h2 := h1.write n { nd with right := some a }
        .done ⟨h2, Function.update w.trees self
          { w.trees self with sz := (w.trees self).sz + 1 }⟩

/-- The initialiser `Node* child = (n->left ? n->left : n->right);` of `erase`. -/
def erase_child {E : Type} (nd : Node E) : Option Nat :=
  if nd.left ≠ none then nd.left else nd.right

/-- The statement `if (child) child->par = n->par;` of `erase`. -/
def erase_reparent {E : Type} (h : Heap E) (child : Option Nat) (npar : Option Nat) :
    Option (Heap E) :=
  match child with
  | none => some h
  | some c =>
    match h.read c with
    | none => none
    | some cd => some (h.write c { cd with par := npar })

/-- The else-branch of `if (n == rt)` in `erase`: unlink `n` from its parent. -/
def erase_unlink {E : Type} (h : Heap E) (n : Nat) (child : Option Nat) : Option (Heap E) :=
  match h.read n with
  | none => none
  | some nd =>
    match nd.par with
    | none => none
    | some parent =>
      match h.read parent with
      | none => none
      | some pd =>
        if pd.left = some n then
          some (h.write parent { pd with left := child })
        else
          some (h.write parent { pd with right := child })

/-- Member `erase(p)`. -/
def erase {E : Type} (w : World E) (self : Nat) (p : Position) : Outcome E :=
  match p.node with
  | none => .thrown .invalidPosition w
  | some n =>
    match w.heap.read n with
    | none => .undefined
    | some nd =>
      if nd.left ≠ none ∧ nd.right ≠ none then
        .thrown .cannotEraseTwoChildren w
      else
        let child := erase_child nd
        match erase_reparent w.heap child nd.par with
        | none => .undefined
        | some h1 =>
          if some n = (w.trees self).rt then
            .done ⟨h1.free n, Function.update w.trees self
              ⟨child, (w.trees self).sz - 1⟩⟩
          else
            match erase_unlink h1 n child with
            | none => .undefined
            | some h2 =>
              .done ⟨h2.free n, Function.update w.trees self
                { w.trees self with sz := (w.trees self).sz - 1 }⟩

/-- The block `if (!left.empty()) { ... }` of `attach`, for the node `n` of tree `self`. -/
def attach_left {E : Type} (w : World E) (self : Nat) (n : Nat) (left : Nat) :
    Option (World E) :=
  if (w.trees left).sz ≠ 0 then
    -- n->left = left.rt;
    match w.heap.read n with
    | none => none
    | some nd =>
      let h1 := w.heap.write n { nd with left := (w.trees left).rt }
      -- left.rt->par = n;
      match (w.trees left).rt with
      | none => none
      | some r =>
        match h1.read r with
        | none => none
        | some rd =>
          let h2 := h1.write r { rd with par := some n }
          -- sz += left.sz;
          let t1 := Function.update w.trees self
            { w.trees self with sz := (w.trees self).sz + (w.trees left).sz }
          -- left.rt = nullptr;
          let t2 := Function.update t1 left { t1 left with rt := none }
          -- left.sz = 0;
          let t3 := Function.update t2 left { t2 left with sz := 0 }
          some ⟨h2, t3⟩
  else
    some w

/-- The block `if (!right.empty()) { ... }` of `attach`, for the node `n` of tree `self`. -/
def attach_right {E : Type} (w : World E) (self : Nat) (n : Nat) (right : Nat) :
    Option (World E) :=
  if (w.trees right).sz ≠ 0 then
    -- n->right = right.rt;
    match w.heap.read n with
    | none => none
    | some nd =>
      let h1 := w.heap.write n { nd with right := (w.trees right).rt }
      -- right.rt->par = n;
      match (w.trees right).rt with
      | none => none
      | some r =>
        match h1.read r with
        | none => none
        | some rd =>
          let h2 := h1.write r { rd with par := some n }
          -- sz += right.sz;
          let t1 := Function.update w.trees self
            { w.trees self with sz := (w.trees self).sz + (w.trees right).sz }
          -- right.rt = nullptr;
          let t2 := Function.update t1 right { t1 right with rt := none }
          -- right.sz = 0;
          let t3 := Function.update t2 right { t2 right with sz := 0 }
          some ⟨h2, t3⟩
  else
    some w

/-- Member `attach(p, left, right)`; `left` and `right` are the tree objects passed by reference. -/
def attach {E : Type} (w : World E) (self : Nat) (p : Position) (left right : Nat) :
    Outcome E :=
  match p.node with
  | none => .thrown .invalidPosition w
  | some n =>
    match w.heap.read n with
    | none => .undefined
    | some nd =>
      if nd.left ≠ none ∨ nd.right ≠ none then
        .thrown .nodeAlreadyHasChildren w
      else
        match attach_left w self n left with
        | none => .undefined
        | some w1 =>
          match attach_right w1 self n right with
          | none => .undefined
          | some w2 => .done w2

/-! ## Teardown, clone, copy and move -/

/-- The private helper `tear_down(nd)`: delete the left subtree, the right subtree, then `nd`. -/
def tear_down {E : Type} : Nat → Heap E → Option Nat → Option (Heap E)
  | 0, _, _ => none
  | _ + 1, h, none => some h
  | fuel + 1, h, some nd =>
    match h.read nd with
    | none => none
    | some d =>
      -- tear_down(nd->left);
      match tear_down fuel h d.left with
      | none => none
      | some h1 =>
        -- tear_down(nd->right);
        match h1.read nd with
        | none => none
        | some d1 =>
          match tear_down fuel h1 d1.right with
          | none => none
          | some h2 =>
            -- delete nd;
            match h2.read nd with
            | none => none
            | some _ => some (h2.free nd)

/-- The two statements `new_node->left = c; new_node->left->par = new_node;` of `clone`. -/
def clone_link_left {E : Type} (h : Heap E) (new_node : Nat) (c : Option Nat) :
    Option (Heap E) :=
  match h.read new_node with
  | none => none
  | some nn =>
    let h1 := h.write new_node { nn with left := c }
    match h1.read new_node with
    | none => none
    | some nn1 =>
      match nn1.left with
      | none => none
      | some l =>
        match h1.read l with
        | none => none
        | some ld => some (h1.write l { ld with par := some new_node })

/-- The two statements `new_node->right = c; new_node->right->par = new_node;` of `clone`. -/
def clone_link_right {E : Type} (h : Heap E) (new_node : Nat) (c : Option Nat) :
    Option (Heap E) :=
  match h.read new_node with
  | none => none
  | some nn =>
    let h1 := h.write new_node { nn with right := c }
    match h1.read new_node with
    | none => none
    | some nn1 =>
      match nn1.right with
      | none => none
      | some r =>
        match h1.read r with
        | none => none
        | some rd => some (h1.write r { rd with par := some new_node })

/-- The private static helper `clone(model)`: the new heap and the pointer returned. -/
def clone {E : Type} : Nat → Heap E → Option Nat → Option (Heap E × Option Nat)
  | 0, _, _ => none
  | _ + 1, h, none => some (h, none)
  | fuel + 1, h, some model =>
    match h.read model with
    | none => none
    | some md =>
      -- Node* new_node = new Node(model->elem);
      let (h1, new_node) := h.alloc ⟨md.elem, none, none, none⟩
      -- if (model->left) { ... }
      match h1.read model with
      | none => none
      | some md1 =>
        let afterLeft : Option (Heap E) :=
          if md1.left ≠ none then
            match clone fuel h1 md1.left with
            | none => none
            | some (h2, c) => clone_link_left h2 new_node c
          else some h1
        match afterLeft with
        | none => none
        | some h3 =>
          -- if (model->right) { ... }
          match h3.read model with
          | none => none
          | some md3 =>
            let afterRight : Option (Heap E) :=
              if md3.right ≠ none then
                match clone fuel h3 md3.right with
                | none => none
                | some (h4, c) => clone_link_right h4 new_node c
              else some h3
            match afterRight with
            | none => none
            | some h5 => some (h5, some new_node)

/-- The copy constructor `LinkedBinaryTree(const LinkedBinaryTree& other)`, building object
`self`: the members start from their default initialisers, then the body runs. -/
def copy_construct {E : Type} (fuel : Nat) (w : World E) (self other : Nat) :
    Option (World E) :=
  let t0 := Function.update w.trees self ⟨none, 0⟩
  -- rt = clone(other.rt);
  match clone fuel w.heap (t0 other).rt with
  | none => none
  | some (h1, r) =>
    let t1 := Function.update t0 self { t0 self with rt := r }
    -- sz = other.sz;
    let t2 := Function.update t1 self { t1 self with sz := (t1 other).sz }
    some ⟨h1, t2⟩

/-- Copy assignment `operator=(const LinkedBinaryTree& other)` on object `self`. -/
def copy_assign {E : Type} (fuel : Nat) (w : World E) (self other : Nat) :
    Option (World E) :=
  if self ≠ other then
    -- tear_down(rt);
    match tear_down fuel w.heap (w.trees self).rt with
    | none => none
    | some h1 =>
      -- rt = clone(other.rt);
      match clone fuel h1 (w.trees other).rt with
      | none => none
      | some (h2, r) =>
        let t1 := Function.update w.trees self { w.trees self with rt := r }
        -- sz = other.sz;
        let t2 := Function.update t1 self { t1 self with sz := (t1 other).sz }
        some ⟨h2, t2⟩
  else some w

/-- The move constructor `LinkedBinaryTree(LinkedBinaryTree&& other)`, building object `self`. -/
def move_construct {E : Type} (w : World E) (self other : Nat) : World E :=
  let t0 := Function.update w.trees self ⟨none, 0⟩
  -- rt = other.rt;
  let t1 := Function.update t0 self { t0 self with rt := (t0 other).rt }
  -- sz = other.sz;
  let t2 := Function.update t1 self { t1 self with sz := (t1 other).sz }
  -- other.rt = nullptr;
  let t3 := Function.update t2 other { t2 other with rt := none }
  -- other.sz = 0;
  let t4 := Function.update t3 other { t3 other with sz := 0 }
  ⟨w.heap, t4⟩

/-- Move assignment `operator=(LinkedBinaryTree&& other)` on object `self`. -/
def move_assign {E : Type} (fuel : Nat) (w : World E) (self other : Nat) :
    Option (World E) :=
  if self ≠ other then
    -- tear_down(rt);
    match tear_down fuel w.heap (w.trees self).rt with
    | none => none
    | some h1 =>
      -- rt = other.rt;
      let t1 := Function.update w.trees self { w.trees self with rt := (w.trees other).rt }
      -- sz = other.sz;
      let t2 := Function.update t1 self { t1 self with sz := (t1 other).sz }
      -- other.rt = nullptr;
      let t3 := Function.update t2 other { t2 other with rt := none }
      -- other.sz = 0;
      let t4 := Function.update t3 other { t3 other with sz := 0 }
      some ⟨h1, t4⟩
  else some w

/-! ## Leaf counting -/

/-- The private helper `count_left_leaves_rec(n, is_left)`. -/
def count_left_leaves_rec {E : Type} (h : Heap E) : Nat → Option Nat → Bool → Option Int
  | 0, _, _ => none
  | _ + 1, none, _ => some 0
  | fuel + 1, some n, is_left =>
    match h.read n with
    | none => none
    | some nd =>
      if nd.left = none ∧ nd.right = none then
        some (if is_left then 1 else 0)
      else
        match count_left_leaves_rec h fuel nd.left true with
        | none => none
        | some left_count =>
          match count_left_leaves_rec h fuel nd.right false with
          | none => none
          | some right_count => some (left_count + right_count)

/-- Member `count_left_leaves()`. -/
def count_left_leaves {E : Type} (fuel : Nat) (w : World E) (self : Nat) : Option Int :=
  count_left_leaves_rec w.heap fuel (w.trees self).rt false

/-- The `while (!q.empty())` loop of `count_left_leaves_bfs`; the queue holds the pairs
`(node, is_left)`, its front first, and one unit of fuel pays for one test of the loop
condition. -/
def bfs_loop {E : Type} (h : Heap E) : Nat → List (Nat × Bool) → Int → Option Int
  | 0, _, _ => none
  | _ + 1, [], count => some count
  | fuel + 1, (node, is_left) :: q, count =>
    match h.read node with
    | none => none
    | some nd =>
      let count1 := if nd.left = none ∧ nd.right = none ∧ is_left = true then count + 1 else count
      let q1 := match nd.left with
        | some l => q ++ [(l, true)]
        | none => q
      let q2 := match nd.right with
        | some r => q1 ++ [(r, false)]
        | none => q1
      bfs_loop h fuel q2 count1

/-- Member `count_left_leaves_bfs()`. -/
def count_left_leaves_bfs {E : Type} (fuel : Nat) (w : World E) (self : Nat) : Option Int :=
  match (w.trees self).rt with
  | none => some 0
  | some r => bfs_loop w.heap fuel [(r, false)] 0

/-! ## Abstract description of well-formed heaps

These definitions are not taken from the code: they say what it means for the
pointer graph to be a forest of binary trees, which is what the word "tree"
means in the specification. -/

/-- A binary tree of addresses and elements: the shape a root pointer is meant to reach. -/
inductive Shape (E : Type) where
  | nil : Shape E
  | node (a : Nat) (e : E) (l r : Shape E) : Shape E

/-- The pointer to the root node of a shape (`nullptr` for the empty shape). -/
def Shape.root {E : Type} : Shape E → Option Nat
  | .nil => none
  | .node a _ _ _ => some a

/-- The addresses of a shape, in preorder. -/
def Shape.addrs {E : Type} : Shape E → List Nat
  | .nil => []
  | .node a _ l r => a :: (l.addrs ++ r.addrs)

/-- The elements of a shape, in preorder. -/
def Shape.elems {E : Type} : Shape E → List E
  | .nil => []
  | .node _ e l r => e :: (l.elems ++ r.elems)

/-- Number of nodes of a shape. -/
def Shape.size {E : Type} : Shape E → Nat
  | .nil => 0
  | .node _ _ l r => 1 + l.size + r.size

/-- Height of a shape (0 for the empty shape). -/
def Shape.height {E : Type} : Shape E → Nat
  | .nil => 0
  | .node _ _ l r => 1 + max l.height r.height

/-- The heap holds the shape `s` below a node whose parent pointer has to be `par`:
every node of `s` is live, stores its element, points to the roots of its two
subshapes and back to its parent. -/
def Models {E : Type} (h : Heap E) : Option Nat → Shape E → Prop
  | _, .nil => True
  | par, .node a e l r =>
    h.read a = some ⟨e, par, l.root, r.root⟩ ∧ Models h (some a) l ∧ Models h (some a) r

/-- The family `shapes` describes the world: tree object `i` is the shape `shapes i`, with a
correct size counter, no node occurs twice in a tree and no node occurs in two trees. -/
structure Describes {E : Type} (w : World E) (shapes : Nat → Shape E) : Prop where
  rt_eq : ∀ i, (w.trees i).rt = (shapes i).root
  sz_eq : ∀ i, (w.trees i).sz = ((shapes i).size : Int)
  models : ∀ i, Models w.heap none (shapes i)
  nodup : ∀ i, (shapes i).addrs.Nodup
  disjoint : ∀ i j, i ≠ j → ∀ a, a ∈ (shapes i).addrs → a ∉ (shapes j).addrs

/-- The world is a forest of disjoint, correctly linked and correctly counted trees. -/
def WellFormed {E : Type} (w : World E) : Prop :=
  ∃ shapes : Nat → Shape E, Describes w shapes

/-- Replace the left subshape of the node at address `n`. -/
def Shape.setLeft {E : Type} (n : Nat) (t : Shape E) : Shape E → Shape E
  | .nil => .nil
  | .node a e l r =>
    if a = n then .node a e t r else .node a e (Shape.setLeft n t l) (Shape.setLeft n t r)

/-- Replace the right subshape of the node at address `n`. -/
def Shape.setRight {E : Type} (n : Nat) (t : Shape E) : Shape E → Shape E
  | .nil => .nil
  | .node a e l r =>
    if a = n then .node a e l t else .node a e (Shape.setRight n t l) (Shape.setRight n t r)

/-- Take the node at address `n` out of a shape: its left subshape takes its place, or its
right subshape when the left one is empty. -/
def Shape.remove {E : Type} (n : Nat) : Shape E → Shape E
  | .nil => .nil
  | .node a e l r =>
    if a = n then
      match l with
      | .nil => r
      | .node _ _ _ _ => l
    else .node a e (Shape.remove n l) (Shape.remove n r)

/-- Replace the element stored at address `n`. -/
def Shape.setElem {E : Type} (n : Nat) (v : E) : Shape E → Shape E
  | .nil => .nil
  | .node a e l r =>
    if a = n then .node a v l r else .node a e (Shape.setElem n v l) (Shape.setElem n v r)

/-- How the heap `h1` left by a successful `erase` of the node `n` (whose record was `nd`)
differs from the heap `h` before: `n` is gone, its only child points to the parent of `n`,
that parent points to the child where it pointed to `n`, and nothing else was written. -/
structure Erased {E : Type} (h : Heap E) (n : Nat) (nd : Node E) (h1 : Heap E) : Prop where
  dead : h1.read n = none
  child : ∀ c cd, erase_child nd = some c → h.read c = some cd →
    h1.read c = some { cd with par := nd.par }
  parent : ∀ pa pd, nd.par = some pa → h.read pa = some pd →
    h1.read pa = some (if pd.left = some n then { pd with left := erase_child nd }
      else { pd with right := erase_child nd })
  rest : ∀ a, a ≠ n → some a ≠ erase_child nd → some a ≠ nd.par → h1.read a = h.read a
  length : h1.cells.length = h.cells.length

/-- How the world `w1` left by the block `if (!left.empty()) { ... }` of `attach` differs
from the world `w` before it, for the target node `n` (record `nd`) of tree `tgt` and the
source tree `src`. -/
structure AttachedLeft {E : Type} (w : World E) (tgt n : Nat) (nd : Node E) (src : Nat)
    (w1 : World E) : Prop where
  node : w1.heap.read n = some { nd with left := (w.trees src).rt }
  root : ∀ r rd, (w.trees src).rt = some r → w.heap.read r = some rd →
    w1.heap.read r = some { rd with par := some n }
  rest : ∀ a, a ≠ n → some a ≠ (w.trees src).rt → w1.heap.read a = w.heap.read a
  target : w1.trees tgt = ⟨(w.trees tgt).rt, (w.trees tgt).sz + (w.trees src).sz⟩
  source : w1.trees src = ⟨none, 0⟩
  others : ∀ j, j ≠ tgt → j ≠ src → w1.trees j = w.trees j

/-- How the world `w1` left by the block `if (!right.empty()) { ... }` of `attach` differs
from the world `w` before it, for the target node `n` (record `nd`) of tree `tgt` and the
source tree `src`. -/
structure AttachedRight {E : Type} (w : World E) (tgt n : Nat) (nd : Node E) (src : Nat)
    (w1 : World E) : Prop where
  node : w1.heap.read n = some { nd with right := (w.trees src).rt }
  root : ∀ r rd, (w.trees src).rt = some r → w.heap.read r = some rd →
    w1.heap.read r = some { rd with par := some n }
  rest : ∀ a, a ≠ n → some a ≠ (w.trees src).rt → w1.heap.read a = w.heap.read a
  target : w1.trees tgt = ⟨(w.trees tgt).rt, (w.trees tgt).sz + (w.trees src).sz⟩
  source : w1.trees src = ⟨none, 0⟩
  others : ∀ j, j ≠ tgt → j ≠ src → w1.trees j = w.trees j

/-- The position `p` refers to a live node of tree `self`: it occurs in `positions()`. -/
def Live {E : Type} (w : World E) (self : Nat) (p : Position) : Prop :=
  ∃ (fuel : Nat) (ps : List Position), positions fuel w self = some ps ∧ p ∈ ps

/-- The worlds reachable from the initial one (all trees default-constructed) by successful
calls of `add_root`, `add_left`, `add_right`, `erase` and `attach`, where every position
passed refers to a live node of the tree operated on and the two source trees of `attach`
are distinct from each other and from the target. -/
inductive Reachable {E : Type} : World E → Prop where
  | init : Reachable (World.init E)
  | add_root {w w1 : World E} {i : Nat} {e : E} :
      Reachable w → add_root w i e = .done w1 → Reachable w1
  | add_left {w w1 : World E} {i : Nat} {p : Position} {e : E} :
      Reachable w → Live w i p → add_left w i p e = .done w1 → Reachable w1
  | add_right {w w1 : World E} {i : Nat} {p : Position} {e : E} :
      Reachable w → Live w i p → add_right w i p e = .done w1 → Reachable w1
  | erase {w w1 : World E} {i : Nat} {p : Position} :
      Reachable w → Live w i p → erase w i p = .done w1 → Reachable w1
  | attach {w w1 : World E} {i : Nat} {p : Position} {l r : Nat} :
      Reachable w → Live w i p → l ≠ r → l ≠ i → r ≠ i →
      attach w i p l r = .done w1 → Reachable w1

/-- The preorder listing in the words of the specification: empty below a null pointer;
below a node, the node's position, then the listing of its left subtree, then the listing
of its right subtree. -/
def preorder_listing {E : Type} (h : Heap E) : Nat → Option Nat → Option (List Position)
  | 0, _ => none
  | _ + 1, none => some []
  | fuel + 1, some n =>
    match h.read n with
    | none => none
    | some nd =>
      match preorder_listing h fuel nd.left with
      | none => none
      | some ls =>
        match preorder_listing h fuel nd.right with
        | none => none
        | some rs => some (⟨some n⟩ :: (ls ++ rs))

/-- Node `a` is reachable from node `r` by following child pointers of live nodes. -/
inductive Reaches {E : Type} (h : Heap E) : Nat → Nat → Prop where
  | here (r : Nat) : Reaches h r r
  | left {r a c : Nat} {nd : Node E} :
      Reaches h r a → h.read a = some nd → nd.left = some c → Reaches h r c
  | right {r a c : Nat} {nd : Node E} :
      Reaches h r a → h.read a = some nd → nd.right = some c → Reaches h r c

/-- Number of left leaves of a shape whose root is (`is_left = true`) or is not a left
child. -/
def Shape.countLL {E : Type} : Bool → Shape E → Nat
  | _, .nil => 0
  | is_left, .node _ _ l r =>
    if l.root = none ∧ r.root = none then (if is_left then 1 else 0)
    else Shape.countLL true l + Shape.countLL false r

/-- The queue entry that the breadth-first loop holds for the root of a shape. -/
def Shape.entry {E : Type} (it : Shape E × Bool) : Option (Nat × Bool) :=
  it.1.root.map (fun a => (a, it.2))

/-- The position `q` has no children, is not the root, and is the left child of its parent
(`q.parent().left() == q`), all read through the accessors of `Position`. -/
def is_left_leaf {E : Type} (h : Heap E) (q : Position) : Bool :=
  decide (q.num_children h = some 0) && decide (q.is_root h = some false) &&
    (match q.parent h with
     | some par => decide (par.left h = some q)
     | none => false)

/-- The shape built by `clone` when the next unused address is `base`: same elements, nodes
numbered in preorder from `base`. -/
def Shape.cloneAt {E : Type} (base : Nat) : Shape E → Shape E
  | .nil => .nil
  | .node _ e l r =>
    .node base e (Shape.cloneAt (base + 1) l) (Shape.cloneAt (base + 1 + l.size) r)

/-- A binary tree of elements: the shape and the elements of a tree, without addresses. -/
inductive Skel (E : Type) where
  | leaf : Skel E
  | node (e : E) (l r : Skel E) : Skel E

/-- The shape and the elements found below a pointer, read from the heap: what a tree and
its copy have in common. -/
def skeleton {E : Type} (h : Heap E) : Nat → Option Nat → Option (Skel E)
  | 0, _ => none
  | _ + 1, none => some .leaf
  | fuel + 1, some n =>
    match h.read n with
    | none => none
    | some nd =>
      match skeleton h fuel nd.left with
      | none => none
      | some ls =>
        match skeleton h fuel nd.right with
        | none => none
        | some rs => some (.node nd.elem ls rs)

/-- The address-free content of a shape. -/
def Shape.skel {E : Type} : Shape E → Skel E
  | .nil => .leaf
  | .node _ e l r => .node e l.skel r.skel

/-- The world `w2` is obtained from `w` by successful `add_left`, `add_right`, `erase` calls
and element writes, all applied to tree `c` through live positions of `c`. -/
inductive Mutated {E : Type} (c : Nat) : World E → World E → Prop where
  | refl (w : World E) : Mutated c w w
  | add_left {w w1 w2 : World E} {p : Position} {e : E} :
      Mutated c w w1 → Live w1 c p → add_left w1 c p e = .done w2 → Mutated c w w2
  | add_right {w w1 w2 : World E} {p : Position} {e : E} :
      Mutated c w w1 → Live w1 c p → add_right w1 c p e = .done w2 → Mutated c w w2
  | erase {w w1 w2 : World E} {p : Position} :
      Mutated c w w1 → Live w1 c p → erase w1 c p = .done w2 → Mutated c w w2
  | set_element {w w1 : World E} {p : Position} {v : E} {h2 : Heap E} :
      Mutated c w w1 → Live w1 c p → p.set_element w1.heap v = some h2 →
      Mutated c w ⟨h2, w1.trees⟩

/-- The worlds reachable from the initial one by successful calls of `add_root`, `add_left`,
`add_right`, `erase`, `attach`, the copy and move constructors and the copy and move
assignments.  Positions passed refer to live nodes of the tree operated on, the two sources
of `attach` are distinct from each other and from the target, and a constructor builds an
object from a different one.  A call of a fuelled function counts as soon as it returns
for some fuel. -/
inductive ReachableAll {E : Type} : World E → Prop where
  | init : ReachableAll (World.init E)
  | add_root {w w1 : World E} {i : Nat} {e : E} :
      ReachableAll w → add_root w i e = .done w1 → ReachableAll w1
  | add_left {w w1 : World E} {i : Nat} {p : Position} {e : E} :
      ReachableAll w → Live w i p → add_left w i p e = .done w1 → ReachableAll w1
  | add_right {w w1 : World E} {i : Nat} {p : Position} {e : E} :
      ReachableAll w → Live w i p → add_right w i p e = .done w1 → ReachableAll w1
  | erase {w w1 : World E} {i : Nat} {p : Position} :
      ReachableAll w → Live w i p → erase w i p = .done w1 → ReachableAll w1
  | attach {w w1 : World E} {i : Nat} {p : Position} {l r : Nat} :
      ReachableAll w → Live w i p → l ≠ r → l ≠ i → r ≠ i →
      attach w i p l r = .done w1 → ReachableAll w1
  | copy_construct {w w1 : World E} {c t fuel : Nat} :
      ReachableAll w → c ≠ t → copy_construct fuel w c t = some w1 → ReachableAll w1
  | copy_assign {w w1 : World E} {c t fuel : Nat} :
      ReachableAll w → copy_assign fuel w c t = some w1 → ReachableAll w1
  | move_construct {w : World E} {d s : Nat} :
      ReachableAll w → d ≠ s → ReachableAll (move_construct w d s)
  | move_assign {w w1 : World E} {d s fuel : Nat} :
      ReachableAll w → move_assign fuel w d s = some w1 → ReachableAll w1

/-! ## Sample worlds -/

/-- Tree 0 holds the single node `10`. -/
def sample1 : World Nat :=
  ⟨⟨[some ⟨10, none, none, none⟩]⟩,
    Function.update (World.init Nat).trees 0 ⟨some 0, 1⟩⟩

/-- Tree 0 holds `10` with left child `20`. -/
def sample2 : World Nat :=
  ⟨⟨[some ⟨10, none, some 1, none⟩, some ⟨20, some 0, none, none⟩]⟩,
    Function.update sample1.trees 0 ⟨some 0, 2⟩⟩

/-- Tree 0 holds `10` with left child `20` and right child `30`. -/
def sample3 : World Nat :=
  ⟨⟨[some ⟨10, none, some 1, some 2⟩, some ⟨20, some 0, none, none⟩,
      some ⟨30, some 0, none, none⟩]⟩,
    Function.update sample2.trees 0 ⟨some 0, 3⟩⟩

/-- Tree 0 holds `10` with left child `20` and right child `30`; `20` has left child `40`. -/
def sample4 : World Nat :=
  ⟨⟨[some ⟨10, none, some 1, some 2⟩, some ⟨20, some 0, some 3, none⟩,
      some ⟨30, some 0, none, none⟩, some ⟨40, some 1, none, none⟩]⟩,
    Function.update sample3.trees 0 ⟨some 0, 4⟩⟩

/-- Tree 0 holds the single node `10`, tree 1 the single node `7`. -/
def sample5 : World Nat :=
  ⟨⟨[some ⟨10, none, none, none⟩, some ⟨7, none, none, none⟩]⟩,
    Function.update sample1.trees 1 ⟨some 1, 1⟩⟩

/-- Tree 0 holds the single node `10`, tree 1 the single node `7`, tree 2 the single
node `8`. -/
def sample6 : World Nat :=
  ⟨⟨[some ⟨10, none, none, none⟩, some ⟨7, none, none, none⟩, some ⟨8, none, none, none⟩]⟩,
    Function.update sample5.trees 2 ⟨some 2, 1⟩⟩

/-! ## Basic facts about the heap -/

theorem Heap.read_lt {E : Type} {h : Heap E} {a : Nat} {nd : Node E}
    (hr : h.read a = some nd) : a < h.cells.length := by
  by_contra hlt
  have : h.cells[a]? = none := List.getElem?_eq_none (Nat.le_of_not_lt hlt)
  simp [Heap.read, this] at hr

theorem Heap.read_write_eq {E : Type} (h : Heap E) (a : Nat) (nd : Node E)
    (hlt : a < h.cells.length) : (h.write a nd).read a = some nd := by
  simp [Heap.read, Heap.write, List.getElem?_set, hlt]

theorem Heap.read_write_ne {E : Type} (h : Heap E) {a b : Nat} (nd : Node E)
    (hne : a ≠ b) : (h.write a nd).read b = h.read b := by
  simp [Heap.read, Heap.write, List.getElem?_set, hne]

theorem Heap.read_free_eq {E : Type} (h : Heap E) (a : Nat) : (h.free a).read a = none := by
  by_cases hlt : a < h.cells.length
  · simp [Heap.read, Heap.free, List.getElem?_set, hlt]
  · simp [Heap.read, Heap.free, List.getElem?_set, hlt]

theorem Heap.read_free_ne {E : Type} (h : Heap E) {a b : Nat}
    (hne : a ≠ b) : (h.free a).read b = h.read b := by
  simp [Heap.read, Heap.free, List.getElem?_set, hne]

theorem Heap.read_alloc_old {E : Type} (h : Heap E) (nd : Node E) {b : Nat}
    (hlt : b < h.cells.length) : (h.alloc nd).1.read b = h.read b := by
  simp [Heap.read, Heap.alloc, List.getElem?_append_left hlt]

theorem Heap.read_alloc_new {E : Type} (h : Heap E) (nd : Node E) :
    (h.alloc nd).1.read h.cells.length = some nd := by
  simp [Heap.read, Heap.alloc]

theorem Heap.length_write {E : Type} (h : Heap E) (a : Nat) (nd : Node E) :
    (h.write a nd).cells.length = h.cells.length := by
  simp [Heap.write]

theorem Heap.length_free {E : Type} (h : Heap E) (a : Nat) :
    (h.free a).cells.length = h.cells.length := by
  simp [Heap.free]

theorem Heap.length_alloc {E : Type} (h : Heap E) (nd : Node E) :
    (h.alloc nd).1.cells.length = h.cells.length + 1 := by
  simp [Heap.alloc]

/-! ## Basic facts about shapes and the heaps that hold them -/

theorem Shape.size_eq_length {E : Type} (s : Shape E) : s.size = s.addrs.length := by
  induction s with
  | nil => rfl
  | node a e l r ihl ihr => simp [Shape.size, Shape.addrs, ihl, ihr]; omega

theorem Shape.length_elems {E : Type} (s : Shape E) : s.elems.length = s.addrs.length := by
  induction s with
  | nil => rfl
  | node a e l r ihl ihr => simp [Shape.elems, Shape.addrs, ihl, ihr]

theorem Shape.height_le_size {E : Type} (s : Shape E) : s.height ≤ s.size := by
  induction s with
  | nil => simp [Shape.height]
  | node a e l r ihl ihr => simp [Shape.size, Shape.height]; omega

theorem Shape.root_eq_none {E : Type} {s : Shape E} (h : s.root = none) : s = .nil := by
  cases s with
  | nil => rfl
  | node a e l r => simp [Shape.root] at h

theorem Shape.root_mem {E : Type} {s : Shape E} {a : Nat} (h : s.root = some a) :
    a ∈ s.addrs := by
  cases s with
  | nil => simp [Shape.root] at h
  | node b e l r =>
    simp [Shape.root] at h
    simp [Shape.addrs, h]

theorem Models.frame {E : Type} {h h1 : Heap E} :
    ∀ {s : Shape E} {par : Option Nat}, Models h par s →
      (∀ a, a ∈ s.addrs → h1.read a = h.read a) → Models h1 par s := by
  intro s
  induction s with
  | nil => intro par _ _; trivial
  | node a e l r ihl ihr =>
    intro par hm hfr
    obtain ⟨hr, hl, hrr⟩ := hm
    refine ⟨?_, ihl hl ?_, ihr hrr ?_⟩
    · rw [hfr a (by simp [Shape.addrs]), hr]
    · intro b hb; exact hfr b (by simp [Shape.addrs, hb])
    · intro b hb; exact hfr b (by simp [Shape.addrs, hb])

theorem Models.live {E : Type} {h : Heap E} :
    ∀ {s : Shape E} {par : Option Nat}, Models h par s →
      ∀ a, a ∈ s.addrs → ∃ nd, h.read a = some nd := by
  intro s
  induction s with
  | nil => intro par _ a ha; simp [Shape.addrs] at ha
  | node b e l r ihl ihr =>
    intro par hm a ha
    obtain ⟨hr, hl, hrr⟩ := hm
    simp only [Shape.addrs, List.mem_cons, List.mem_append] at ha
    rcases ha with rfl | ha | ha
    · exact ⟨_, hr⟩
    · exact ihl hl a ha
    · exact ihr hrr a ha

theorem Models.addr_lt {E : Type} {h : Heap E} {s : Shape E} {par : Option Nat}
    (hm : Models h par s) {a : Nat} (ha : a ∈ s.addrs) : a < h.cells.length := by
  obtain ⟨nd, hnd⟩ := hm.live a ha
  exact Heap.read_lt hnd

theorem length_le_of_nodup_lt {l : List Nat} {n : Nat} (hnd : l.Nodup)
    (hlt : ∀ a, a ∈ l → a < n) : l.length ≤ n := by
  have h1 : l.toFinset ⊆ Finset.range n := by
    intro a ha
    simp only [List.mem_toFinset] at ha
    simpa using hlt a ha
  have h2 := Finset.card_le_card h1
  rw [List.toFinset_card_of_nodup hnd] at h2
  simpa using h2

theorem Models.size_le {E : Type} {h : Heap E} {s : Shape E} {par : Option Nat}
    (hm : Models h par s) (hnd : s.addrs.Nodup) : s.size ≤ h.cells.length := by
  rw [Shape.size_eq_length]
  exact length_le_of_nodup_lt hnd (fun a ha => hm.addr_lt ha)

theorem Models.height_lt {E : Type} {h : Heap E} {s : Shape E} {par : Option Nat}
    (hm : Models h par s) (hnd : s.addrs.Nodup) {fuel : Nat} (hf : h.cells.length < fuel) :
    s.height < fuel :=
  lt_of_le_of_lt (le_trans s.height_le_size (hm.size_le hnd)) hf

/-- Changing only the parent pointer of the root of a held shape re-parents the shape. -/
theorem Models.reparent {E : Type} {h h1 : Heap E} {s : Shape E} {par par1 : Option Nat}
    (hm : Models h par s) (hnd : s.addrs.Nodup)
    (hroot : ∀ a nd, s.root = some a → h.read a = some nd →
      h1.read a = some { nd with par := par1 })
    (hrest : ∀ a, a ∈ s.addrs → s.root ≠ some a → h1.read a = h.read a) :
    Models h1 par1 s := by
  cases s with
  | nil => trivial
  | node a e l r =>
    obtain ⟨hr, hl, hrr⟩ := hm
    simp only [Shape.addrs, List.nodup_cons, List.mem_append, not_or] at hnd
    refine ⟨?_, hl.frame ?_, hrr.frame ?_⟩
    · rw [hroot a _ rfl hr]
    · intro b hb
      refine hrest b (by simp [Shape.addrs, hb]) ?_
      simp only [Shape.root, ne_eq, Option.some.injEq]
      rintro rfl; exact hnd.1.1 hb
    · intro b hb
      refine hrest b (by simp [Shape.addrs, hb]) ?_
      simp only [Shape.root, ne_eq, Option.some.injEq]
      rintro rfl; exact hnd.1.2 hb

/-- On a held shape with enough fuel, `preorder` appends the addresses of the shape. -/
theorem preorder_models {E : Type} {h : Heap E} :
    ∀ {s : Shape E} {par : Option Nat}, Models h par s →
      ∀ (fuel : Nat) (v : List Position), s.height < fuel →
        preorder h fuel s.root v = some (v ++ s.addrs.map pos) := by
  intro s
  induction s with
  | nil =>
    intro par _ fuel v hf
    cases fuel with
    | zero => simp [Shape.height] at hf
    | succ f => simp [preorder, Shape.root, Shape.addrs]
  | node a e l r ihl ihr =>
    intro par hm fuel v hf
    obtain ⟨hr, hl, hrr⟩ := hm
    cases fuel with
    | zero => omega
    | succ f =>
      simp only [Shape.height] at hf
      have hfl : l.height < f := by omega
      have hfr : r.height < f := by omega
      rw [show (Shape.node a e l r).root = some a from rfl]
      simp only [preorder, hr, ihl hl f _ hfl, ihr hrr f _ hfr]
      simp [Shape.addrs, pos]

/-! ## Re-establishing the description of a world after one tree changed -/

theorem Describes.addr_lt_heap {E : Type} {w : World E} {shapes : Nat → Shape E}
    (hd : Describes w shapes) {i a : Nat} (ha : a ∈ (shapes i).addrs) :
    a < w.heap.cells.length :=
  (hd.models i).addr_lt ha

/-- If only tree `i` changed, its new shape is held by the new heap and stays apart from the
other trees, and the nodes of the other trees were not written, the world is described again. -/
theorem Describes.of_frame {E : Type} {w w1 : World E} {shapes : Nat → Shape E}
    (hd : Describes w shapes) (i : Nat) (s1 : Shape E)
    (htrees : ∀ j, j ≠ i → w1.trees j = w.trees j)
    (hrt : (w1.trees i).rt = s1.root)
    (hsz : (w1.trees i).sz = (s1.size : Int))
    (hm : Models w1.heap none s1)
    (hnd : s1.addrs.Nodup)
    (hframe : ∀ j, j ≠ i → ∀ a, a ∈ (shapes j).addrs → w1.heap.read a = w.heap.read a)
    (hdisj : ∀ j, j ≠ i → ∀ a, a ∈ s1.addrs → a ∉ (shapes j).addrs) :
    Describes w1 (Function.update shapes i s1) := by
  refine ⟨?_, ?_, ?_, ?_, ?_⟩
  · intro j
    by_cases hj : j = i
    · subst hj; simpa using hrt
    · simp [Function.update_noteq hj, htrees j hj, hd.rt_eq j]
  · intro j
    by_cases hj : j = i
    · subst hj; simpa using hsz
    · simp [Function.update_noteq hj, htrees j hj, hd.sz_eq j]
  · intro j
    by_cases hj : j = i
    · subst hj; simpa using hm
    · rw [Function.update_noteq hj]
      exact (hd.models j).frame (hframe j hj)
  · intro j
    by_cases hj : j = i
    · subst hj; simpa using hnd
    · rw [Function.update_noteq hj]; exact hd.nodup j
  · intro j k hjk a ha
    by_cases hj : j = i
    · subst hj
      have hk : k ≠ j := fun h => hjk h.symm
      rw [Function.update_same] at ha
      rw [Function.update_noteq hk]
      exact hdisj k hk a ha
    · rw [Function.update_noteq hj] at ha
      by_cases hk : k = i
      · subst hk
        rw [Function.update_same]
        intro ha1
        exact hdisj j hj a ha1 ha
      · rw [Function.update_noteq hk]
        exact hd.disjoint j k hjk a ha

/-! ## Shape surgery -/

theorem Shape.setLeft_root {E : Type} (n : Nat) (t s : Shape E) :
    (Shape.setLeft n t s).root = s.root := by
  cases s with
  | nil => rfl
  | node a e l r =>
    by_cases ha : a = n <;> simp [Shape.setLeft, ha, Shape.root]

theorem Shape.setRight_root {E : Type} (n : Nat) (t s : Shape E) :
    (Shape.setRight n t s).root = s.root := by
  cases s with
  | nil => rfl
  | node a e l r =>
    by_cases ha : a = n <;> simp [Shape.setRight, ha, Shape.root]

theorem Shape.setLeft_of_not_mem {E : Type} (n : Nat) (t : Shape E) :
    ∀ s : Shape E, n ∉ s.addrs → Shape.setLeft n t s = s := by
  intro s
  induction s with
  | nil => intro _; rfl
  | node a e l r ihl ihr =>
    intro hn
    simp only [Shape.addrs, List.mem_cons, List.mem_append, not_or] at hn
    have ha : a ≠ n := fun h => hn.1 h.symm
    simp [Shape.setLeft, ha, ihl hn.2.1, ihr hn.2.2]

theorem Shape.setRight_of_not_mem {E : Type} (n : Nat) (t : Shape E) :
    ∀ s : Shape E, n ∉ s.addrs → Shape.setRight n t s = s := by
  intro s
  induction s with
  | nil => intro _; rfl
  | node a e l r ihl ihr =>
    intro hn
    simp only [Shape.addrs, List.mem_cons, List.mem_append, not_or] at hn
    have ha : a ≠ n := fun h => hn.1 h.symm
    simp [Shape.setRight, ha, ihl hn.2.1, ihr hn.2.2]

/-- Filling the empty left slot of node `n`: the new heap holds the shape with `t` put there. -/
theorem Models.setLeft {E : Type} {h h1 : Heap E} {n : Nat} {nd : Node E} (t : Shape E)
    (hn : h.read n = some nd)
    (hn1 : h1.read n = some { nd with left := t.root })
    (ht : Models h1 (some n) t) :
    ∀ {s : Shape E} {par : Option Nat}, Models h par s → s.addrs.Nodup →
      (∀ a, a ∈ s.addrs → a ≠ n → h1.read a = h.read a) →
      Models h1 par (Shape.setLeft n t s) := by
  intro s
  induction s with
  | nil => intro par _ _ _; trivial
  | node a e l r ihl ihr =>
    intro par hm hnd hfr
    obtain ⟨hr, hl, hrr⟩ := hm
    simp only [Shape.addrs, List.nodup_cons, List.mem_append, not_or, List.nodup_append] at hnd
    obtain ⟨⟨hal, har⟩, hndl, hndr, hdisj⟩ := hnd
    by_cases ha : a = n
    · subst ha
      rw [hn] at hr
      simp only [Option.some.injEq] at hr
      subst hr
      simp only [Shape.setLeft, if_true]
      refine ⟨?_, ht, hrr.frame ?_⟩
      · rw [hn1]
      · intro b hb
        refine hfr b (by simp [Shape.addrs, hb]) ?_
        rintro rfl; exact har hb
    · simp only [Shape.setLeft, if_neg ha]
      refine ⟨?_, ihl hl hndl ?_, ihr hrr hndr ?_⟩
      · rw [hfr a (by simp [Shape.addrs]) ha, hr, Shape.setLeft_root, Shape.setLeft_root]
      · intro b hb hbn; exact hfr b (by simp [Shape.addrs, hb]) hbn
      · intro b hb hbn; exact hfr b (by simp [Shape.addrs, hb]) hbn

/-- Filling the empty right slot of node `n`. -/
theorem Models.setRight {E : Type} {h h1 : Heap E} {n : Nat} {nd : Node E} (t : Shape E)
    (hn : h.read n = some nd)
    (hn1 : h1.read n = some { nd with right := t.root })
    (ht : Models h1 (some n) t) :
    ∀ {s : Shape E} {par : Option Nat}, Models h par s → s.addrs.Nodup →
      (∀ a, a ∈ s.addrs → a ≠ n → h1.read a = h.read a) →
      Models h1 par (Shape.setRight n t s) := by
  intro s
  induction s with
  | nil => intro par _ _ _; trivial
  | node a e l r ihl ihr =>
    intro par hm hnd hfr
    obtain ⟨hr, hl, hrr⟩ := hm
    simp only [Shape.addrs, List.nodup_cons, List.mem_append, not_or, List.nodup_append] at hnd
    obtain ⟨⟨hal, har⟩, hndl, hndr, hdisj⟩ := hnd
    by_cases ha : a = n
    · subst ha
      rw [hn] at hr
      simp only [Option.some.injEq] at hr
      subst hr
      simp only [Shape.setRight, if_true]
      refine ⟨?_, hl.frame ?_, ht⟩
      · rw [hn1]
      · intro b hb
        refine hfr b (by simp [Shape.addrs, hb]) ?_
        rintro rfl; exact hal hb
    · simp only [Shape.setRight, if_neg ha]
      refine ⟨?_, ihl hl hndl ?_, ihr hrr hndr ?_⟩
      · rw [hfr a (by simp [Shape.addrs]) ha, hr, Shape.setRight_root, Shape.setRight_root]
      · intro b hb hbn; exact hfr b (by simp [Shape.addrs, hb]) hbn
      · intro b hb hbn; exact hfr b (by simp [Shape.addrs, hb]) hbn

theorem Shape.setLeft_perm {E : Type} {h : Heap E} {n : Nat} {nd : Node E} (t : Shape E)
    (hn : h.read n = some nd) (hleft : nd.left = none) :
    ∀ {s : Shape E} {par : Option Nat}, Models h par s → s.addrs.Nodup → n ∈ s.addrs →
      (Shape.setLeft n t s).addrs.Perm (s.addrs ++ t.addrs) := by
  intro s
  induction s with
  | nil => intro par _ _ hmem; simp [Shape.addrs] at hmem
  | node a e l r ihl ihr =>
    intro par hm hnd hmem
    obtain ⟨hr, hl, hrr⟩ := hm
    simp only [Shape.addrs, List.nodup_cons, List.mem_append, not_or, List.nodup_append] at hnd
    obtain ⟨⟨hal, har⟩, hndl, hndr, hdisj⟩ := hnd
    by_cases ha : a = n
    · subst ha
      rw [hn] at hr
      simp only [Option.some.injEq] at hr
      subst hr
      have hlnil : l = .nil := Shape.root_eq_none hleft
      subst hlnil
      simp only [Shape.setLeft, if_true, Shape.addrs, List.nil_append, List.cons_append]
      exact List.Perm.cons _ List.perm_append_comm
    · simp only [Shape.setLeft, if_neg ha, Shape.addrs, List.cons_append]
      refine List.Perm.cons _ ?_
      simp only [Shape.addrs, List.mem_cons, List.mem_append] at hmem
      rcases hmem with hmem | hmem | hmem
      · exact absurd hmem.symm ha
      · have hnr : n ∉ r.addrs := fun hx => hdisj hmem hx
        rw [Shape.setLeft_of_not_mem n t r hnr]
        have h1 := (ihl hl hndl hmem).append_right r.addrs
        refine h1.trans ?_
        rw [List.append_assoc, List.append_assoc]
        exact List.Perm.append_left _ List.perm_append_comm
      · have hnl : n ∉ l.addrs := fun hx => hdisj hx hmem
        rw [Shape.setLeft_of_not_mem n t l hnl, List.append_assoc]
        exact List.Perm.append_left _ (ihr hrr hndr hmem)

theorem Shape.setRight_perm {E : Type} {h : Heap E} {n : Nat} {nd : Node E} (t : Shape E)
    (hn : h.read n = some nd) (hright : nd.right = none) :
    ∀ {s : Shape E} {par : Option Nat}, Models h par s → s.addrs.Nodup → n ∈ s.addrs →
      (Shape.setRight n t s).addrs.Perm (s.addrs ++ t.addrs) := by
  intro s
  induction s with
  | nil => intro par _ _ hmem; simp [Shape.addrs] at hmem
  | node a e l r ihl ihr =>
    intro par hm hnd hmem
    obtain ⟨hr, hl, hrr⟩ := hm
    simp only [Shape.addrs, List.nodup_cons, List.mem_append, not_or, List.nodup_append] at hnd
    obtain ⟨⟨hal, har⟩, hndl, hndr, hdisj⟩ := hnd
    by_cases ha : a = n
    · subst ha
      rw [hn] at hr
      simp only [Option.some.injEq] at hr
      subst hr
      have hrnil : r = .nil := Shape.root_eq_none hright
      subst hrnil
      simp [Shape.setRight, Shape.addrs]
    · simp only [Shape.setRight, if_neg ha, Shape.addrs, List.cons_append]
      refine List.Perm.cons _ ?_
      simp only [Shape.addrs, List.mem_cons, List.mem_append] at hmem
      rcases hmem with hmem | hmem | hmem
      · exact absurd hmem.symm ha
      · have hnr : n ∉ r.addrs := fun hx => hdisj hmem hx
        rw [Shape.setRight_of_not_mem n t r hnr]
        have h1 := (ihl hl hndl hmem).append_right r.addrs
        refine h1.trans ?_
        rw [List.append_assoc, List.append_assoc]
        exact List.Perm.append_left _ List.perm_append_comm
      · have hnl : n ∉ l.addrs := fun hx => hdisj hx hmem
        rw [Shape.setRight_of_not_mem n t l hnl, List.append_assoc]
        exact List.Perm.append_left _ (ihr hrr hndr hmem)

/-! ## `add_root`, `add_left`, `add_right` keep the world described -/

theorem add_root_done {E : Type} {w : World E} {i : Nat} (e : E)
    (hrt : (w.trees i).rt = none) :
    add_root w i e = .done ⟨(w.heap.alloc ⟨e, none, none, none⟩).1,
      Function.update w.trees i ⟨some w.heap.cells.length, 1⟩⟩ := by
  simp [add_root, hrt, Heap.alloc]

theorem Describes.after_add_root {E : Type} {w : World E} {shapes : Nat → Shape E}
    (hd : Describes w shapes) (i : Nat) (e : E) :
    Describes (⟨(w.heap.alloc ⟨e, none, none, none⟩).1,
        Function.update w.trees i ⟨some w.heap.cells.length, 1⟩⟩ : World E)
      (Function.update shapes i (.node w.heap.cells.length e .nil .nil)) := by
  refine hd.of_frame i _ ?_ ?_ ?_ ?_ ?_ ?_ ?_
  · intro j hj; simp [Function.update_noteq hj]
  · simp [Shape.root]
  · simp [Shape.size]
  · exact ⟨by simpa [Shape.root] using Heap.read_alloc_new w.heap _, trivial, trivial⟩
  · simp [Shape.addrs]
  · intro j _ a ha
    exact Heap.read_alloc_old _ _ (hd.addr_lt_heap ha)
  · intro j _ a ha hmem
    simp only [Shape.addrs, List.append_nil, List.mem_singleton] at ha
    subst ha
    exact absurd (hd.addr_lt_heap hmem) (lt_irrefl _)

theorem add_left_done {E : Type} {w : World E} {i n : Nat} {nd : Node E} (e : E)
    (hr : w.heap.read n = some nd) (hl : nd.left = none) :
    add_left w i ⟨some n⟩ e = .done ⟨(w.heap.alloc ⟨e, some n, none, none⟩).1.write n
        { nd with left := some w.heap.cells.length },
      Function.update w.trees i { w.trees i with sz := (w.trees i).sz + 1 }⟩ := by
  simp [add_left, hr, hl, Heap.alloc]

theorem add_right_done {E : Type} {w : World E} {i n : Nat} {nd : Node E} (e : E)
    (hr : w.heap.read n = some nd) (hl : nd.right = none) :
    add_right w i ⟨some n⟩ e = .done ⟨(w.heap.alloc ⟨e, some n, none, none⟩).1.write n
        { nd with right := some w.heap.cells.length },
      Function.update w.trees i { w.trees i with sz := (w.trees i).sz + 1 }⟩ := by
  simp [add_right, hr, hl, Heap.alloc]

/-- Reads in the heap left by `new Node(..)` followed by one write to an old node `n`. -/
theorem Heap.read_alloc_write {E : Type} (h : Heap E) (x y : Node E) {n : Nat}
    (hn : n < h.cells.length) :
    ((h.alloc x).1.write n y).read n = some y ∧
    ((h.alloc x).1.write n y).read h.cells.length = some x ∧
    ∀ a, a < h.cells.length → a ≠ n → ((h.alloc x).1.write n y).read a = h.read a := by
  refine ⟨?_, ?_, ?_⟩
  · exact Heap.read_write_eq _ _ _ (by rw [Heap.length_alloc]; omega)
  · rw [Heap.read_write_ne _ _ (by omega), Heap.read_alloc_new]
  · intro a ha hne
    rw [Heap.read_write_ne _ _ (fun h => hne h.symm), Heap.read_alloc_old _ _ ha]

theorem Describes.after_add_left {E : Type} {w : World E} {shapes : Nat → Shape E}
    (hd : Describes w shapes) {i n : Nat} {nd : Node E} (e : E)
    (hmem : n ∈ (shapes i).addrs) (hr : w.heap.read n = some nd) (hl : nd.left = none) :
    Describes (⟨(w.heap.alloc ⟨e, some n, none, none⟩).1.write n
          { nd with left := some w.heap.cells.length },
        Function.update w.trees i { w.trees i with sz := (w.trees i).sz + 1 }⟩ : World E)
      (Function.update shapes i
        (Shape.setLeft n (.node w.heap.cells.length e .nil .nil) (shapes i))) := by
  have hn : n < w.heap.cells.length := Heap.read_lt hr
  obtain ⟨h1, h2, h3⟩ := Heap.read_alloc_write w.heap ⟨e, some n, none, none⟩
    { nd with left := some w.heap.cells.length } hn
  have hperm := Shape.setLeft_perm (.node w.heap.cells.length e .nil .nil) hr hl
    (hd.models i) (hd.nodup i) hmem
  refine hd.of_frame i _ ?_ ?_ ?_ ?_ ?_ ?_ ?_
  · intro j hj; simp [Function.update_noteq hj]
  · simp [Shape.setLeft_root, hd.rt_eq i]
  · rw [Shape.size_eq_length, hperm.length_eq]
    simp [hd.sz_eq i, Shape.size_eq_length, Shape.addrs]
  · refine Models.setLeft (.node w.heap.cells.length e .nil .nil) hr h1
      ⟨h2, trivial, trivial⟩ (hd.models i) (hd.nodup i) ?_
    intro a ha hne
    exact h3 a (hd.addr_lt_heap ha) hne
  · rw [hperm.nodup_iff, List.nodup_append]
    refine ⟨hd.nodup i, by simp [Shape.addrs], ?_⟩
    intro a ha hb
    simp only [Shape.addrs, List.append_nil, List.mem_singleton] at hb
    subst hb
    exact absurd (hd.addr_lt_heap ha) (lt_irrefl _)
  · intro j hj a ha
    refine h3 a (hd.addr_lt_heap ha) ?_
    rintro rfl
    exact hd.disjoint j i hj _ ha hmem
  · intro j hj a ha hmemj
    rw [hperm.mem_iff] at ha
    simp only [Shape.addrs, List.append_nil, List.mem_append, List.mem_singleton] at ha
    rcases ha with ha | rfl
    · exact hd.disjoint i j (fun h => hj h.symm) a ha hmemj
    · exact absurd (hd.addr_lt_heap hmemj) (lt_irrefl _)

theorem Describes.after_add_right {E : Type} {w : World E} {shapes : Nat → Shape E}
    (hd : Describes w shapes) {i n : Nat} {nd : Node E} (e : E)
    (hmem : n ∈ (shapes i).addrs) (hr : w.heap.read n = some nd) (hl : nd.right = none) :
    Describes (⟨(w.heap.alloc ⟨e, some n, none, none⟩).1.write n
          { nd with right := some w.heap.cells.length },
        Function.update w.trees i { w.trees i with sz := (w.trees i).sz + 1 }⟩ : World E)
      (Function.update shapes i
        (Shape.setRight n (.node w.heap.cells.length e .nil .nil) (shapes i))) := by
  have hn : n < w.heap.cells.length := Heap.read_lt hr
  obtain ⟨h1, h2, h3⟩ := Heap.read_alloc_write w.heap ⟨e, some n, none, none⟩
    { nd with right := some w.heap.cells.length } hn
  have hperm := Shape.setRight_perm (.node w.heap.cells.length e .nil .nil) hr hl
    (hd.models i) (hd.nodup i) hmem
  refine hd.of_frame i _ ?_ ?_ ?_ ?_ ?_ ?_ ?_
  · intro j hj; simp [Function.update_noteq hj]
  · simp [Shape.setRight_root, hd.rt_eq i]
  · rw [Shape.size_eq_length, hperm.length_eq]
    simp [hd.sz_eq i, Shape.size_eq_length, Shape.addrs]
  · refine Models.setRight (.node w.heap.cells.length e .nil .nil) hr h1
      ⟨h2, trivial, trivial⟩ (hd.models i) (hd.nodup i) ?_
    intro a ha hne
    exact h3 a (hd.addr_lt_heap ha) hne
  · rw [hperm.nodup_iff, List.nodup_append]
    refine ⟨hd.nodup i, by simp [Shape.addrs], ?_⟩
    intro a ha hb
    simp only [Shape.addrs, List.append_nil, List.mem_singleton] at hb
    subst hb
    exact absurd (hd.addr_lt_heap ha) (lt_irrefl _)
  · intro j hj a ha
    refine h3 a (hd.addr_lt_heap ha) ?_
    rintro rfl
    exact hd.disjoint j i hj _ ha hmem
  · intro j hj a ha hmemj
    rw [hperm.mem_iff] at ha
    simp only [Shape.addrs, List.append_nil, List.mem_append, List.mem_singleton] at ha
    rcases ha with ha | rfl
    · exact hd.disjoint i j (fun h => hj h.symm) a ha hmemj
    · exact absurd (hd.addr_lt_heap hmemj) (lt_irrefl _)

/-! ## Finding a node inside a held shape -/

/-- Everything the heap says about a node `n` of a held shape: its record, the two subshapes
below it, and (unless it is the root of the shape) its parent, which points back at it. -/
theorem Models.locate {E : Type} {h : Heap E} {n : Nat} :
    ∀ {s : Shape E} {par : Option Nat}, Models h par s → s.addrs.Nodup → n ∈ s.addrs →
      ∃ (e : E) (p : Option Nat) (l r : Shape E),
        h.read n = some ⟨e, p, l.root, r.root⟩ ∧ Models h (some n) l ∧ Models h (some n) r ∧
        (n :: (l.addrs ++ r.addrs)).Nodup ∧
        (∀ a, a ∈ l.addrs → a ∈ s.addrs) ∧ (∀ a, a ∈ r.addrs → a ∈ s.addrs) ∧
        ((s.root = some n ∧ p = par) ∨
         (s.root ≠ some n ∧ ∃ (pa : Nat) (pd : Node E), p = some pa ∧ pa ∈ s.addrs ∧ pa ≠ n ∧
            pa ∉ l.addrs ∧ pa ∉ r.addrs ∧ h.read pa = some pd ∧
            (pd.left = some n ∨ pd.right = some n))) := by
  intro s
  induction s with
  | nil => intro par _ _ hmem; simp [Shape.addrs] at hmem
  | node a e l r ihl ihr =>
    intro par hm hnd hmem
    have hnd0 := hnd
    obtain ⟨hr, hl, hrr⟩ := hm
    simp only [Shape.addrs, List.nodup_cons, List.mem_append, not_or, List.nodup_append] at hnd
    obtain ⟨⟨hal, har⟩, hndl, hndr, hdisj⟩ := hnd
    by_cases ha : a = n
    · subst ha
      refine ⟨e, par, l, r, hr, hl, hrr, hnd0, ?_, ?_, Or.inl ⟨rfl, rfl⟩⟩
      · intro b hb; simp [Shape.addrs, hb]
      · intro b hb; simp [Shape.addrs, hb]
    · simp only [Shape.addrs, List.mem_cons, List.mem_append] at hmem
      have key : ∀ (t : Shape E), Models h (some a) t → t.addrs.Nodup → n ∈ t.addrs →
          (∀ b, b ∈ t.addrs → b ∈ (Shape.node a e l r).addrs) → a ∉ t.addrs →
          (t.root = some n → (⟨e, par, l.root, r.root⟩ : Node E).left = some n ∨
            (⟨e, par, l.root, r.root⟩ : Node E).right = some n) →
          (∀ {par : Option Nat}, Models h par t → t.addrs.Nodup → n ∈ t.addrs →
            ∃ (e : E) (p : Option Nat) (l r : Shape E),
              h.read n = some ⟨e, p, l.root, r.root⟩ ∧ Models h (some n) l ∧
              Models h (some n) r ∧ (n :: (l.addrs ++ r.addrs)).Nodup ∧
              (∀ a, a ∈ l.addrs → a ∈ t.addrs) ∧ (∀ a, a ∈ r.addrs → a ∈ t.addrs) ∧
              ((t.root = some n ∧ p = par) ∨
               (t.root ≠ some n ∧ ∃ (pa : Nat) (pd : Node E), p = some pa ∧ pa ∈ t.addrs ∧
                  pa ≠ n ∧ pa ∉ l.addrs ∧ pa ∉ r.addrs ∧ h.read pa = some pd ∧
                  (pd.left = some n ∨ pd.right = some n)))) →
          ∃ (e1 : E) (p : Option Nat) (l1 r1 : Shape E),
            h.read n = some ⟨e1, p, l1.root, r1.root⟩ ∧ Models h (some n) l1 ∧
            Models h (some n) r1 ∧ (n :: (l1.addrs ++ r1.addrs)).Nodup ∧
            (∀ b, b ∈ l1.addrs → b ∈ (Shape.node a e l r).addrs) ∧
            (∀ b, b ∈ r1.addrs → b ∈ (Shape.node a e l r).addrs) ∧
            (((Shape.node a e l r).root = some n ∧ p = par) ∨
             ((Shape.node a e l r).root ≠ some n ∧ ∃ (pa : Nat) (pd : Node E), p = some pa ∧
                pa ∈ (Shape.node a e l r).addrs ∧ pa ≠ n ∧ pa ∉ l1.addrs ∧ pa ∉ r1.addrs ∧
                h.read pa = some pd ∧ (pd.left = some n ∨ pd.right = some n))) := by
        intro t ht htnd htmem hsub hat hslot ih
        obtain ⟨e1, p, l1, r1, h1, h2, h3, h4, h5, h6, h7⟩ := ih ht htnd htmem
        refine ⟨e1, p, l1, r1, h1, h2, h3, h4, fun b hb => hsub b (h5 b hb),
          fun b hb => hsub b (h6 b hb), Or.inr ⟨?_, ?_⟩⟩
        · simp [Shape.root, ha]
        · rcases h7 with ⟨hroot, hp⟩ | ⟨_, pa, pd, hp1, hp2, hp3, hp4, hp5, hp6, hp7⟩
          · refine ⟨a, _, hp, by simp [Shape.addrs], ha, ?_, ?_, hr, hslot hroot⟩
            · intro hx; exact hat (h5 a hx)
            · intro hx; exact hat (h6 a hx)
          · exact ⟨pa, pd, hp1, hsub pa hp2, hp3, hp4, hp5, hp6, hp7⟩
      rcases hmem with hmem | hmem | hmem
      · exact absurd hmem.symm ha
      · exact key l hl hndl hmem (fun b hb => by simp [Shape.addrs, hb]) hal
          (fun hroot => Or.inl hroot) (fun hm1 hnd1 hmem1 => ihl hm1 hnd1 hmem1)
      · exact key r hrr hndr hmem (fun b hb => by simp [Shape.addrs, hb]) har
          (fun hroot => Or.inr hroot) (fun hm1 hnd1 hmem1 => ihr hm1 hnd1 hmem1)

/-! ## Taking a node out of a shape -/

theorem Shape.remove_of_not_mem {E : Type} (n : Nat) :
    ∀ s : Shape E, n ∉ s.addrs → Shape.remove n s = s := by
  intro s
  induction s with
  | nil => intro _; rfl
  | node a e l r ihl ihr =>
    intro hn
    simp only [Shape.addrs, List.mem_cons, List.mem_append, not_or] at hn
    have ha : a ≠ n := fun h => hn.1 h.symm
    simp [Shape.remove, ha, ihl hn.2.1, ihr hn.2.2]

theorem Shape.remove_root_of_ne {E : Type} (n : Nat) (s : Shape E) (h : s.root ≠ some n) :
    (Shape.remove n s).root = s.root := by
  cases s with
  | nil => rfl
  | node a e l r =>
    have ha : a ≠ n := by simpa [Shape.root] using h
    simp [Shape.remove, ha, Shape.root]

/-- Removing the root of a shape leaves the subshape that `erase` calls `child`. -/
theorem Shape.remove_root_eq {E : Type} (n : Nat) (e : E) (p : Option Nat) (l r : Shape E)
    (hle : l.root = none ∨ r.root = none) :
    (Shape.remove n (.node n e l r)).root = erase_child (⟨e, p, l.root, r.root⟩ : Node E) ∧
    (Shape.remove n (.node n e l r) = l ∨ Shape.remove n (.node n e l r) = r) ∧
    (Shape.remove n (.node n e l r)).addrs = l.addrs ++ r.addrs := by
  cases l with
  | nil => simp [Shape.remove, erase_child, Shape.root, Shape.addrs]
  | node b e1 l1 r1 =>
    have hr : r = .nil := by
      rcases hle with h | h
      · simp [Shape.root] at h
      · exact Shape.root_eq_none h
    subst hr
    simp [Shape.remove, erase_child, Shape.root, Shape.addrs]

theorem Shape.addrs_remove {E : Type} {h : Heap E} {n : Nat} {nd : Node E}
    (hn : h.read n = some nd) (hle : nd.left = none ∨ nd.right = none) :
    ∀ {s : Shape E} {par : Option Nat}, Models h par s → s.addrs.Nodup →
      (Shape.remove n s).addrs = s.addrs.erase n := by
  intro s
  induction s with
  | nil => intro par _ _; rfl
  | node a e l r ihl ihr =>
    intro par hm hnd
    obtain ⟨hr, hl, hrr⟩ := hm
    simp only [Shape.addrs, List.nodup_cons, List.mem_append, not_or, List.nodup_append] at hnd
    obtain ⟨⟨hal, har⟩, hndl, hndr, hdisj⟩ := hnd
    by_cases ha : a = n
    · subst ha
      rw [hn] at hr
      simp only [Option.some.injEq] at hr
      subst hr
      rw [(Shape.remove_root_eq a e par l r hle).2.2]
      simp [Shape.addrs]
    · have hne : ¬((a == n) = true) := by simpa using ha
      simp only [Shape.remove, if_neg ha, Shape.addrs]
      rw [List.erase_cons_tail hne, ihl hl hndl, ihr hrr hndr]
      congr 1
      by_cases hmem : n ∈ l.addrs
      · have hnr : n ∉ r.addrs := fun hx => hdisj hmem hx
        rw [List.erase_append_left _ hmem, List.erase_of_not_mem hnr]
      · rw [List.erase_append_right _ hmem, List.erase_of_not_mem hmem]

theorem Models.child_mem {E : Type} {h : Heap E} {n c : Nat} {nd : Node E}
    {s : Shape E} {par : Option Nat} (hm : Models h par s) (hnd : s.addrs.Nodup)
    (hmem : n ∈ s.addrs) (hn : h.read n = some nd) (hc : erase_child nd = some c) :
    c ∈ s.addrs ∧ c ≠ n ∧ ∃ cd, h.read c = some cd := by
  obtain ⟨e, p, l, r, h1, _, _, h4, h5, h6, _⟩ := hm.locate hnd hmem
  rw [hn] at h1
  simp only [Option.some.injEq] at h1
  subst h1
  simp only [List.nodup_cons, List.mem_append, not_or] at h4
  have hcm : c ∈ l.addrs ∨ c ∈ r.addrs := by
    unfold erase_child at hc
    by_cases hl : l.root = none
    · simp only [hl, ne_eq, not_true_eq_false, if_false] at hc
      exact Or.inr (Shape.root_mem hc)
    · simp only [ne_eq, hl, not_false_eq_true, if_true] at hc
      exact Or.inl (Shape.root_mem hc)
  have hcs : c ∈ s.addrs := hcm.elim (h5 c) (h6 c)
  refine ⟨hcs, ?_, hm.live c hcs⟩
  rintro rfl
  exact hcm.elim h4.1.1 h4.1.2

/-- A node of a held shape is its root, or has a live parent in the shape that points at it
and is neither the node nor its child. -/
theorem Models.parent_info {E : Type} {h : Heap E} {n : Nat} {nd : Node E}
    {s : Shape E} {par : Option Nat} (hm : Models h par s) (hnd : s.addrs.Nodup)
    (hmem : n ∈ s.addrs) (hn : h.read n = some nd) :
    (s.root = some n ∧ nd.par = par) ∨
    (s.root ≠ some n ∧ ∃ (pa : Nat) (pd : Node E), nd.par = some pa ∧ pa ∈ s.addrs ∧ pa ≠ n ∧
      some pa ≠ erase_child nd ∧ h.read pa = some pd ∧
      (pd.left = some n ∨ pd.right = some n)) := by
  obtain ⟨e, p, l, r, h1, _, _, _, _, _, h7⟩ := hm.locate hnd hmem
  rw [hn] at h1
  simp only [Option.some.injEq] at h1
  subst h1
  rcases h7 with ⟨hroot, hp⟩ | ⟨hroot, pa, pd, hp1, hp2, hp3, hp4, hp5, hp6, hp7⟩
  · exact Or.inl ⟨hroot, hp⟩
  · refine Or.inr ⟨hroot, pa, pd, hp1, hp2, hp3, ?_, hp6, hp7⟩
    intro hc
    unfold erase_child at hc
    by_cases hl : l.root = none
    · simp only [hl, ne_eq, not_true_eq_false, if_false] at hc
      exact hp5 (Shape.root_mem hc.symm)
    · simp only [ne_eq, hl, not_false_eq_true, if_true] at hc
      exact hp4 (Shape.root_mem hc.symm)

/-- A node outside the subshape that contains the erased node, and which is not the parent
of that subshape, was not written by `erase`. -/
theorem Erased.read_outside {E : Type} {h h1 : Heap E} {n : Nat} {nd : Node E}
    (her : Erased h n nd h1) (hn : h.read n = some nd)
    {t : Shape E} {par : Option Nat} (hm : Models h par t) (hnd : t.addrs.Nodup)
    (hmem : n ∈ t.addrs) {b : Nat} (hb : b ∉ t.addrs) (hbp : some b ≠ par) :
    h1.read b = h.read b := by
  refine her.rest b ?_ ?_ ?_
  · rintro rfl; exact hb hmem
  · intro hc
    exact hb (hm.child_mem hnd hmem hn hc.symm).1
  · rcases hm.parent_info hnd hmem hn with ⟨_, hp⟩ | ⟨_, pa, pd, hp1, hp2, _⟩
    · rw [hp]; exact hbp
    · rw [hp1]
      intro heq
      simp only [Option.some.injEq] at heq
      subst heq
      exact hb hp2

theorem Models.remove_root {E : Type} {h h1 : Heap E} {n : Nat} {nd : Node E}
    (her : Erased h n nd h1) (hn : h.read n = some nd)
    (hle : nd.left = none ∨ nd.right = none) {e : E} {l r : Shape E} {par : Option Nat}
    (hm : Models h par (.node n e l r)) (hnd : (Shape.node n e l r).addrs.Nodup)
    (hpar : ∀ b, b ∈ l.addrs ++ r.addrs → some b ≠ par) :
    Models h1 par (Shape.remove n (.node n e l r)) := by
  obtain ⟨hrn, hl, hrr⟩ := hm
  rw [hn] at hrn
  simp only [Option.some.injEq] at hrn
  subst hrn
  obtain ⟨hroot, hsel, _⟩ := Shape.remove_root_eq n e par l r hle
  simp only [Shape.addrs, List.nodup_cons, List.mem_append, not_or, List.nodup_append] at hnd
  obtain ⟨⟨hal, har⟩, hndl, hndr, _⟩ := hnd
  have main : ∀ X : Shape E, Models h (some n) X → X.addrs.Nodup →
      (∀ b, b ∈ X.addrs → b ∈ l.addrs ++ r.addrs) →
      X.root = erase_child (⟨e, par, l.root, r.root⟩ : Node E) → Models h1 par X := by
    intro X hX hXnd hsub hXroot
    refine hX.reparent hXnd ?_ ?_
    · intro c cd hc hcd
      exact her.child c cd (hXroot ▸ hc) hcd
    · intro b hb hbroot
      refine her.rest b ?_ ?_ ?_
      · rintro rfl
        have := hsub b hb
        simp only [List.mem_append] at this
        exact this.elim hal har
      · rw [← hXroot]; exact fun hx => hbroot hx.symm
      · exact hpar b (hsub b hb)
  rcases hsel with hx | hx
  · rw [hx] at hroot ⊢
    exact main l hl hndl (fun b hb => by simp [hb]) hroot
  · rw [hx] at hroot ⊢
    exact main r hrr hndr (fun b hb => by simp [hb]) hroot

theorem Models.remove_inner {E : Type} {h h1 : Heap E} {n : Nat} {nd : Node E}
    (her : Erased h n nd h1) (hn : h.read n = some nd)
    (hle : nd.left = none ∨ nd.right = none) :
    ∀ {s : Shape E} {par : Option Nat}, Models h par s → s.addrs.Nodup → n ∈ s.addrs →
      s.root ≠ some n → Models h1 par (Shape.remove n s) := by
  intro s
  induction s with
  | nil => intro par _ _ hmem; simp [Shape.addrs] at hmem
  | node a e l r ihl ihr =>
    intro par hm hnd hmem hroot
    have ha : a ≠ n := by simpa [Shape.root] using hroot
    obtain ⟨hr, hl, hrr⟩ := hm
    simp only [Shape.addrs, List.nodup_cons, List.mem_append, not_or, List.nodup_append] at hnd
    obtain ⟨⟨hal, har⟩, hndl, hndr, hdisj⟩ := hnd
    simp only [Shape.addrs, List.mem_cons, List.mem_append] at hmem
    simp only [Shape.remove, if_neg ha]
    rcases hmem with hmem | hmem | hmem
    · exact absurd hmem.symm ha
    · have hnr : n ∉ r.addrs := fun hx => hdisj hmem hx
      rw [Shape.remove_of_not_mem n r hnr]
      have hframe : Models h1 (some a) r := hrr.frame (fun b hb =>
        her.read_outside hn hl hndl hmem (fun hx => hdisj hx hb)
          (by intro hx; simp only [Option.some.injEq] at hx; subst hx; exact har hb))
      by_cases hlr : l.root = some n
      · cases l with
        | nil => simp [Shape.root] at hlr
        | node b e1 l1 r1 =>
          simp only [Shape.root, Option.some.injEq] at hlr
          subst hlr
          have hl0 := hl
          obtain ⟨hrn, _, _⟩ := hl
          rw [hn] at hrn
          simp only [Option.some.injEq] at hrn
          subst hrn
          obtain ⟨hroot_eq, _, _⟩ := Shape.remove_root_eq b e1 (some a) l1 r1 hle
          refine ⟨?_, Models.remove_root her hn hle hl0 hndl ?_, hframe⟩
          · rw [her.parent a _ rfl hr, hroot_eq]
            simp [Shape.root]
          · intro c hc hx
            simp only [Option.some.injEq] at hx
            subst hx
            apply hal
            simp only [Shape.addrs, List.mem_cons]
            exact Or.inr hc
      · refine ⟨?_, ihl hl hndl hmem hlr, hframe⟩
        rw [Shape.remove_root_of_ne n l hlr, her.rest a ha ?_ ?_, hr]
        · intro hc
          exact hal (hl.child_mem hndl hmem hn hc.symm).1
        · rcases hl.parent_info hndl hmem hn with ⟨hr1, _⟩ | ⟨_, pa, pd, hp1, hp2, _⟩
          · exact absurd hr1 hlr
          · rw [hp1]
            intro heq
            simp only [Option.some.injEq] at heq
            subst heq
            exact hal hp2
    · have hnl : n ∉ l.addrs := fun hx => hdisj hx hmem
      rw [Shape.remove_of_not_mem n l hnl]
      have hframe : Models h1 (some a) l := hl.frame (fun b hb =>
        her.read_outside hn hrr hndr hmem (fun hx => hdisj hb hx)
          (by intro hx; simp only [Option.some.injEq] at hx; subst hx; exact hal hb))
      by_cases hrr1 : r.root = some n
      · cases r with
        | nil => simp [Shape.root] at hrr1
        | node b e1 l1 r1 =>
          simp only [Shape.root, Option.some.injEq] at hrr1
          subst hrr1
          have hr0 := hrr
          obtain ⟨hrn, _, _⟩ := hrr
          rw [hn] at hrn
          simp only [Option.some.injEq] at hrn
          subst hrn
          obtain ⟨hroot_eq, _, _⟩ := Shape.remove_root_eq b e1 (some a) l1 r1 hle
          have hlne : l.root ≠ some b := fun hx => hnl (Shape.root_mem hx)
          refine ⟨?_, hframe, Models.remove_root her hn hle hr0 hndr ?_⟩
          · rw [her.parent a _ rfl hr, hroot_eq,
              if_neg (show ¬ ((⟨e, par, l.root, (Shape.node b e1 l1 r1).root⟩ : Node E).left
                = some b) from hlne)]
          · intro c hc hx
            simp only [Option.some.injEq] at hx
            subst hx
            apply har
            simp only [Shape.addrs, List.mem_cons]
            exact Or.inr hc
      · refine ⟨?_, hframe, ihr hrr hndr hmem hrr1⟩
        rw [Shape.remove_root_of_ne n r hrr1, her.rest a ha ?_ ?_, hr]
        · intro hc
          exact har (hrr.child_mem hndr hmem hn hc.symm).1
        · rcases hrr.parent_info hndr hmem hn with ⟨hr1, _⟩ | ⟨_, pa, pd, hp1, hp2, _⟩
          · exact absurd hr1 hrr1
          · rw [hp1]
            intro heq
            simp only [Option.some.injEq] at heq
            subst heq
            exact har hp2

/-! ## `erase` on a node of a described tree -/

theorem erase_reparent_spec {E : Type} (h : Heap E) (child p : Option Nat)
    (hlive : ∀ c, child = some c → ∃ cd, h.read c = some cd) :
    ∃ h1, erase_reparent h child p = some h1 ∧ h1.cells.length = h.cells.length ∧
      (∀ c cd, child = some c → h.read c = some cd → h1.read c = some { cd with par := p }) ∧
      (∀ a, some a ≠ child → h1.read a = h.read a) := by
  cases child with
  | none =>
    exact ⟨h, rfl, rfl, fun c cd hc => by simp at hc, fun a _ => rfl⟩
  | some c =>
    obtain ⟨cd, hcd⟩ := hlive c rfl
    refine ⟨h.write c { cd with par := p }, by simp [erase_reparent, hcd],
      Heap.length_write _ _ _, ?_, ?_⟩
    · intro c1 cd1 hc1 hcd1
      simp only [Option.some.injEq] at hc1
      subst hc1
      rw [hcd] at hcd1
      simp only [Option.some.injEq] at hcd1
      subst hcd1
      exact Heap.read_write_eq _ _ _ (Heap.read_lt hcd)
    · intro a ha
      exact Heap.read_write_ne _ _ (fun hx => ha (by rw [hx]))

theorem erase_unlink_spec {E : Type} (h : Heap E) (n : Nat) (child : Option Nat)
    {nd pd : Node E} {pa : Nat} (hn : h.read n = some nd) (hp : nd.par = some pa)
    (hpa : h.read pa = some pd) :
    ∃ h2, erase_unlink h n child = some h2 ∧ h2.cells.length = h.cells.length ∧
      h2.read pa = some (if pd.left = some n then { pd with left := child }
        else { pd with right := child }) ∧
      (∀ a, a ≠ pa → h2.read a = h.read a) := by
  by_cases hl : pd.left = some n
  · refine ⟨h.write pa { pd with left := child }, by simp [erase_unlink, hn, hp, hpa, hl],
      Heap.length_write _ _ _, ?_, ?_⟩
    · rw [if_pos hl]; exact Heap.read_write_eq _ _ _ (Heap.read_lt hpa)
    · intro a ha; exact Heap.read_write_ne _ _ (fun hx => ha hx.symm)
  · refine ⟨h.write pa { pd with right := child }, by simp [erase_unlink, hn, hp, hpa, hl],
      Heap.length_write _ _ _, ?_, ?_⟩
    · rw [if_neg hl]; exact Heap.read_write_eq _ _ _ (Heap.read_lt hpa)
    · intro a ha; exact Heap.read_write_ne _ _ (fun hx => ha hx.symm)

/-- On a node with at most one child of a described tree, `erase` returns normally; the heap
it leaves is related to the old one by `Erased`, and the tree object gets the child as root
when the node was the root. -/
theorem erase_done {E : Type} {w : World E} {shapes : Nat → Shape E}
    (hd : Describes w shapes) {i n : Nat} {nd : Node E}
    (hmem : n ∈ (shapes i).addrs) (hr : w.heap.read n = some nd)
    (hle : nd.left = none ∨ nd.right = none) :
    ∃ h1, Erased w.heap n nd h1 ∧
      erase w i ⟨some n⟩ = .done ⟨h1, Function.update w.trees i
        ⟨if (w.trees i).rt = some n then erase_child nd else (w.trees i).rt,
          (w.trees i).sz - 1⟩⟩ := by
  have hm := hd.models i
  have hnd := hd.nodup i
  have hnot : ¬(nd.left ≠ none ∧ nd.right ≠ none) := by
    rintro ⟨h1, h2⟩; exact hle.elim h1 h2
  obtain ⟨h1, he1, hlen1, hc1, hrest1⟩ := erase_reparent_spec w.heap (erase_child nd) nd.par
    (fun c hc => (hm.child_mem hnd hmem hr hc).2.2)
  have hn1 : h1.read n = some nd := by
    rw [hrest1 n ?_, hr]
    intro hc
    exact (hm.child_mem hnd hmem hr hc.symm).2.1 rfl
  rcases hm.parent_info hnd hmem hr with ⟨hroot, hp⟩ | ⟨hroot, pa, pd, hp1, hp2, hp3, hp4, hp5, _⟩
  · have hrt : (w.trees i).rt = some n := by rw [hd.rt_eq i, hroot]
    refine ⟨h1.free n, ⟨Heap.read_free_eq _ _, ?_, ?_, ?_, ?_⟩, ?_⟩
    · intro c cd hc hcd
      rw [Heap.read_free_ne _ (fun hx => (hm.child_mem hnd hmem hr hc).2.1 hx.symm)]
      exact hc1 c cd hc hcd
    · intro pa pd hpa; rw [hp] at hpa; simp at hpa
    · intro a ha hac _
      rw [Heap.read_free_ne _ (fun hx => ha hx.symm), hrest1 a hac]
    · rw [Heap.length_free, hlen1]
    · simp [erase, hr, hnot, he1, hrt]
  · have hrt : (w.trees i).rt ≠ some n := by rw [hd.rt_eq i]; exact hroot
    have hrt1 : ¬ (some n = (w.trees i).rt) := fun hx => hrt hx.symm
    have hpa1 : h1.read pa = some pd := by rw [hrest1 pa hp4, hp5]
    obtain ⟨h2, he2, hlen2, hpar2, hrest2⟩ :=
      erase_unlink_spec h1 n (erase_child nd) hn1 hp1 hpa1
    refine ⟨h2.free n, ⟨Heap.read_free_eq _ _, ?_, ?_, ?_, ?_⟩, ?_⟩
    · intro c cd hc hcd
      have hcn : c ≠ n := (hm.child_mem hnd hmem hr hc).2.1
      have hcp : c ≠ pa := by
        rintro rfl; exact hp4 hc.symm
      rw [Heap.read_free_ne _ (fun hx => hcn hx.symm), hrest2 c hcp]
      exact hc1 c cd hc hcd
    · intro pa1 pd1 hpa hpd
      rw [hp1] at hpa
      simp only [Option.some.injEq] at hpa
      subst hpa
      rw [hp5] at hpd
      simp only [Option.some.injEq] at hpd
      subst hpd
      rw [Heap.read_free_ne _ (fun hx => hp3 hx.symm), hpar2]
    · intro a ha hac hap
      have hapa : a ≠ pa := by
        rintro rfl; exact hap hp1.symm
      rw [Heap.read_free_ne _ (fun hx => ha hx.symm), hrest2 a hapa, hrest1 a hac]
    · rw [Heap.length_free, hlen2, hlen1]
    · simp [erase, hr, hnot, he1, hrt1, he2, if_neg hrt]

/-- The world left by `erase` is described by the old shapes with the node taken out. -/
theorem Describes.after_erase {E : Type} {w : World E} {shapes : Nat → Shape E}
    (hd : Describes w shapes) {i n : Nat} {nd : Node E} {h1 : Heap E}
    (hmem : n ∈ (shapes i).addrs) (hr : w.heap.read n = some nd)
    (hle : nd.left = none ∨ nd.right = none) (her : Erased w.heap n nd h1) :
    Describes (⟨h1, Function.update w.trees i
        ⟨if (w.trees i).rt = some n then erase_child nd else (w.trees i).rt,
          (w.trees i).sz - 1⟩⟩ : World E)
      (Function.update shapes i (Shape.remove n (shapes i))) := by
  have hm := hd.models i
  have hnd := hd.nodup i
  have haddrs := Shape.addrs_remove hr hle hm hnd
  refine hd.of_frame i _ ?_ ?_ ?_ ?_ ?_ ?_ ?_
  · intro j hj; simp [Function.update_noteq hj]
  · simp only [Function.update_same]
    by_cases hroot : (shapes i).root = some n
    · have hrt : (w.trees i).rt = some n := by rw [hd.rt_eq i, hroot]
      rw [if_pos hrt]
      cases hs : shapes i with
      | nil => rw [hs] at hroot; simp [Shape.root] at hroot
      | node a e l r =>
        rw [hs] at hroot hm
        simp only [Shape.root, Option.some.injEq] at hroot
        subst hroot
        obtain ⟨hra, _, _⟩ := hm
        rw [hr] at hra
        simp only [Option.some.injEq] at hra
        subst hra
        exact (Shape.remove_root_eq a e none l r hle).1.symm
    · have hrt : (w.trees i).rt ≠ some n := by rw [hd.rt_eq i]; exact hroot
      rw [if_neg hrt, Shape.remove_root_of_ne n _ hroot, hd.rt_eq i]
  · simp only [Function.update_same]
    rw [Shape.size_eq_length, haddrs, List.length_erase_of_mem hmem, hd.sz_eq i,
      Shape.size_eq_length]
    have : 0 < (shapes i).addrs.length := List.length_pos_of_mem hmem
    omega
  · by_cases hroot : (shapes i).root = some n
    · cases hs : shapes i with
      | nil => rw [hs] at hroot; simp [Shape.root] at hroot
      | node a e l r =>
        rw [hs] at hroot hm hnd
        simp only [Shape.root, Option.some.injEq] at hroot
        subst hroot
        exact Models.remove_root her hr hle hm hnd (fun b _ => by simp)
    · exact Models.remove_inner her hr hle hm hnd hmem hroot
  · rw [haddrs]; exact hnd.erase n
  · intro j hj a ha
    exact her.read_outside hr hm hnd hmem (fun hx => hd.disjoint j i hj a ha hx) (by simp)
  · intro j hj a ha
    rw [haddrs] at ha
    exact hd.disjoint i j (fun hx => hj hx.symm) a (List.mem_of_mem_erase ha)

/-! ## The two blocks of `attach` -/

theorem Node.eta_left {E : Type} (nd : Node E) (hl : nd.left = none) :
    ({ nd with left := none } : Node E) = nd := by
  cases nd; simp at hl; subst hl; rfl

theorem attach_left_eval {E : Type} {w : World E} {shapes : Nat → Shape E}
    (hd : Describes w shapes) {i n src : Nat} {nd : Node E}
    (hmem : n ∈ (shapes i).addrs) (hr : w.heap.read n = some nd) (hl : nd.left = none)
    (hsrc : src ≠ i) :
    ∃ w1, attach_left w i n src = some w1 ∧ AttachedLeft w i n nd src w1 := by
  by_cases hsz : (w.trees src).sz = 0
  · have hnil : shapes src = .nil := by
      have h1 := hd.sz_eq src
      rw [hsz] at h1
      cases hs : shapes src with
      | nil => rfl
      | node a e l r => rw [hs] at h1; simp [Shape.size] at h1; omega
    have hrt : (w.trees src).rt = none := by rw [hd.rt_eq src, hnil]; rfl
    refine ⟨w, by simp [attach_left, hsz], ?_, ?_, ?_, ?_, ?_, ?_⟩
    · rw [hrt, hr, Node.eta_left nd hl]
    · intro r rd hx; rw [hrt] at hx; simp at hx
    · intro a _ _; rfl
    · rw [hsz]; simp
    · cases ht : w.trees src with
      | mk rt sz => rw [ht] at hrt hsz; simp at hrt hsz; rw [hrt, hsz]
    · intro j _ _; rfl
  · cases hs : shapes src with
    | nil =>
      have h1 := hd.sz_eq src
      rw [hs] at h1
      simp [Shape.size] at h1
      exact absurd h1 hsz
    | node r e1 l1 r1 =>
      have hrt : (w.trees src).rt = some r := by rw [hd.rt_eq src, hs]; rfl
      have hrm : r ∈ (shapes src).addrs := by rw [hs]; simp [Shape.addrs]
      have hrn : r ≠ n := by
        rintro rfl; exact hd.disjoint src i hsrc _ hrm hmem
      obtain ⟨rd, hrd⟩ := (hd.models src).live r hrm
      have hnlt := Heap.read_lt hr
      have hrlt := Heap.read_lt hrd
      have hrd1 : (w.heap.write n { nd with left := some r }).read r = some rd := by
        rw [Heap.read_write_ne _ _ (fun hx => hrn hx.symm), hrd]
      refine ⟨_, by simp [attach_left, hsz, hr, hrt, hrd1]; rfl, ?_, ?_, ?_, ?_, ?_, ?_⟩
      · simp only [hrt]
        rw [Heap.read_write_ne _ _ hrn]
        exact Heap.read_write_eq _ _ _ hnlt
      · intro r2 rd2 hx hy
        rw [hrt] at hx
        simp only [Option.some.injEq] at hx
        subst hx
        rw [hrd] at hy
        simp only [Option.some.injEq] at hy
        subst hy
        exact Heap.read_write_eq _ _ _ (by rw [Heap.length_write]; exact hrlt)
      · intro a han har
        rw [hrt] at har
        have har1 : r ≠ a := fun hx => har (by rw [hx])
        rw [Heap.read_write_ne _ _ har1, Heap.read_write_ne _ _ (fun hx => han hx.symm)]
      · simp [Function.update_apply, hsrc, Ne.symm hsrc]
      · simp [Function.update_apply]
      · intro j hj1 hj2; simp [Function.update_apply, hj1, hj2]

/-- The world after the left block of `attach` is described by the old shapes with the
source shape put below `n` and the source tree emptied. -/
theorem Describes.after_attach_left {E : Type} {w w1 : World E} {shapes : Nat → Shape E}
    (hd : Describes w shapes) {i n src : Nat} {nd : Node E}
    (hmem : n ∈ (shapes i).addrs) (hr : w.heap.read n = some nd) (hl : nd.left = none)
    (hsrc : src ≠ i) (hat : AttachedLeft w i n nd src w1) :
    Describes w1 (Function.update (Function.update shapes src .nil) i
      (Shape.setLeft n (shapes src) (shapes i))) := by
  have hrtsrc := hd.rt_eq src
  have hperm := Shape.setLeft_perm (shapes src) hr hl (hd.models i) (hd.nodup i) hmem
  have hnotin : ∀ a, a ∈ (shapes src).addrs → a ≠ n := by
    rintro a ha rfl; exact hd.disjoint src i hsrc _ ha hmem
  -- first forget the source tree, then rebuild the target tree
  have hA : Describes (⟨w.heap, Function.update w.trees src ⟨none, 0⟩⟩ : World E)
      (Function.update shapes src .nil) := by
    refine hd.of_frame src .nil ?_ (by simp [Shape.root]) ?_ trivial List.nodup_nil ?_ ?_
    · intro j hj; simp [Function.update_noteq hj]
    · simp [Shape.size]
    · intro j _ a _; rfl
    · intro j _ a ha; simp [Shape.addrs] at ha
  refine hA.of_frame i _ ?_ ?_ ?_ ?_ ?_ ?_ ?_
  · intro j hj
    by_cases hjs : j = src
    · subst hjs; simp [hat.source]
    · simp [Function.update_noteq hjs, hat.others j hj hjs]
  · rw [hat.target, Shape.setLeft_root, hd.rt_eq i]
  · rw [hat.target, Shape.size_eq_length, hperm.length_eq, List.length_append,
      hd.sz_eq i, hd.sz_eq src, Shape.size_eq_length, Shape.size_eq_length]
    push_cast; rfl
  · refine Models.setLeft (shapes src) hr (by rw [hat.node, hrtsrc]) ?_ (hd.models i)
      (hd.nodup i) ?_
    · refine (hd.models src).reparent (hd.nodup src) ?_ ?_
      · intro a ad ha had
        exact hat.root a ad (by rw [hrtsrc, ha]) had
      · intro a ha hroot
        exact hat.rest a (hnotin a ha) (by rw [hrtsrc]; exact fun hx => hroot hx.symm)
    · intro a ha han
      refine hat.rest a han ?_
      rw [hrtsrc]
      intro hx
      exact hd.disjoint src i hsrc a (Shape.root_mem hx.symm) ha
  · rw [hperm.nodup_iff, List.nodup_append]
    exact ⟨hd.nodup i, hd.nodup src,
      fun a ha hb => hd.disjoint i src (Ne.symm hsrc) a ha hb⟩
  · intro j hj a ha
    by_cases hjs : j = src
    · subst hjs; simp [Shape.addrs] at ha
    · rw [Function.update_noteq hjs] at ha
      refine hat.rest a ?_ ?_
      · rintro rfl; exact hd.disjoint j i hj _ ha hmem
      · rw [hrtsrc]
        intro hx
        exact hd.disjoint j src hjs a ha (Shape.root_mem hx.symm)
  · intro j hj a ha
    rw [hperm.mem_iff, List.mem_append] at ha
    by_cases hjs : j = src
    · subst hjs; simp [Shape.addrs]
    · rw [Function.update_noteq hjs]
      rcases ha with ha | ha
      · exact hd.disjoint i j (Ne.symm hj) a ha
      · exact hd.disjoint src j (Ne.symm hjs) a ha

theorem Node.eta_right {E : Type} (nd : Node E) (hl : nd.right = none) :
    ({ nd with right := none } : Node E) = nd := by
  cases nd; simp at hl; subst hl; rfl

theorem attach_right_eval {E : Type} {w : World E} {shapes : Nat → Shape E}
    (hd : Describes w shapes) {i n src : Nat} {nd : Node E}
    (hmem : n ∈ (shapes i).addrs) (hr : w.heap.read n = some nd) (hl : nd.right = none)
    (hsrc : src ≠ i) :
    ∃ w1, attach_right w i n src = some w1 ∧ AttachedRight w i n nd src w1 := by
  by_cases hsz : (w.trees src).sz = 0
  · have hnil : shapes src = .nil := by
      have h1 := hd.sz_eq src
      rw [hsz] at h1
      cases hs : shapes src with
      | nil => rfl
      | node a e l r => rw [hs] at h1; simp [Shape.size] at h1; omega
    have hrt : (w.trees src).rt = none := by rw [hd.rt_eq src, hnil]; rfl
    refine ⟨w, by simp [attach_right, hsz], ?_, ?_, ?_, ?_, ?_, ?_⟩
    · rw [hrt, hr, Node.eta_right nd hl]
    · intro r rd hx; rw [hrt] at hx; simp at hx
    · intro a _ _; rfl
    · rw [hsz]; simp
    · cases ht : w.trees src with
      | mk rt sz => rw [ht] at hrt hsz; simp at hrt hsz; rw [hrt, hsz]
    · intro j _ _; rfl
  · cases hs : shapes src with
    | nil =>
      have h1 := hd.sz_eq src
      rw [hs] at h1
      simp [Shape.size] at h1
      exact absurd h1 hsz
    | node r e1 l1 r1 =>
      have hrt : (w.trees src).rt = some r := by rw [hd.rt_eq src, hs]; rfl
      have hrm : r ∈ (shapes src).addrs := by rw [hs]; simp [Shape.addrs]
      have hrn : r ≠ n := by
        rintro rfl; exact hd.disjoint src i hsrc _ hrm hmem
      obtain ⟨rd, hrd⟩ := (hd.models src).live r hrm
      have hnlt := Heap.read_lt hr
      have hrlt := Heap.read_lt hrd
      have hrd1 : (w.heap.write n { nd with right := some r }).read r = some rd := by
        rw [Heap.read_write_ne _ _ (fun hx => hrn hx.symm), hrd]
      refine ⟨_, by simp [attach_right, hsz, hr, hrt, hrd1]; rfl, ?_, ?_, ?_, ?_, ?_, ?_⟩
      · simp only [hrt]
        rw [Heap.read_write_ne _ _ hrn]
        exact Heap.read_write_eq _ _ _ hnlt
      · intro r2 rd2 hx hy
        rw [hrt] at hx
        simp only [Option.some.injEq] at hx
        subst hx
        rw [hrd] at hy
        simp only [Option.some.injEq] at hy
        subst hy
        exact Heap.read_write_eq _ _ _ (by rw [Heap.length_write]; exact hrlt)
      · intro a han har
        rw [hrt] at har
        have har1 : r ≠ a := fun hx => har (by rw [hx])
        rw [Heap.read_write_ne _ _ har1, Heap.read_write_ne _ _ (fun hx => han hx.symm)]
      · simp [Function.update_apply, hsrc, Ne.symm hsrc]
      · simp [Function.update_apply]
      · intro j hj1 hj2; simp [Function.update_apply, hj1, hj2]

/-- The world after the right block of `attach` is described by the old shapes with the
source shape put below `n` and the source tree emptied. -/
theorem Describes.after_attach_right {E : Type} {w w1 : World E} {shapes : Nat → Shape E}
    (hd : Describes w shapes) {i n src : Nat} {nd : Node E}
    (hmem : n ∈ (shapes i).addrs) (hr : w.heap.read n = some nd) (hl : nd.right = none)
    (hsrc : src ≠ i) (hat : AttachedRight w i n nd src w1) :
    Describes w1 (Function.update (Function.update shapes src .nil) i
      (Shape.setRight n (shapes src) (shapes i))) := by
  have hrtsrc := hd.rt_eq src
  have hperm := Shape.setRight_perm (shapes src) hr hl (hd.models i) (hd.nodup i) hmem
  have hnotin : ∀ a, a ∈ (shapes src).addrs → a ≠ n := by
    rintro a ha rfl; exact hd.disjoint src i hsrc _ ha hmem
  -- first forget the source tree, then rebuild the target tree
  have hA : Describes (⟨w.heap, Function.update w.trees src ⟨none, 0⟩⟩ : World E)
      (Function.update shapes src .nil) := by
    refine hd.of_frame src .nil ?_ (by simp [Shape.root]) ?_ trivial List.nodup_nil ?_ ?_
    · intro j hj; simp [Function.update_noteq hj]
    · simp [Shape.size]
    · intro j _ a _; rfl
    · intro j _ a ha; simp [Shape.addrs] at ha
  refine hA.of_frame i _ ?_ ?_ ?_ ?_ ?_ ?_ ?_
  · intro j hj
    by_cases hjs : j = src
    · subst hjs; simp [hat.source]
    · simp [Function.update_noteq hjs, hat.others j hj hjs]
  · rw [hat.target, Shape.setRight_root, hd.rt_eq i]
  · rw [hat.target, Shape.size_eq_length, hperm.length_eq, List.length_append,
      hd.sz_eq i, hd.sz_eq src, Shape.size_eq_length, Shape.size_eq_length]
    push_cast; rfl
  · refine Models.setRight (shapes src) hr (by rw [hat.node, hrtsrc]) ?_ (hd.models i)
      (hd.nodup i) ?_
    · refine (hd.models src).reparent (hd.nodup src) ?_ ?_
      · intro a ad ha had
        exact hat.root a ad (by rw [hrtsrc, ha]) had
      · intro a ha hroot
        exact hat.rest a (hnotin a ha) (by rw [hrtsrc]; exact fun hx => hroot hx.symm)
    · intro a ha han
      refine hat.rest a han ?_
      rw [hrtsrc]
      intro hx
      exact hd.disjoint src i hsrc a (Shape.root_mem hx.symm) ha
  · rw [hperm.nodup_iff, List.nodup_append]
    exact ⟨hd.nodup i, hd.nodup src,
      fun a ha hb => hd.disjoint i src (Ne.symm hsrc) a ha hb⟩
  · intro j hj a ha
    by_cases hjs : j = src
    · subst hjs; simp [Shape.addrs] at ha
    · rw [Function.update_noteq hjs] at ha
      refine hat.rest a ?_ ?_
      · rintro rfl; exact hd.disjoint j i hj _ ha hmem
      · rw [hrtsrc]
        intro hx
        exact hd.disjoint j src hjs a ha (Shape.root_mem hx.symm)
  · intro j hj a ha
    rw [hperm.mem_iff, List.mem_append] at ha
    by_cases hjs : j = src
    · subst hjs; simp [Shape.addrs]
    · rw [Function.update_noteq hjs]
      rcases ha with ha | ha
      · exact hd.disjoint i j (Ne.symm hj) a ha
      · exact hd.disjoint src j (Ne.symm hjs) a ha

/-! ## `attach` on a leaf of a described tree -/

theorem attach_done {E : Type} {w : World E} {shapes : Nat → Shape E}
    (hd : Describes w shapes) {i n l r : Nat} {nd : Node E}
    (hmem : n ∈ (shapes i).addrs) (hr : w.heap.read n = some nd)
    (hl : nd.left = none) (hrr : nd.right = none) (hli : l ≠ i) (hri : r ≠ i) (hlr : l ≠ r) :
    ∃ w1 w2, attach w i ⟨some n⟩ l r = .done w2 ∧
      AttachedLeft w i n nd l w1 ∧
      AttachedRight w1 i n { nd with left := (w.trees l).rt } r w2 ∧
      Describes w2 (Function.update (Function.update
        (Function.update (Function.update shapes l .nil) i
          (Shape.setLeft n (shapes l) (shapes i))) r .nil) i
        (Shape.setRight n (shapes r) (Shape.setLeft n (shapes l) (shapes i)))) := by
  obtain ⟨w1, he1, hat1⟩ := attach_left_eval hd hmem hr hl hli
  have hd1 := hd.after_attach_left hmem hr hl hli hat1
  have hperm := Shape.setLeft_perm (shapes l) hr hl (hd.models i) (hd.nodup i) hmem
  have hmem1 : n ∈ ((Function.update (Function.update shapes l .nil) i
      (Shape.setLeft n (shapes l) (shapes i))) i).addrs := by
    rw [Function.update_same, hperm.mem_iff]
    exact List.mem_append_left _ hmem
  obtain ⟨w2, he2, hat2⟩ := attach_right_eval hd1 hmem1 hat1.node hrr hri
  have hd2 := hd1.after_attach_right hmem1 hat1.node hrr hri hat2
  have hsr : (Function.update (Function.update shapes l .nil) i
      (Shape.setLeft n (shapes l) (shapes i))) r = shapes r := by
    rw [Function.update_noteq hri, Function.update_noteq (Ne.symm hlr)]
  rw [hsr, Function.update_same] at hd2
  refine ⟨w1, w2, ?_, hat1, hat2, hd2⟩
  have hnot : ¬(nd.left ≠ none ∨ nd.right ≠ none) := by
    rintro (h1 | h1)
    · exact h1 hl
    · exact h1 hrr
  simp [attach, hr, hnot, he1, he2]

/-! ## What `positions()` returns on a described tree -/

/-- Whatever the fuel, if `preorder` returns on a held shape it has appended its addresses. -/
theorem preorder_models_inv {E : Type} {h : Heap E} :
    ∀ {s : Shape E} {par : Option Nat}, Models h par s →
      ∀ (fuel : Nat) (v ps : List Position), preorder h fuel s.root v = some ps →
        ps = v ++ s.addrs.map pos := by
  intro s
  induction s with
  | nil =>
    intro par _ fuel v ps hp
    cases fuel with
    | zero => simp [preorder] at hp
    | succ f =>
      simp only [preorder, Shape.root, Option.some.injEq] at hp
      simp [Shape.addrs, hp]
  | node a e l r ihl ihr =>
    intro par hm fuel v ps hp
    obtain ⟨hr, hl, hrr⟩ := hm
    cases fuel with
    | zero => simp [preorder] at hp
    | succ f =>
      rw [show (Shape.node a e l r).root = some a from rfl] at hp
      simp only [preorder, hr] at hp
      cases h1 : preorder h f l.root (v ++ [⟨some a⟩]) with
      | none => rw [h1] at hp; simp at hp
      | some v1 =>
        rw [h1] at hp
        simp only at hp
        have e1 := ihl hl f _ _ h1
        have e2 := ihr hrr f _ _ hp
        rw [e2, e1]
        simp [Shape.addrs, pos]

theorem Describes.positions_eq {E : Type} {w : World E} {shapes : Nat → Shape E}
    (hd : Describes w shapes) (i : Nat) {fuel : Nat} (hf : w.heap.cells.length < fuel) :
    positions fuel w i = some ((shapes i).addrs.map pos) := by
  unfold positions
  rw [hd.rt_eq i, preorder_models (hd.models i) fuel [] ((hd.models i).height_lt (hd.nodup i) hf)]
  simp

theorem Describes.mem_of_live {E : Type} {w : World E} {shapes : Nat → Shape E}
    (hd : Describes w shapes) {i : Nat} {p : Position} (hp : Live w i p) :
    ∃ n nd, p = ⟨some n⟩ ∧ n ∈ (shapes i).addrs ∧ w.heap.read n = some nd := by
  obtain ⟨fuel, ps, hps, hmem⟩ := hp
  unfold positions at hps
  rw [hd.rt_eq i] at hps
  have := preorder_models_inv (hd.models i) fuel [] ps hps
  rw [this] at hmem
  simp only [List.nil_append, List.mem_map] at hmem
  obtain ⟨n, hn, rfl⟩ := hmem
  obtain ⟨nd, hnd⟩ := (hd.models i).live n hn
  exact ⟨n, nd, rfl, hn, hnd⟩

theorem Describes.live_of_mem {E : Type} {w : World E} {shapes : Nat → Shape E}
    (hd : Describes w shapes) {i n : Nat} (hn : n ∈ (shapes i).addrs) :
    Live w i ⟨some n⟩ :=
  ⟨w.heap.cells.length + 1, _, hd.positions_eq i (Nat.lt_succ_self _),
    List.mem_map.2 ⟨n, hn, rfl⟩⟩

/-! ## Reachable worlds are well formed -/

theorem Describes.init (E : Type) : Describes (World.init E) (fun _ => .nil) := by
  refine ⟨fun _ => rfl, fun _ => rfl, fun _ => trivial, fun _ => List.nodup_nil, ?_⟩
  intro i j _ a ha
  simp [Shape.addrs] at ha

theorem WellFormed.step_add_root {E : Type} {w w1 : World E} {i : Nat} {e : E}
    (hw : WellFormed w) (h : add_root w i e = .done w1) : WellFormed w1 := by
  obtain ⟨shapes, hd⟩ := hw
  by_cases hrt : (w.trees i).rt = none
  · rw [add_root_done e hrt] at h
    injection h with h
    subst h
    exact ⟨_, hd.after_add_root i e⟩
  · simp [LBT.add_root, hrt] at h

theorem WellFormed.step_add_left {E : Type} {w w1 : World E} {i : Nat} {p : Position} {e : E}
    (hw : WellFormed w) (hp : Live w i p) (h : add_left w i p e = .done w1) :
    WellFormed w1 := by
  obtain ⟨shapes, hd⟩ := hw
  obtain ⟨n, nd, rfl, hn, hr⟩ := hd.mem_of_live hp
  by_cases hl : nd.left = none
  · rw [add_left_done e hr hl] at h
    injection h with h
    subst h
    exact ⟨_, hd.after_add_left e hn hr hl⟩
  · simp [LBT.add_left, hr, hl] at h

theorem WellFormed.step_add_right {E : Type} {w w1 : World E} {i : Nat} {p : Position} {e : E}
    (hw : WellFormed w) (hp : Live w i p) (h : add_right w i p e = .done w1) :
    WellFormed w1 := by
  obtain ⟨shapes, hd⟩ := hw
  obtain ⟨n, nd, rfl, hn, hr⟩ := hd.mem_of_live hp
  by_cases hl : nd.right = none
  · rw [add_right_done e hr hl] at h
    injection h with h
    subst h
    exact ⟨_, hd.after_add_right e hn hr hl⟩
  · simp [LBT.add_right, hr, hl] at h

theorem WellFormed.step_erase {E : Type} {w w1 : World E} {i : Nat} {p : Position}
    (hw : WellFormed w) (hp : Live w i p) (h : erase w i p = .done w1) :
    WellFormed w1 := by
  obtain ⟨shapes, hd⟩ := hw
  obtain ⟨n, nd, rfl, hn, hr⟩ := hd.mem_of_live hp
  by_cases hle : nd.left = none ∨ nd.right = none
  · obtain ⟨h1, her, he⟩ := erase_done hd hn hr hle
    rw [he] at h
    injection h with h
    subst h
    exact ⟨_, hd.after_erase hn hr hle her⟩
  · have hboth : nd.left ≠ none ∧ nd.right ≠ none := by
      constructor
      · intro hx; exact hle (Or.inl hx)
      · intro hx; exact hle (Or.inr hx)
    simp [LBT.erase, hr, hboth] at h

theorem WellFormed.step_attach {E : Type} {w w1 : World E} {i : Nat} {p : Position} {l r : Nat}
    (hw : WellFormed w) (hp : Live w i p) (hlr : l ≠ r) (hli : l ≠ i) (hri : r ≠ i)
    (h : attach w i p l r = .done w1) : WellFormed w1 := by
  obtain ⟨shapes, hd⟩ := hw
  obtain ⟨n, nd, rfl, hn, hr⟩ := hd.mem_of_live hp
  by_cases hleaf : nd.left = none ∧ nd.right = none
  · obtain ⟨wa, wb, he, _, _, hdb⟩ := attach_done hd hn hr hleaf.1 hleaf.2 hli hri hlr
    rw [he] at h
    injection h with h
    subst h
    exact ⟨_, hdb⟩
  · have hsome : nd.left ≠ none ∨ nd.right ≠ none := by
      by_contra hx
      push_neg at hx
      exact hleaf hx
    simp [LBT.attach, hr, hsome] at h

theorem Reachable.wellFormed {E : Type} {w : World E} (hw : Reachable w) : WellFormed w := by
  induction hw with
  | init => exact ⟨_, Describes.init E⟩
  | add_root _ h ih => exact ih.step_add_root h
  | add_left _ hp h ih => exact ih.step_add_left hp h
  | add_right _ hp h ih => exact ih.step_add_right hp h
  | erase _ hp h ih => exact ih.step_erase hp h
  | attach _ hp hlr hli hri h ih => exact ih.step_attach hp hlr hli hri h

/-! ## The sample worlds are reachable -/

theorem sample1_reachable : Reachable sample1 :=
  Reachable.add_root (i := 0) (e := 10) Reachable.init rfl

theorem sample2_reachable : Reachable sample2 :=
  Reachable.add_left (i := 0) (p := pos 0) (e := 20) sample1_reachable
    ⟨2, [pos 0], rfl, by simp⟩ rfl

theorem sample3_reachable : Reachable sample3 :=
  Reachable.add_right (i := 0) (p := pos 0) (e := 30) sample2_reachable
    ⟨3, [pos 0, pos 1], rfl, by simp⟩ rfl

theorem sample4_reachable : Reachable sample4 :=
  Reachable.add_left (i := 0) (p := pos 1) (e := 40) sample3_reachable
    ⟨3, [pos 0, pos 1, pos 2], rfl, by simp⟩ rfl

/-! ## `preorder` against the listing of the specification, and reachability -/

theorem preorder_eq_listing {E : Type} (h : Heap E) :
    ∀ (fuel : Nat) (n : Option Nat) (v : List Position),
      preorder h fuel n v = (preorder_listing h fuel n).map (fun ps => v ++ ps) := by
  intro fuel
  induction fuel with
  | zero => intro n v; rfl
  | succ f ih =>
    intro n v
    cases n with
    | none => simp [preorder, preorder_listing]
    | some a =>
      simp only [preorder, preorder_listing]
      cases hr : h.read a with
      | none => rfl
      | some nd =>
        simp only
        rw [ih nd.left]
        cases hl : preorder_listing h f nd.left with
        | none => rfl
        | some ls =>
          simp only [Option.map_some']
          rw [ih nd.right]
          cases hrr : preorder_listing h f nd.right with
          | none => rfl
          | some rs => simp

theorem Reaches.trans {E : Type} {h : Heap E} {a b c : Nat}
    (hab : Reaches h a b) (hbc : Reaches h b c) : Reaches h a c := by
  induction hbc with
  | here => exact hab
  | left _ hr hl ih => exact Reaches.left ih hr hl
  | right _ hr hl ih => exact Reaches.right ih hr hl

theorem Models.reaches_of_mem {E : Type} {h : Heap E} {a : Nat} :
    ∀ {s : Shape E} {par : Option Nat}, Models h par s → a ∈ s.addrs →
      ∃ r, s.root = some r ∧ Reaches h r a := by
  intro s
  induction s with
  | nil => intro par _ ha; simp [Shape.addrs] at ha
  | node x e l r ihl ihr =>
    intro par hm ha
    obtain ⟨hr, hl, hrr⟩ := hm
    simp only [Shape.addrs, List.mem_cons, List.mem_append] at ha
    refine ⟨x, rfl, ?_⟩
    rcases ha with rfl | ha | ha
    · exact Reaches.here _
    · obtain ⟨c, hc, hca⟩ := ihl hl ha
      exact (Reaches.left (Reaches.here x) hr hc).trans hca
    · obtain ⟨c, hc, hca⟩ := ihr hrr ha
      exact (Reaches.right (Reaches.here x) hr hc).trans hca

theorem Models.mem_of_reaches {E : Type} {h : Heap E} {s : Shape E} {par : Option Nat}
    (hm : Models h par s) (hnd : s.addrs.Nodup) {r a : Nat} (hroot : s.root = some r)
    (hra : Reaches h r a) : a ∈ s.addrs := by
  induction hra with
  | here => exact Shape.root_mem hroot
  | @left b c nd _ hr hl ih =>
    obtain ⟨e, p, l1, r1, h1, _, _, _, h5, _, _⟩ := hm.locate hnd ih
    rw [hr] at h1
    simp only [Option.some.injEq] at h1
    subst h1
    exact h5 c (Shape.root_mem hl)
  | @right b c nd _ hr hl ih =>
    obtain ⟨e, p, l1, r1, h1, _, _, _, _, h6, _⟩ := hm.locate hnd ih
    rw [hr] at h1
    simp only [Option.some.injEq] at h1
    subst h1
    exact h6 c (Shape.root_mem hl)

theorem pos_injective : Function.Injective pos := by
  intro a b h
  simpa [pos] using h

/-! ## Summary of a successful `erase` -/

theorem erase_spec {E : Type} {w : World E} {shapes : Nat → Shape E}
    (hd : Describes w shapes) {i n : Nat} {nd : Node E}
    (hmem : n ∈ (shapes i).addrs) (hr : w.heap.read n = some nd)
    (hle : nd.left = none ∨ nd.right = none) :
    ∃ w1, erase w i ⟨some n⟩ = .done w1 ∧ Erased w.heap n nd w1.heap ∧
      w1.trees = Function.update w.trees i
        ⟨if (w.trees i).rt = some n then erase_child nd else (w.trees i).rt,
          (w.trees i).sz - 1⟩ ∧
      Describes w1 (Function.update shapes i (Shape.remove n (shapes i))) ∧
      (Shape.remove n (shapes i)).addrs = (shapes i).addrs.erase n := by
  obtain ⟨h1, her, he⟩ := erase_done hd hmem hr hle
  exact ⟨_, he, her, rfl, hd.after_erase hmem hr hle her,
    Shape.addrs_remove hr hle (hd.models i) (hd.nodup i)⟩

theorem map_pos_erase {l : List Nat} (hnd : l.Nodup) (n : Nat) :
    (l.erase n).map pos = (l.map pos).filter (fun q => q ≠ pos n) := by
  rw [List.map_erase pos_injective, (hnd.map pos_injective).erase_eq_filter]
  congr 1
  funext q
  by_cases hq : q = pos n <;> simp [hq]

theorem Describes.root_of_nonempty {E : Type} {w : World E} {shapes : Nat → Shape E}
    (hd : Describes w shapes) {j : Nat} (hsz : (w.trees j).sz ≠ 0) :
    ∃ r rd, (w.trees j).rt = some r ∧ r ∈ (shapes j).addrs ∧ w.heap.read r = some rd := by
  cases hs : shapes j with
  | nil =>
    have h1 := hd.sz_eq j
    rw [hs] at h1
    simp [Shape.size] at h1
    exact absurd h1 hsz
  | node r e l1 r1 =>
    have hrm : r ∈ (shapes j).addrs := by rw [hs]; simp [Shape.addrs]
    obtain ⟨rd, hrd⟩ := (hd.models j).live r hrm
    refine ⟨r, rd, by rw [hd.rt_eq j, hs]; rfl, ?_, hrd⟩
    rw [← hs]; exact hrm

theorem sample5_reachable : Reachable sample5 :=
  Reachable.add_root (i := 1) (e := 7) sample1_reachable rfl

theorem sample6_reachable : Reachable sample6 :=
  Reachable.add_root (i := 2) (e := 8) sample5_reachable rfl

theorem WellFormed.root_null_of_empty {E : Type} {w : World E} (hw : WellFormed w) {i : Nat}
    (he : empty w i = true) : (root w i).is_null = true := by
  obtain ⟨shapes, hd⟩ := hw
  have hsz : (w.trees i).sz = 0 := by simpa [empty] using he
  have h1 := hd.sz_eq i
  rw [hsz] at h1
  cases hs : shapes i with
  | nil => simp [root, Position.is_null, hd.rt_eq i, hs, Shape.root]
  | node a e l r => rw [hs] at h1; simp [Shape.size] at h1; omega

/-! ## Counting left leaves -/

theorem count_rec_models {E : Type} {h : Heap E} :
    ∀ {s : Shape E} {par : Option Nat}, Models h par s →
      ∀ (fuel : Nat) (b : Bool), s.height < fuel →
        count_left_leaves_rec h fuel s.root b = some (Shape.countLL b s : Int) := by
  intro s
  induction s with
  | nil =>
    intro par _ fuel b hf
    cases fuel with
    | zero => simp [Shape.height] at hf
    | succ f => simp [count_left_leaves_rec, Shape.root, Shape.countLL]
  | node a e l r ihl ihr =>
    intro par hm fuel b hf
    obtain ⟨hr, hl, hrr⟩ := hm
    cases fuel with
    | zero => omega
    | succ f =>
      simp only [Shape.height] at hf
      have hfl : l.height < f := by omega
      have hfr : r.height < f := by omega
      rw [show (Shape.node a e l r).root = some a from rfl]
      simp only [count_left_leaves_rec, hr, Shape.countLL]
      by_cases hleaf : l.root = none ∧ r.root = none
      · rw [if_pos hleaf, if_pos hleaf]
        cases b <;> simp
      · rw [if_neg hleaf, if_neg hleaf, ihl hl f true hfl, ihr hrr f false hfr]
        simp

theorem bfs_loop_models {E : Type} {h : Heap E} :
    ∀ (fuel : Nat) (items : List (Shape E × Bool)) (count : Int),
      (∀ it, it ∈ items → ∃ par, Models h par it.1) →
      (items.map (fun it => it.1.size)).sum < fuel →
      bfs_loop h fuel (items.filterMap Shape.entry) count =
        some (count + ((items.map (fun it => Shape.countLL it.2 it.1)).sum : Nat)) := by
  intro fuel
  induction fuel with
  | zero => intro items count _ hf; omega
  | succ f ih =>
    intro items
    induction items with
    | nil => intro count _ _; simp [bfs_loop]
    | cons it rest ihrest =>
      intro count hm hf
      obtain ⟨s, b⟩ := it
      cases s with
      | nil =>
        have hf1 : (rest.map (fun it => it.1.size)).sum < f + 1 := by
          simpa [Shape.size] using hf
        have := ihrest count (fun it hit => hm it (List.mem_cons_of_mem _ hit)) hf1
        simpa [Shape.entry, Shape.root, Shape.countLL] using this
      | node a e l r =>
        obtain ⟨par, hr, hl, hrr⟩ := hm (Shape.node a e l r, b) (List.mem_cons_self _ _)
        have hq : (rest ++ [(l, true), (r, false)]).filterMap Shape.entry =
            (match r.root with
             | some r1 => (match l.root with
                 | some l1 => rest.filterMap Shape.entry ++ [(l1, true)]
                 | none => rest.filterMap Shape.entry) ++ [(r1, false)]
             | none => (match l.root with
                 | some l1 => rest.filterMap Shape.entry ++ [(l1, true)]
                 | none => rest.filterMap Shape.entry)) := by
          cases hlr : l.root <;> cases hrr1 : r.root <;>
            simp [List.filterMap_append, Shape.entry, hlr, hrr1]
        have hm1 : ∀ it, it ∈ rest ++ [(l, true), (r, false)] → ∃ par, Models h par it.1 := by
          intro it hit
          simp only [List.mem_append, List.mem_cons, List.mem_singleton,
            List.not_mem_nil, or_false] at hit
          rcases hit with hit | rfl | rfl
          · exact hm it (List.mem_cons_of_mem _ hit)
          · exact ⟨_, hl⟩
          · exact ⟨_, hrr⟩
        have hf1 : ((rest ++ [(l, true), (r, false)]).map (fun it => it.1.size)).sum < f := by
          simp only [List.map_cons, List.sum_cons, Shape.size] at hf
          simp only [List.map_append, List.sum_append, List.map_cons, List.map_nil,
            List.sum_cons, List.sum_nil]
          omega
        have key := ih (rest ++ [(l, true), (r, false)])
          (if (l.root = none ∧ r.root = none ∧ b = true) then count + 1 else count) hm1 hf1
        rw [hq] at key
        have hfm : (((Shape.node a e l r, b) :: rest).filterMap Shape.entry) =
            (a, b) :: rest.filterMap Shape.entry := by
          simp [Shape.entry, Shape.root]
        rw [hfm]
        simp only [bfs_loop, hr]
        rw [key]
        congr 1
        simp only [List.map_append, List.sum_append, List.map_cons, List.map_nil,
          List.sum_cons, List.sum_nil, Shape.countLL]
        by_cases hleaf : l.root = none ∧ r.root = none
        · have hlnil := Shape.root_eq_none hleaf.1
          have hrnil := Shape.root_eq_none hleaf.2
          subst hlnil hrnil
          cases b
          · simp [Shape.root, Shape.countLL]
          · simp [Shape.root, Shape.countLL]; omega
        · have h3 : ¬(l.root = none ∧ r.root = none ∧ b = true) := fun hx =>
            hleaf ⟨hx.1, hx.2.1⟩
          rw [if_neg h3, if_neg hleaf]
          push_cast
          omega

theorem is_left_leaf_iff {E : Type} {h : Heap E} {a : Nat} {nd : Node E}
    (hr : h.read a = some nd) :
    is_left_leaf h (pos a) = true ↔
      nd.left = none ∧ nd.right = none ∧
        ∃ pa pd, nd.par = some pa ∧ h.read pa = some pd ∧ pd.left = some a := by
  unfold is_left_leaf
  simp only [pos, Position.num_children, Position.is_root, Position.parent, hr,
    Bool.and_eq_true, decide_eq_true_eq, Option.some.injEq]
  have hnum : ((if nd.left ≠ none then (1 : Int) else 0) +
      (if nd.right ≠ none then (1 : Int) else 0) = 0) ↔ nd.left = none ∧ nd.right = none := by
    by_cases h1 : nd.left = none <;> by_cases h2 : nd.right = none <;> simp [h1, h2]
  rw [hnum]
  cases hp : nd.par with
  | none => simp
  | some pa =>
    cases hpd : h.read pa with
    | none => simp [Position.left, hpd]
    | some pd =>
      simp [Position.left, hpd]
      exact and_assoc

/-- On a held shape, the positions that are left leaves are counted by `countLL`, where the
flag says whether the root of the shape is the left child of its parent. -/
theorem filter_left_leaf_models {E : Type} {h : Heap E} :
    ∀ {s : Shape E} {par : Option Nat} (b : Bool), Models h par s → s.addrs.Nodup →
      (∀ a, s.root = some a →
        (b = true ↔ ∃ pa pd, par = some pa ∧ h.read pa = some pd ∧ pd.left = some a)) →
      ((s.addrs.map pos).filter (is_left_leaf h)).length = Shape.countLL b s := by
  intro s
  induction s with
  | nil => intro par b _ _ _; rfl
  | node a e l r ihl ihr =>
    intro par b hm hnd hflag
    obtain ⟨hr, hl, hrr⟩ := hm
    simp only [Shape.addrs, List.nodup_cons, List.mem_append, not_or, List.nodup_append] at hnd
    obtain ⟨⟨hal, har⟩, hndl, hndr, hdisj⟩ := hnd
    have hL := ihl true hl hndl (by
      intro c hc
      simp only [true_iff]
      exact ⟨a, _, rfl, hr, hc⟩)
    have hR := ihr false hrr hndr (by
      intro c hc
      simp only [Bool.false_eq_true, false_iff, not_exists, not_and]
      intro pa pd hpa hpd hleft
      simp only [Option.some.injEq] at hpa
      subst hpa
      rw [hr] at hpd
      simp only [Option.some.injEq] at hpd
      subst hpd
      exact hdisj (Shape.root_mem hleft) (Shape.root_mem hc))
    have hself : is_left_leaf h (pos a) = true ↔ (l.root = none ∧ r.root = none) ∧ b = true := by
      rw [is_left_leaf_iff hr, hflag a rfl, and_assoc]
    simp only [Shape.addrs, List.map_cons, List.map_append, List.filter_cons,
      List.filter_append, Shape.countLL]
    by_cases hleaf : l.root = none ∧ r.root = none
    · have hlnil := Shape.root_eq_none hleaf.1
      have hrnil := Shape.root_eq_none hleaf.2
      subst hlnil hrnil
      cases b with
      | false =>
        have hx : is_left_leaf h (pos a) = false := by
          rw [← Bool.not_eq_true, hself]; simp
        simp [hx, Shape.root, Shape.addrs]
      | true =>
        have hx : is_left_leaf h (pos a) = true := hself.2 ⟨hleaf, rfl⟩
        simp [hx, Shape.root, Shape.addrs]
    · have hx : is_left_leaf h (pos a) = false := by
        rw [← Bool.not_eq_true, hself]; exact fun hy => hleaf hy.1
      simp only [hx, if_neg hleaf, List.length_append]
      simp [hL, hR]

theorem Describes.count_left_leaves_eq {E : Type} {w : World E} {shapes : Nat → Shape E}
    (hd : Describes w shapes) (i : Nat) {fuel : Nat} (hf : w.heap.cells.length < fuel) :
    count_left_leaves fuel w i = some (Shape.countLL false (shapes i) : Int) := by
  unfold count_left_leaves
  rw [hd.rt_eq i]
  exact count_rec_models (hd.models i) fuel false ((hd.models i).height_lt (hd.nodup i) hf)

theorem Describes.count_left_leaves_bfs_eq {E : Type} {w : World E} {shapes : Nat → Shape E}
    (hd : Describes w shapes) (i : Nat) {fuel : Nat} (hf : w.heap.cells.length < fuel) :
    count_left_leaves_bfs fuel w i = some (Shape.countLL false (shapes i) : Int) := by
  unfold count_left_leaves_bfs
  rw [hd.rt_eq i]
  cases hs : shapes i with
  | nil => simp [Shape.root, Shape.countLL]
  | node a e l r =>
    have hm := hd.models i
    have hsz := hm.size_le (hd.nodup i)
    rw [hs] at hm hsz
    have := bfs_loop_models (h := w.heap) fuel [(Shape.node a e l r, false)] 0
      (by intro it hit; simp only [List.mem_singleton] at hit; subst hit; exact ⟨_, hm⟩)
      (by simp only [List.map_cons, List.map_nil, List.sum_cons, List.sum_nil]; omega)
    simpa [Shape.entry, Shape.root] using this

/-! ## `tear_down` and `clone` on held shapes -/

theorem Shape.cloneAt_size {E : Type} : ∀ (s : Shape E) (base : Nat),
    (Shape.cloneAt base s).size = s.size := by
  intro s
  induction s with
  | nil => intro base; rfl
  | node a e l r ihl ihr => intro base; simp [Shape.cloneAt, Shape.size, ihl, ihr]

theorem Shape.cloneAt_addrs {E : Type} : ∀ (s : Shape E) (base : Nat),
    (Shape.cloneAt base s).addrs = List.range' base s.size := by
  intro s
  induction s with
  | nil => intro base; rfl
  | node a e l r ihl ihr =>
    intro base
    simp only [Shape.cloneAt, Shape.addrs, Shape.size, ihl, ihr]
    rw [List.range'_append_1, show 1 + l.size + r.size = (r.size + l.size) + 1 by omega]
    rfl

theorem Shape.cloneAt_elems {E : Type} : ∀ (s : Shape E) (base : Nat),
    (Shape.cloneAt base s).elems = s.elems := by
  intro s
  induction s with
  | nil => intro base; rfl
  | node a e l r ihl ihr => intro base; simp [Shape.cloneAt, Shape.elems, ihl, ihr]

theorem Shape.cloneAt_root_eq_none {E : Type} (s : Shape E) (base : Nat) :
    (Shape.cloneAt base s).root = none ↔ s.root = none := by
  cases s <;> simp [Shape.cloneAt, Shape.root]

theorem tear_down_models {E : Type} :
    ∀ {s : Shape E} {h : Heap E} {par : Option Nat} (fuel : Nat), Models h par s →
      s.addrs.Nodup → s.height < fuel →
      ∃ h1, tear_down fuel h s.root = some h1 ∧ h1.cells.length = h.cells.length ∧
        (∀ a, a ∈ s.addrs → h1.read a = none) ∧
        (∀ a, a ∉ s.addrs → h1.read a = h.read a) := by
  intro s
  induction s with
  | nil =>
    intro h par fuel _ _ hf
    cases fuel with
    | zero => simp [Shape.height] at hf
    | succ f =>
      exact ⟨h, rfl, rfl, fun a ha => by simp [Shape.addrs] at ha, fun a _ => rfl⟩
  | node a e l r ihl ihr =>
    intro h par fuel hm hnd hf
    obtain ⟨hr, hl, hrr⟩ := hm
    simp only [Shape.addrs, List.nodup_cons, List.mem_append, not_or, List.nodup_append] at hnd
    obtain ⟨⟨hal, har⟩, hndl, hndr, hdisj⟩ := hnd
    cases fuel with
    | zero => omega
    | succ f =>
      simp only [Shape.height] at hf
      obtain ⟨h1, ht1, hlen1, hdead1, hkeep1⟩ := ihl f hl hndl (by omega)
      have hr1 : h1.read a = some ⟨e, par, l.root, r.root⟩ := by rw [hkeep1 a hal, hr]
      have hrr1 : Models h1 (some a) r :=
        hrr.frame (fun b hb => hkeep1 b (fun hx => hdisj hx hb))
      obtain ⟨h2, ht2, hlen2, hdead2, hkeep2⟩ := ihr f hrr1 hndr (by omega)
      have hr2 : h2.read a = some ⟨e, par, l.root, r.root⟩ := by rw [hkeep2 a har, hr1]
      refine ⟨h2.free a, ?_, ?_, ?_, ?_⟩
      · rw [show (Shape.node a e l r).root = some a from rfl]
        simp only [tear_down, hr, ht1, hr1, ht2, hr2]
      · rw [Heap.length_free, hlen2, hlen1]
      · intro b hb
        simp only [Shape.addrs, List.mem_cons, List.mem_append] at hb
        by_cases hba : b = a
        · subst hba; exact Heap.read_free_eq _ _
        · rw [Heap.read_free_ne _ (fun hx => hba hx.symm)]
          rcases hb with hb | hb | hb
          · exact absurd hb hba
          · rw [hkeep2 b (fun hx => hdisj hb hx)]; exact hdead1 b hb
          · exact hdead2 b hb
      · intro b hb
        simp only [Shape.addrs, List.mem_cons, List.mem_append, not_or] at hb
        rw [Heap.read_free_ne _ (fun hx => hb.1 hx.symm), hkeep2 b hb.2.2, hkeep1 b hb.2.1]


theorem clone_link_left_spec {E : Type} {h : Heap E} {nn : Nat} {nnd : Node E} {C : Shape E}
    (hC : Models h none C) (hnd : C.addrs.Nodup) (hnn : nn ∉ C.addrs)
    (hr : h.read nn = some nnd) (hne : C.root ≠ none) :
    ∃ h3, clone_link_left h nn C.root = some h3 ∧ h3.cells.length = h.cells.length ∧
      h3.read nn = some { nnd with left := C.root } ∧ Models h3 (some nn) C ∧
      (∀ a, a ≠ nn → a ∉ C.addrs → h3.read a = h.read a) := by
  cases C with
  | nil => exact absurd rfl hne
  | node c e l r =>
    have hC0 := hC
    obtain ⟨hc, _, _⟩ := hC
    have hcn : c ≠ nn := by
      rintro rfl; exact hnn (by simp [Shape.addrs])
    have hnlt := Heap.read_lt hr
    have hclt := Heap.read_lt hc
    have h1n : (h.write nn { nnd with left := some c }).read nn =
        some { nnd with left := some c } := Heap.read_write_eq _ _ _ hnlt
    have h1c : (h.write nn { nnd with left := some c }).read c =
        some ⟨e, none, l.root, r.root⟩ := by
      rw [Heap.read_write_ne _ _ (fun hx => hcn hx.symm), hc]
    refine ⟨(h.write nn { nnd with left := some c }).write c ⟨e, some nn, l.root, r.root⟩,
      ?_, ?_, ?_, ?_, ?_⟩
    · simp [clone_link_left, hr, Shape.root, h1n, h1c]
    · simp [Heap.length_write]
    · rw [Heap.read_write_ne _ _ hcn, h1n]; rfl
    · refine hC0.reparent hnd ?_ ?_
      · intro a ad ha had
        simp only [Shape.root, Option.some.injEq] at ha
        subst ha
        rw [hc] at had
        simp only [Option.some.injEq] at had
        subst had
        exact Heap.read_write_eq _ _ _ (by rw [Heap.length_write]; exact hclt)
      · intro a ha hroot
        have hac : c ≠ a := fun hx => hroot (by rw [hx]; rfl)
        have han : nn ≠ a := by rintro rfl; exact hnn ha
        rw [Heap.read_write_ne _ _ hac, Heap.read_write_ne _ _ han]
    · intro a han hac
      have hca : c ≠ a := by rintro rfl; exact hac (by simp [Shape.addrs])
      rw [Heap.read_write_ne _ _ hca, Heap.read_write_ne _ _ (fun hx => han hx.symm)]

theorem clone_link_right_spec {E : Type} {h : Heap E} {nn : Nat} {nnd : Node E} {C : Shape E}
    (hC : Models h none C) (hnd : C.addrs.Nodup) (hnn : nn ∉ C.addrs)
    (hr : h.read nn = some nnd) (hne : C.root ≠ none) :
    ∃ h3, clone_link_right h nn C.root = some h3 ∧ h3.cells.length = h.cells.length ∧
      h3.read nn = some { nnd with right := C.root } ∧ Models h3 (some nn) C ∧
      (∀ a, a ≠ nn → a ∉ C.addrs → h3.read a = h.read a) := by
  cases C with
  | nil => exact absurd rfl hne
  | node c e l r =>
    have hC0 := hC
    obtain ⟨hc, _, _⟩ := hC
    have hcn : c ≠ nn := by
      rintro rfl; exact hnn (by simp [Shape.addrs])
    have hnlt := Heap.read_lt hr
    have hclt := Heap.read_lt hc
    have h1n : (h.write nn { nnd with right := some c }).read nn =
        some { nnd with right := some c } := Heap.read_write_eq _ _ _ hnlt
    have h1c : (h.write nn { nnd with right := some c }).read c =
        some ⟨e, none, l.root, r.root⟩ := by
      rw [Heap.read_write_ne _ _ (fun hx => hcn hx.symm), hc]
    refine ⟨(h.write nn { nnd with right := some c }).write c ⟨e, some nn, l.root, r.root⟩,
      ?_, ?_, ?_, ?_, ?_⟩
    · simp [clone_link_right, hr, Shape.root, h1n, h1c]
    · simp [Heap.length_write]
    · rw [Heap.read_write_ne _ _ hcn, h1n]; rfl
    · refine hC0.reparent hnd ?_ ?_
      · intro a ad ha had
        simp only [Shape.root, Option.some.injEq] at ha
        subst ha
        rw [hc] at had
        simp only [Option.some.injEq] at had
        subst had
        exact Heap.read_write_eq _ _ _ (by rw [Heap.length_write]; exact hclt)
      · intro a ha hroot
        have hac : c ≠ a := fun hx => hroot (by rw [hx]; rfl)
        have han : nn ≠ a := by rintro rfl; exact hnn ha
        rw [Heap.read_write_ne _ _ hac, Heap.read_write_ne _ _ han]
    · intro a han hac
      have hca : c ≠ a := by rintro rfl; exact hac (by simp [Shape.addrs])
      rw [Heap.read_write_ne _ _ hca, Heap.read_write_ne _ _ (fun hx => han hx.symm)]

theorem clone_models {E : Type} :
    ∀ {s : Shape E} {h : Heap E} {par : Option Nat} (fuel : Nat), Models h par s →
      s.height < fuel →
      ∃ h1, clone fuel h s.root = some (h1, (Shape.cloneAt h.cells.length s).root) ∧
        h1.cells.length = h.cells.length + s.size ∧
        (∀ a, a < h.cells.length → h1.read a = h.read a) ∧
        Models h1 none (Shape.cloneAt h.cells.length s) := by
  intro s
  induction s with
  | nil =>
    intro h par fuel _ hf
    cases fuel with
    | zero => simp [Shape.height] at hf
    | succ f => exact ⟨h, rfl, rfl, fun a _ => rfl, trivial⟩
  | node a e l r ihl ihr =>
    intro h par fuel hm hf
    obtain ⟨hr, hl, hrr⟩ := hm
    cases fuel with
    | zero => omega
    | succ f =>
      simp only [Shape.height] at hf
      have halt := Heap.read_lt hr
      -- the heap after `new Node(model->elem)`
      have hnew := Heap.read_alloc_new h (⟨e, none, none, none⟩ : Node E)
      have hold : ∀ b, b < h.cells.length →
          (h.alloc (⟨e, none, none, none⟩ : Node E)).1.read b = h.read b :=
        fun b hb => Heap.read_alloc_old _ _ hb
      have hlen1 := Heap.length_alloc h (⟨e, none, none, none⟩ : Node E)
      rw [show (Shape.node a e l r).root = some a from rfl]
      simp only [clone, hr]
      rw [show (h.alloc (⟨e, none, none, none⟩ : Node E)).2 = h.cells.length from rfl]
      generalize (h.alloc (⟨e, none, none, none⟩ : Node E)).1 = h1 at hnew hold hlen1 ⊢
      have hmd1 : h1.read a = some ⟨e, par, l.root, r.root⟩ := by rw [hold a halt, hr]
      -- the left subtree
      have hleft : ∃ h3,
          (if l.root ≠ none then
            match clone f h1 l.root with
            | none => none
            | some (h2, c) => clone_link_left h2 h.cells.length c
          else some h1) = some h3 ∧
          h3.cells.length = h.cells.length + 1 + l.size ∧
          (∀ b, b < h.cells.length → h3.read b = h.read b) ∧
          h3.read h.cells.length =
            some ⟨e, none, (Shape.cloneAt (h.cells.length + 1) l).root, none⟩ ∧
          Models h3 (some h.cells.length) (Shape.cloneAt (h.cells.length + 1) l) := by
        by_cases hlr : l.root = none
        · have hlnil := Shape.root_eq_none hlr
          subst hlnil
          refine ⟨h1, by simp [Shape.root], by simp [Shape.size, hlen1], hold, ?_, trivial⟩
          simpa [Shape.cloneAt, Shape.root] using hnew
        · have hl1 : Models h1 (some a) l := hl.frame (fun b hb => hold b (hl.addr_lt hb))
          obtain ⟨h2, hc2, hlen2, hold2, hm2⟩ := ihl f hl1 (by omega)
          rw [hlen1] at hc2 hlen2 hold2 hm2
          have hb2 : h2.read h.cells.length = some ⟨e, none, none, none⟩ := by
            rw [hold2 _ (Nat.lt_succ_self _), hnew]
          have hnd2 : (Shape.cloneAt (h.cells.length + 1) l).addrs.Nodup := by
            rw [Shape.cloneAt_addrs]; exact List.nodup_range' _ _
          have hnn2 : h.cells.length ∉ (Shape.cloneAt (h.cells.length + 1) l).addrs := by
            rw [Shape.cloneAt_addrs, List.mem_range'_1]; omega
          have hne2 : (Shape.cloneAt (h.cells.length + 1) l).root ≠ none := by
            rw [Ne, Shape.cloneAt_root_eq_none]; exact hlr
          obtain ⟨h3, hc3, hlen3, hb3, hm3, hkeep3⟩ :=
            clone_link_left_spec hm2 hnd2 hnn2 hb2 hne2
          refine ⟨h3, by simp [hlr, hc2, hc3], by rw [hlen3, hlen2], ?_, hb3, hm3⟩
          intro b hb
          rw [hkeep3 b (by omega) (by rw [Shape.cloneAt_addrs, List.mem_range'_1]; omega),
            hold2 b (by omega), hold b hb]
      obtain ⟨h3, hc3, hlen3, hold3, hb3, hm3⟩ := hleft
      have hmd3 : h3.read a = some ⟨e, par, l.root, r.root⟩ := by rw [hold3 a halt, hr]
      -- the right subtree
      have hright : ∃ h5,
          (if r.root ≠ none then
            match clone f h3 r.root with
            | none => none
            | some (h4, c) => clone_link_right h4 h.cells.length c
          else some h3) = some h5 ∧
          h5.cells.length = h.cells.length + 1 + l.size + r.size ∧
          (∀ b, b < h.cells.length + 1 + l.size → b ≠ h.cells.length → h5.read b = h3.read b) ∧
          h5.read h.cells.length =
            some ⟨e, none, (Shape.cloneAt (h.cells.length + 1) l).root,
              (Shape.cloneAt (h.cells.length + 1 + l.size) r).root⟩ ∧
          Models h5 (some h.cells.length) (Shape.cloneAt (h.cells.length + 1 + l.size) r) := by
        by_cases hrr0 : r.root = none
        · have hrnil := Shape.root_eq_none hrr0
          subst hrnil
          refine ⟨h3, by simp [Shape.root], by simp [Shape.size, hlen3], fun b _ _ => rfl, ?_,
            trivial⟩
          simpa [Shape.cloneAt, Shape.root] using hb3
        · have hr3 : Models h3 (some a) r := hrr.frame (fun b hb => hold3 b (hrr.addr_lt hb))
          obtain ⟨h4, hc4, hlen4, hold4, hm4⟩ := ihr f hr3 (by omega)
          rw [hlen3] at hc4 hlen4 hold4 hm4
          have hb4 : h4.read h.cells.length =
              some ⟨e, none, (Shape.cloneAt (h.cells.length + 1) l).root, none⟩ := by
            rw [hold4 _ (by omega), hb3]
          have hnd4 : (Shape.cloneAt (h.cells.length + 1 + l.size) r).addrs.Nodup := by
            rw [Shape.cloneAt_addrs]; exact List.nodup_range' _ _
          have hnn4 : h.cells.length ∉ (Shape.cloneAt (h.cells.length + 1 + l.size) r).addrs := by
            rw [Shape.cloneAt_addrs, List.mem_range'_1]; omega
          have hne4 : (Shape.cloneAt (h.cells.length + 1 + l.size) r).root ≠ none := by
            rw [Ne, Shape.cloneAt_root_eq_none]; exact hrr0
          obtain ⟨h5, hc5, hlen5, hb5, hm5, hkeep5⟩ :=
            clone_link_right_spec hm4 hnd4 hnn4 hb4 hne4
          refine ⟨h5, by simp [hrr0, hc4, hc5], by rw [hlen5, hlen4], ?_, hb5, hm5⟩
          intro b hb hbn
          rw [hkeep5 b hbn (by rw [Shape.cloneAt_addrs, List.mem_range'_1]; omega),
            hold4 b hb]
      obtain ⟨h5, hc5, hlen5, hold5, hb5, hm5⟩ := hright
      refine ⟨h5, ?_, ?_, ?_, ?_⟩
      · simp only [hmd1]
        erw [hc3]
        simp only [hmd3]
        erw [hc5]
        rfl
      · rw [hlen5]; simp only [Shape.size]; omega
      · intro b hb
        rw [hold5 b (by omega) (by omega), hold3 b hb]
      · refine ⟨hb5, hm3.frame ?_, hm5⟩
        intro b hb
        rw [Shape.cloneAt_addrs, List.mem_range'_1] at hb
        exact hold5 b (by omega) (by omega)

/-! ## Move construction and move assignment -/

theorem Models.read_eq {E : Type} {h h1 : Heap E} :
    ∀ {s : Shape E} {par : Option Nat}, Models h par s → Models h1 par s →
      ∀ a, a ∈ s.addrs → h1.read a = h.read a := by
  intro s
  induction s with
  | nil => intro par _ _ a ha; simp [Shape.addrs] at ha
  | node b e l r ihl ihr =>
    intro par hm hm1 a ha
    obtain ⟨hr, hl, hrr⟩ := hm
    obtain ⟨hr1, hl1, hrr1⟩ := hm1
    simp only [Shape.addrs, List.mem_cons, List.mem_append] at ha
    rcases ha with rfl | ha | ha
    · rw [hr, hr1]
    · exact ihl hl hl1 a ha
    · exact ihr hrr hrr1 a ha

/-- Tree `d` takes over the shape of tree `s`, which becomes empty; the heap may have lost
the old nodes of `d`. -/
theorem Describes.moved {E : Type} {w w1 : World E} {shapes : Nat → Shape E}
    (hd : Describes w shapes) {d s : Nat} (hds : d ≠ s)
    (hkeep : ∀ a, a ∉ (shapes d).addrs → w1.heap.read a = w.heap.read a)
    (htd : w1.trees d = ⟨(w.trees s).rt, (w.trees s).sz⟩)
    (hts : w1.trees s = ⟨none, 0⟩)
    (hto : ∀ j, j ≠ d → j ≠ s → w1.trees j = w.trees j) :
    Describes w1 (Function.update (Function.update shapes s .nil) d (shapes s)) := by
  have hA : Describes (⟨w.heap, Function.update w.trees s ⟨none, 0⟩⟩ : World E)
      (Function.update shapes s .nil) := by
    refine hd.of_frame s .nil ?_ (by simp [Shape.root]) ?_ trivial List.nodup_nil ?_ ?_
    · intro j hj; simp [Function.update_noteq hj]
    · simp [Shape.size]
    · intro j _ a _; rfl
    · intro j _ a ha; simp [Shape.addrs] at ha
  refine hA.of_frame d _ ?_ ?_ ?_ ?_ ?_ ?_ ?_
  · intro j hj
    by_cases hjs : j = s
    · subst hjs; simp [hts]
    · simp [Function.update_noteq hjs, hto j hj hjs]
  · rw [htd]; exact hd.rt_eq s
  · rw [htd]; exact hd.sz_eq s
  · exact (hd.models s).frame (fun a ha => hkeep a (fun hx => hd.disjoint s d (Ne.symm hds) a ha hx))
  · exact hd.nodup s
  · intro j hj a ha
    by_cases hjs : j = s
    · subst hjs; simp [Shape.addrs] at ha
    · rw [Function.update_noteq hjs] at ha
      exact hkeep a (fun hx => hd.disjoint j d hj a ha hx)
  · intro j hj a ha
    by_cases hjs : j = s
    · subst hjs; simp [Shape.addrs]
    · rw [Function.update_noteq hjs]
      exact hd.disjoint s j (Ne.symm hjs) a ha

theorem move_construct_trees {E : Type} (w : World E) {d s : Nat} (hds : d ≠ s) :
    (move_construct w d s).heap = w.heap ∧
    (move_construct w d s).trees d = ⟨(w.trees s).rt, (w.trees s).sz⟩ ∧
    (move_construct w d s).trees s = ⟨none, 0⟩ ∧
    ∀ j, j ≠ d → j ≠ s → (move_construct w d s).trees j = w.trees j := by
  refine ⟨rfl, ?_, ?_, ?_⟩
  · simp [move_construct, Function.update_apply, hds, Ne.symm hds]
  · simp [move_construct, Function.update_apply, hds, Ne.symm hds]
  · intro j hj1 hj2
    simp [move_construct, Function.update_apply, hj1, hj2]

theorem Describes.after_move_construct {E : Type} {w : World E} {shapes : Nat → Shape E}
    (hd : Describes w shapes) {d s : Nat} (hds : d ≠ s) :
    Describes (move_construct w d s)
      (Function.update (Function.update shapes s .nil) d (shapes s)) := by
  obtain ⟨h1, h2, h3, h4⟩ := move_construct_trees w hds
  exact hd.moved hds (fun a _ => by rw [h1]) h2 h3 h4

/-- With fuel above the heap size, move assignment between two different trees of a
described world returns; the heap has lost exactly the old nodes of the destination. -/
theorem move_assign_done {E : Type} {w : World E} {shapes : Nat → Shape E}
    (hd : Describes w shapes) {d s : Nat} (hds : d ≠ s) {fuel : Nat}
    (hf : w.heap.cells.length < fuel) :
    ∃ w1, move_assign fuel w d s = some w1 ∧
      w1.heap.cells.length = w.heap.cells.length ∧
      (∀ a, a ∈ (shapes d).addrs → w1.heap.read a = none) ∧
      (∀ a, a ∉ (shapes d).addrs → w1.heap.read a = w.heap.read a) ∧
      w1.trees d = ⟨(w.trees s).rt, (w.trees s).sz⟩ ∧
      w1.trees s = ⟨none, 0⟩ ∧
      (∀ j, j ≠ d → j ≠ s → w1.trees j = w.trees j) ∧
      Describes w1 (Function.update (Function.update shapes s .nil) d (shapes s)) := by
  obtain ⟨h1, ht, hlen, hdead, hkeep⟩ := tear_down_models fuel (hd.models d) (hd.nodup d)
    ((hd.models d).height_lt (hd.nodup d) hf)
  rw [← hd.rt_eq d] at ht
  have he : ∃ w1, move_assign fuel w d s = some w1 ∧ w1.heap = h1 ∧
      w1.trees d = ⟨(w.trees s).rt, (w.trees s).sz⟩ ∧ w1.trees s = ⟨none, 0⟩ ∧
      ∀ j, j ≠ d → j ≠ s → w1.trees j = w.trees j := by
    simp only [move_assign, hds, ne_eq, not_false_eq_true, if_true, ht]
    refine ⟨_, rfl, rfl, ?_, ?_, ?_⟩
    · simp [Function.update_apply, hds, Ne.symm hds]
    · simp [Function.update_apply, hds, Ne.symm hds]
    · intro j hj1 hj2
      simp [Function.update_apply, hj1, hj2]
  obtain ⟨w1, he1, hh, t1, t2, t3⟩ := he
  subst hh
  exact ⟨w1, he1, hlen, hdead, hkeep, t1, t2, t3, hd.moved hds hkeep t1 t2 t3⟩

/-! ## Copies -/

theorem skeleton_models {E : Type} {h : Heap E} :
    ∀ {s : Shape E} {par : Option Nat}, Models h par s →
      ∀ (fuel : Nat), s.height < fuel → skeleton h fuel s.root = some s.skel := by
  intro s
  induction s with
  | nil =>
    intro par _ fuel hf
    cases fuel with
    | zero => simp [Shape.height] at hf
    | succ f => rfl
  | node a e l r ihl ihr =>
    intro par hm fuel hf
    obtain ⟨hr, hl, hrr⟩ := hm
    cases fuel with
    | zero => omega
    | succ f =>
      simp only [Shape.height] at hf
      rw [show (Shape.node a e l r).root = some a from rfl]
      simp only [skeleton, hr, ihl hl f (by omega), ihr hrr f (by omega), Shape.skel]

theorem Shape.cloneAt_skel {E : Type} : ∀ (s : Shape E) (base : Nat),
    (Shape.cloneAt base s).skel = s.skel := by
  intro s
  induction s with
  | nil => intro base; rfl
  | node a e l r ihl ihr => intro base; simp [Shape.cloneAt, Shape.skel, ihl, ihr]

theorem Models.elements {E : Type} {h : Heap E} :
    ∀ {s : Shape E} {par : Option Nat}, Models h par s →
      (s.addrs.map pos).map (fun q => Position.element h q) = s.elems.map some := by
  intro s
  induction s with
  | nil => intro par _; rfl
  | node a e l r ihl ihr =>
    intro par hm
    obtain ⟨hr, hl, hrr⟩ := hm
    have h1 := ihl hl
    have h2 := ihr hrr
    simp only [List.map_map] at h1 h2
    simp only [Shape.addrs, Shape.elems, List.map_cons, List.map_append, List.map_map, h1, h2]
    simp [Position.element, pos, hr]

theorem Shape.setElem_root {E : Type} (n : Nat) (v : E) (s : Shape E) :
    (Shape.setElem n v s).root = s.root := by
  cases s with
  | nil => rfl
  | node a e l r => by_cases ha : a = n <;> simp [Shape.setElem, ha, Shape.root]

theorem Shape.setElem_addrs {E : Type} (n : Nat) (v : E) :
    ∀ s : Shape E, (Shape.setElem n v s).addrs = s.addrs := by
  intro s
  induction s with
  | nil => rfl
  | node a e l r ihl ihr =>
    by_cases ha : a = n <;> simp [Shape.setElem, ha, Shape.addrs, ihl, ihr]

theorem Models.setElem {E : Type} {h h1 : Heap E} {n : Nat} {nd : Node E} (v : E)
    (hn : h.read n = some nd) (hn1 : h1.read n = some { nd with elem := v }) :
    ∀ {s : Shape E} {par : Option Nat}, Models h par s → s.addrs.Nodup →
      (∀ a, a ∈ s.addrs → a ≠ n → h1.read a = h.read a) →
      Models h1 par (Shape.setElem n v s) := by
  intro s
  induction s with
  | nil => intro par _ _ _; trivial
  | node a e l r ihl ihr =>
    intro par hm hnd hfr
    obtain ⟨hr, hl, hrr⟩ := hm
    simp only [Shape.addrs, List.nodup_cons, List.mem_append, not_or, List.nodup_append] at hnd
    obtain ⟨⟨hal, har⟩, hndl, hndr, hdisj⟩ := hnd
    by_cases ha : a = n
    · subst ha
      rw [hn] at hr
      simp only [Option.some.injEq] at hr
      subst hr
      simp only [Shape.setElem, if_true]
      refine ⟨hn1, hl.frame ?_, hrr.frame ?_⟩
      · intro b hb
        exact hfr b (by simp [Shape.addrs, hb]) (by rintro rfl; exact hal hb)
      · intro b hb
        exact hfr b (by simp [Shape.addrs, hb]) (by rintro rfl; exact har hb)
    · simp only [Shape.setElem, if_neg ha]
      refine ⟨?_, ihl hl hndl ?_, ihr hrr hndr ?_⟩
      · rw [hfr a (by simp [Shape.addrs]) ha, hr, Shape.setElem_root, Shape.setElem_root]
      · intro b hb hbn; exact hfr b (by simp [Shape.addrs, hb]) hbn
      · intro b hb hbn; exact hfr b (by simp [Shape.addrs, hb]) hbn

theorem Describes.after_set_element {E : Type} {w : World E} {shapes : Nat → Shape E}
    (hd : Describes w shapes) {i n : Nat} {nd : Node E} (v : E)
    (hmem : n ∈ (shapes i).addrs) (hr : w.heap.read n = some nd) :
    Describes (⟨w.heap.write n { nd with elem := v }, w.trees⟩ : World E)
      (Function.update shapes i (Shape.setElem n v (shapes i))) := by
  have hlt := Heap.read_lt hr
  refine hd.of_frame i _ ?_ ?_ ?_ ?_ ?_ ?_ ?_
  · intro j _; rfl
  · rw [Shape.setElem_root]; exact hd.rt_eq i
  · rw [Shape.size_eq_length, Shape.setElem_addrs, ← Shape.size_eq_length]; exact hd.sz_eq i
  · refine Models.setElem v hr (Heap.read_write_eq _ _ _ hlt) (hd.models i) (hd.nodup i) ?_
    intro a _ han
    exact Heap.read_write_ne _ _ (fun hx => han hx.symm)
  · rw [Shape.setElem_addrs]; exact hd.nodup i
  · intro j hj a ha
    refine Heap.read_write_ne _ _ ?_
    rintro rfl
    exact hd.disjoint j i hj _ ha hmem
  · intro j hj a ha
    rw [Shape.setElem_addrs] at ha
    exact hd.disjoint i j (Ne.symm hj) a ha

/-- Operations on tree `c` through live positions of `c` keep the world described and leave
the shapes of all other trees as they are. -/
theorem Describes.mutated {E : Type} {w w2 : World E} {shapes : Nat → Shape E} {c : Nat}
    (hd : Describes w shapes) (hmut : Mutated c w w2) :
    ∃ shapes2, Describes w2 shapes2 ∧ ∀ j, j ≠ c → shapes2 j = shapes j := by
  induction hmut with
  | refl => exact ⟨shapes, hd, fun _ _ => rfl⟩
  | @add_left w1 w2 p e _ hp h ih =>
    obtain ⟨sh1, hd1, hsame⟩ := ih
    obtain ⟨n, nd, rfl, hn, hr⟩ := hd1.mem_of_live hp
    by_cases hl : nd.left = none
    · rw [add_left_done e hr hl] at h
      injection h with h
      subst h
      exact ⟨_, hd1.after_add_left e hn hr hl,
        fun j hj => by rw [Function.update_noteq hj, hsame j hj]⟩
    · simp [LBT.add_left, hr, hl] at h
  | @add_right w1 w2 p e _ hp h ih =>
    obtain ⟨sh1, hd1, hsame⟩ := ih
    obtain ⟨n, nd, rfl, hn, hr⟩ := hd1.mem_of_live hp
    by_cases hl : nd.right = none
    · rw [add_right_done e hr hl] at h
      injection h with h
      subst h
      exact ⟨_, hd1.after_add_right e hn hr hl,
        fun j hj => by rw [Function.update_noteq hj, hsame j hj]⟩
    · simp [LBT.add_right, hr, hl] at h
  | @erase w1 w2 p _ hp h ih =>
    obtain ⟨sh1, hd1, hsame⟩ := ih
    obtain ⟨n, nd, rfl, hn, hr⟩ := hd1.mem_of_live hp
    by_cases hle : nd.left = none ∨ nd.right = none
    · obtain ⟨h1, her, he⟩ := erase_done hd1 hn hr hle
      rw [he] at h
      injection h with h
      subst h
      exact ⟨_, hd1.after_erase hn hr hle her,
        fun j hj => by rw [Function.update_noteq hj, hsame j hj]⟩
    · have hboth : nd.left ≠ none ∧ nd.right ≠ none := by
        constructor
        · intro hx; exact hle (Or.inl hx)
        · intro hx; exact hle (Or.inr hx)
      simp [LBT.erase, hr, hboth] at h
  | @set_element w1 p v h2 _ hp h ih =>
    obtain ⟨sh1, hd1, hsame⟩ := ih
    obtain ⟨n, nd, rfl, hn, hr⟩ := hd1.mem_of_live hp
    simp only [Position.set_element, hr, Option.some.injEq] at h
    subst h
    exact ⟨_, hd1.after_set_element v hn hr,
      fun j hj => by rw [Function.update_noteq hj, hsame j hj]⟩


/-- Cloning tree `t` into tree `c`, from a heap `h1` that differs from the heap of the world
at most on the old nodes of `c`: `clone` returns, and whatever tree object `c` then receives
the returned root and the size of `t`, the world is described again, `c` being a fresh copy
of the shape of `t`. -/
theorem Describes.cloned {E : Type} {w : World E} {shapes : Nat → Shape E}
    (hd : Describes w shapes) {c t : Nat} (hct : c ≠ t) {h1 : Heap E}
    (hlen : h1.cells.length = w.heap.cells.length)
    (hkeep : ∀ a, a ∉ (shapes c).addrs → h1.read a = w.heap.read a)
    {fuel : Nat} (hf : w.heap.cells.length < fuel) :
    ∃ h2, clone fuel h1 (w.trees t).rt =
        some (h2, (Shape.cloneAt w.heap.cells.length (shapes t)).root) ∧
      h2.cells.length = w.heap.cells.length + (shapes t).size ∧
      (∀ a, a < w.heap.cells.length → h2.read a = h1.read a) ∧
      ∀ trees1 : Nat → LinkedBinaryTree,
        trees1 c = ⟨(Shape.cloneAt w.heap.cells.length (shapes t)).root, (w.trees t).sz⟩ →
        (∀ j, j ≠ c → trees1 j = w.trees j) →
        Describes (⟨h2, trees1⟩ : World E)
          (Function.update shapes c (Shape.cloneAt w.heap.cells.length (shapes t))) := by
  have hm1 : Models h1 none (shapes t) := (hd.models t).frame
    (fun a ha => hkeep a (fun hx => hd.disjoint t c (Ne.symm hct) a ha hx))
  obtain ⟨h2, hc, hlen2, hold2, hm2⟩ := clone_models fuel hm1
    ((hd.models t).height_lt (hd.nodup t) hf)
  rw [hlen] at hc hlen2 hold2 hm2
  rw [← hd.rt_eq t] at hc
  refine ⟨h2, hc, hlen2, hold2, ?_⟩
  intro trees1 htc hto
  refine hd.of_frame c _ ?_ ?_ ?_ hm2 ?_ ?_ ?_
  · intro j hj; exact hto j hj
  · show (trees1 c).rt = _
    rw [htc]
  · show (trees1 c).sz = _
    rw [htc, Shape.cloneAt_size]; exact hd.sz_eq t
  · rw [Shape.cloneAt_addrs]; exact List.nodup_range' _ _
  · intro j hj a ha
    show h2.read a = _
    rw [hold2 a (hd.addr_lt_heap ha), hkeep a (fun hx => hd.disjoint j c hj a ha hx)]
  · intro j hj a ha hmem
    rw [Shape.cloneAt_addrs, List.mem_range'_1] at ha
    have := hd.addr_lt_heap hmem
    omega

theorem copy_construct_done {E : Type} {w : World E} {shapes : Nat → Shape E}
    (hd : Describes w shapes) {c t : Nat} (hct : c ≠ t) {fuel : Nat}
    (hf : w.heap.cells.length < fuel) :
    ∃ w1, copy_construct fuel w c t = some w1 ∧
      w1.heap.cells.length = w.heap.cells.length + (shapes t).size ∧
      (∀ a, a < w.heap.cells.length → w1.heap.read a = w.heap.read a) ∧
      w1.trees c = ⟨(Shape.cloneAt w.heap.cells.length (shapes t)).root, (w.trees t).sz⟩ ∧
      (∀ j, j ≠ c → w1.trees j = w.trees j) ∧
      Describes w1 (Function.update shapes c (Shape.cloneAt w.heap.cells.length (shapes t))) := by
  obtain ⟨h2, hc, hlen2, hold2, hdesc⟩ := hd.cloned hct rfl (fun a _ => rfl) hf
  have he : ∃ w1, copy_construct fuel w c t = some w1 ∧ w1.heap = h2 ∧
      w1.trees c = ⟨(Shape.cloneAt w.heap.cells.length (shapes t)).root, (w.trees t).sz⟩ ∧
      ∀ j, j ≠ c → w1.trees j = w.trees j := by
    simp only [copy_construct, Function.update_noteq (Ne.symm hct), hc]
    refine ⟨_, rfl, rfl, ?_, ?_⟩
    · simp [Function.update_apply, Ne.symm hct]
    · intro j hj
      simp [Function.update_apply, hj]
  obtain ⟨w1, he1, hh, t1, t2⟩ := he
  subst hh
  exact ⟨w1, he1, hlen2, hold2, t1, t2, hdesc w1.trees t1 t2⟩

theorem copy_assign_done {E : Type} {w : World E} {shapes : Nat → Shape E}
    (hd : Describes w shapes) {c t : Nat} (hct : c ≠ t) {fuel : Nat}
    (hf : w.heap.cells.length < fuel) :
    ∃ w1, copy_assign fuel w c t = some w1 ∧
      w1.heap.cells.length = w.heap.cells.length + (shapes t).size ∧
      (∀ a, a < w.heap.cells.length → a ∉ (shapes c).addrs →
        w1.heap.read a = w.heap.read a) ∧
      w1.trees c = ⟨(Shape.cloneAt w.heap.cells.length (shapes t)).root, (w.trees t).sz⟩ ∧
      (∀ j, j ≠ c → w1.trees j = w.trees j) ∧
      Describes w1 (Function.update shapes c (Shape.cloneAt w.heap.cells.length (shapes t))) := by
  obtain ⟨h1, ht, hlen, _, hkeep⟩ := tear_down_models fuel (hd.models c) (hd.nodup c)
    ((hd.models c).height_lt (hd.nodup c) hf)
  rw [← hd.rt_eq c] at ht
  obtain ⟨h2, hc, hlen2, hold2, hdesc⟩ := hd.cloned hct hlen hkeep hf
  have he : ∃ w1, copy_assign fuel w c t = some w1 ∧ w1.heap = h2 ∧
      w1.trees c = ⟨(Shape.cloneAt w.heap.cells.length (shapes t)).root, (w.trees t).sz⟩ ∧
      ∀ j, j ≠ c → w1.trees j = w.trees j := by
    simp only [copy_assign, hct, ne_eq, not_false_eq_true, if_true, ht, hc]
    refine ⟨_, rfl, rfl, ?_, ?_⟩
    · simp [Function.update_apply, Ne.symm hct]
    · intro j hj
      simp [Function.update_apply, hj]
  obtain ⟨w1, he1, hh, t1, t2⟩ := he
  subst hh
  exact ⟨w1, he1, hlen2, fun a ha hna => by rw [hold2 a ha, hkeep a hna], t1, t2,
    hdesc w1.trees t1 t2⟩

theorem sample5_positions_tree0 (fuel : Nat) (ps : List Position)
    (h : positions fuel sample5 0 = some ps) : ps = [pos 0] := by
  have hr : sample5.heap.read 0 = some ⟨10, none, none, none⟩ := rfl
  have ht : (sample5.trees 0).rt = some 0 := rfl
  unfold positions at h
  rw [ht] at h
  rcases fuel with _ | _ | f
  · simp [preorder] at h
  · simp [preorder, hr] at h
  · simp [preorder, hr, pos] at h
    simp [← h, pos]

/-! ## `attach` with aliased trees -/

theorem Heap.read_write_live {E : Type} (h : Heap E) (b : Nat) (v : Node E) {a : Nat}
    {x : Node E} (ha : h.read a = some x) : ∃ y, (h.write b v).read a = some y := by
  by_cases hab : b = a
  · subst hab
    exact ⟨v, Heap.read_write_eq _ _ _ (Heap.read_lt ha)⟩
  · exact ⟨x, by rw [Heap.read_write_ne _ _ hab, ha]⟩

/-- The left block of `attach` returns whenever the target node is live and every non-empty
tree has a live root, whatever the source tree is (the target itself included); live nodes
stay live and non-empty trees keep a live root. -/
theorem attach_left_total {E : Type} (w : World E) (i n l : Nat) {nd : Node E}
    (hr : w.heap.read n = some nd)
    (hroots : ∀ j, (w.trees j).sz ≠ 0 →
      ∃ r rd, (w.trees j).rt = some r ∧ w.heap.read r = some rd)
    (hself : ∃ r rd, (w.trees i).rt = some r ∧ w.heap.read r = some rd) :
    ∃ w1, attach_left w i n l = some w1 ∧
      (∀ a x, w.heap.read a = some x → ∃ y, w1.heap.read a = some y) ∧
      (∀ j, (w1.trees j).sz ≠ 0 →
        ∃ r rd, (w1.trees j).rt = some r ∧ w1.heap.read r = some rd) := by
  by_cases hsz : (w.trees l).sz = 0
  · exact ⟨w, by simp [attach_left, hsz], fun a x ha => ⟨x, ha⟩, hroots⟩
  · obtain ⟨r, rd, hrt, hrd⟩ := hroots l hsz
    obtain ⟨rd1, hrd1⟩ := Heap.read_write_live w.heap n { nd with left := some r } hrd
    have hlive : ∀ a x, w.heap.read a = some x →
        ∃ y, ((w.heap.write n { nd with left := some r }).write r
          { rd1 with par := some n }).read a = some y := by
      intro a x ha
      obtain ⟨y, hy⟩ := Heap.read_write_live w.heap n { nd with left := some r } ha
      exact Heap.read_write_live _ r _ hy
    refine ⟨_, by simp [attach_left, hsz, hr, hrt, hrd1]; rfl, hlive, ?_⟩
    intro j hj
    by_cases hjl : j = l
    · subst hjl
      simp [Function.update_apply] at hj
    · by_cases hji : j = i
      · subst hji
        obtain ⟨r2, rd2, h1, h2⟩ := hself
        obtain ⟨y, hy⟩ := hlive r2 rd2 h2
        exact ⟨r2, y, by simp [Function.update_apply, hjl, h1], hy⟩
      · have hj1 : (w.trees j).sz ≠ 0 := by
          simpa [Function.update_apply, hjl, hji] using hj
        obtain ⟨r2, rd2, h1, h2⟩ := hroots j hj1
        obtain ⟨y, hy⟩ := hlive r2 rd2 h2
        exact ⟨r2, y, by simp [Function.update_apply, hjl, hji, h1], hy⟩

/-- The right block of `attach` returns whenever the target node is live and every
non-empty tree has a live root, whatever the source tree is. -/
theorem attach_right_returns {E : Type} (w : World E) (i n r : Nat) {nd : Node E}
    (hr : w.heap.read n = some nd)
    (hroots : ∀ j, (w.trees j).sz ≠ 0 →
      ∃ r rd, (w.trees j).rt = some r ∧ w.heap.read r = some rd) :
    ∃ w1, attach_right w i n r = some w1 := by
  by_cases hsz : (w.trees r).sz = 0
  · exact ⟨w, by simp [attach_right, hsz]⟩
  · obtain ⟨a, ad, hrt, had⟩ := hroots r hsz
    obtain ⟨ad1, had1⟩ := Heap.read_write_live w.heap n { nd with right := some a } had
    exact ⟨_, by simp [attach_right, hsz, hr, hrt, had1]; rfl⟩

theorem Describes.roots_live {E : Type} {w : World E} {shapes : Nat → Shape E}
    (hd : Describes w shapes) :
    ∀ j, (w.trees j).sz ≠ 0 → ∃ r rd, (w.trees j).rt = some r ∧ w.heap.read r = some rd := by
  intro j hj
  obtain ⟨r, rd, h1, _, h2⟩ := hd.root_of_nonempty hj
  exact ⟨r, rd, h1, h2⟩

/-! ## More fuel never changes a result -/

theorem tear_down_mono {E : Type} :
    ∀ (fuel : Nat) (h : Heap E) (p : Option Nat) (x : Heap E),
      tear_down fuel h p = some x → tear_down (fuel + 1) h p = some x := by
  intro fuel
  induction fuel with
  | zero => intro h p x hx; simp [tear_down] at hx
  | succ f ih =>
    intro h p x hx
    cases p with
    | none => simpa [tear_down] using hx
    | some a =>
      simp only [tear_down] at hx ⊢
      cases hr : h.read a with
      | none => simp [hr] at hx
      | some d =>
        simp only [hr] at hx ⊢
        cases h1 : tear_down f h d.left with
        | none => simp [h1] at hx
        | some h1v =>
          simp only [h1] at hx
          rw [ih h d.left h1v h1]
          simp only
          cases hr1 : h1v.read a with
          | none => simp [hr1] at hx
          | some d1 =>
            simp only [hr1] at hx ⊢
            cases h2 : tear_down f h1v d1.right with
            | none => simp [h2] at hx
            | some h2v =>
              simp only [h2] at hx
              rw [ih h1v d1.right h2v h2]
              exact hx

theorem clone_mono {E : Type} :
    ∀ (fuel : Nat) (h : Heap E) (p : Option Nat) (x : Heap E × Option Nat),
      clone fuel h p = some x → clone (fuel + 1) h p = some x := by
  intro fuel
  induction fuel with
  | zero => intro h p x hx; simp [clone] at hx
  | succ f ih =>
    intro h p x hx
    cases p with
    | none => simpa [clone] using hx
    | some m =>
      simp only [clone] at hx ⊢
      cases hr : h.read m with
      | none => simp [hr] at hx
      | some md =>
        simp only [hr] at hx ⊢
        cases hr1 : (h.alloc (⟨md.elem, none, none, none⟩ : Node E)).1.read m with
        | none => simp [hr1] at hx
        | some md1 =>
          simp only [hr1] at hx ⊢
          have hright : ∀ h3 : Heap E,
              (match h3.read m with
                | none => none
                | some md3 =>
                  match
                    if md3.right ≠ none then
                      match clone f h3 md3.right with
                      | none => none
                      | some (h4, c) => clone_link_right h4
                          (h.alloc (⟨md.elem, none, none, none⟩ : Node E)).2 c
                    else some h3 with
                  | none => none
                  | some h5 =>
                    some (h5, some (h.alloc (⟨md.elem, none, none, none⟩ : Node E)).2)) =
                some x →
              (match h3.read m with
                | none => none
                | some md3 =>
                  match
                    if md3.right ≠ none then
                      match clone (f + 1) h3 md3.right with
                      | none => none
                      | some (h4, c) => clone_link_right h4
                          (h.alloc (⟨md.elem, none, none, none⟩ : Node E)).2 c
                    else some h3 with
                  | none => none
                  | some h5 =>
                    some (h5, some (h.alloc (⟨md.elem, none, none, none⟩ : Node E)).2)) =
                some x := by
            intro h3 hh
            cases hr3 : h3.read m with
            | none => simp [hr3] at hh
            | some md3 =>
              simp only [hr3] at hh ⊢
              by_cases hrn : md3.right = none
              · simpa [hrn] using hh
              · rw [if_pos hrn] at hh ⊢
                cases hc : clone f h3 md3.right with
                | none => simp [hc] at hh
                | some y =>
                  rw [ih _ _ y hc]
                  rw [hc] at hh
                  exact hh
          by_cases hl : md1.left = none
          · simp only [hl, ne_eq, not_true_eq_false, if_false] at hx ⊢
            exact hright _ hx
          · rw [if_pos hl] at hx ⊢
            cases hc : clone f (h.alloc (⟨md.elem, none, none, none⟩ : Node E)).1 md1.left with
            | none => simp [hc] at hx
            | some y =>
              rw [ih _ _ y hc]
              rw [hc] at hx
              obtain ⟨h2, c⟩ := y
              simp only at hx ⊢
              cases hk : clone_link_left h2
                  (h.alloc (⟨md.elem, none, none, none⟩ : Node E)).2 c with
              | none => simp [hk] at hx
              | some h3 =>
                simp only [hk] at hx ⊢
                exact hright _ hx

theorem tear_down_mono_le {E : Type} {fuel fuel1 : Nat} (hle : fuel ≤ fuel1) {h : Heap E}
    {p : Option Nat} {x : Heap E} (hx : tear_down fuel h p = some x) :
    tear_down fuel1 h p = some x := by
  induction hle with
  | refl => exact hx
  | step _ ih => exact tear_down_mono _ _ _ _ ih

theorem clone_mono_le {E : Type} {fuel fuel1 : Nat} (hle : fuel ≤ fuel1) {h : Heap E}
    {p : Option Nat} {x : Heap E × Option Nat} (hx : clone fuel h p = some x) :
    clone fuel1 h p = some x := by
  induction hle with
  | refl => exact hx
  | step _ ih => exact clone_mono _ _ _ _ ih

theorem copy_construct_mono_le {E : Type} {fuel fuel1 : Nat} (hle : fuel ≤ fuel1)
    {w w1 : World E} {c t : Nat} (hx : copy_construct fuel w c t = some w1) :
    copy_construct fuel1 w c t = some w1 := by
  simp only [copy_construct] at hx ⊢
  cases hc : clone fuel w.heap (Function.update w.trees c ⟨none, 0⟩ t).rt with
  | none => simp [hc] at hx
  | some y =>
    rw [clone_mono_le hle hc]
    rw [hc] at hx
    exact hx

theorem copy_assign_mono_le {E : Type} {fuel fuel1 : Nat} (hle : fuel ≤ fuel1)
    {w w1 : World E} {c t : Nat} (hx : copy_assign fuel w c t = some w1) :
    copy_assign fuel1 w c t = some w1 := by
  simp only [copy_assign] at hx ⊢
  by_cases hct : c = t
  · simpa [hct] using hx
  · rw [if_pos hct] at hx ⊢
    cases ht : tear_down fuel w.heap (w.trees c).rt with
    | none => simp [ht] at hx
    | some h1 =>
      rw [tear_down_mono_le hle ht]
      rw [ht] at hx
      simp only at hx ⊢
      cases hc : clone fuel h1 (w.trees t).rt with
      | none => simp [hc] at hx
      | some y =>
        rw [clone_mono_le hle hc]
        rw [hc] at hx
        exact hx

theorem move_assign_mono_le {E : Type} {fuel fuel1 : Nat} (hle : fuel ≤ fuel1)
    {w w1 : World E} {d s : Nat} (hx : move_assign fuel w d s = some w1) :
    move_assign fuel1 w d s = some w1 := by
  simp only [move_assign] at hx ⊢
  by_cases hds : d = s
  · simpa [hds] using hx
  · rw [if_pos hds] at hx ⊢
    cases ht : tear_down fuel w.heap (w.trees d).rt with
    | none => simp [ht] at hx
    | some h1 =>
      rw [tear_down_mono_le hle ht]
      rw [ht] at hx
      exact hx

/-! ## Copies and moves keep the world well formed -/

theorem WellFormed.step_copy_construct {E : Type} {w w1 : World E} {c t fuel : Nat}
    (hw : WellFormed w) (hct : c ≠ t) (h : copy_construct fuel w c t = some w1) :
    WellFormed w1 := by
  obtain ⟨shapes, hd⟩ := hw
  have h1 := copy_construct_mono_le (Nat.le_max_left fuel (w.heap.cells.length + 1)) h
  obtain ⟨w2, he, _, _, _, _, hd2⟩ := copy_construct_done hd hct
    (lt_of_lt_of_le (Nat.lt_succ_self _) (Nat.le_max_right fuel (w.heap.cells.length + 1)))
  rw [he] at h1
  injection h1 with h1
  subst h1
  exact ⟨_, hd2⟩

theorem WellFormed.step_copy_assign {E : Type} {w w1 : World E} {c t fuel : Nat}
    (hw : WellFormed w) (h : copy_assign fuel w c t = some w1) : WellFormed w1 := by
  by_cases hct : c = t
  · simp only [copy_assign, hct, ne_eq, not_true_eq_false, if_false, Option.some.injEq] at h
    subst h
    exact hw
  · obtain ⟨shapes, hd⟩ := hw
    have h1 := copy_assign_mono_le (Nat.le_max_left fuel (w.heap.cells.length + 1)) h
    obtain ⟨w2, he, _, _, _, _, hd2⟩ := copy_assign_done hd hct
      (lt_of_lt_of_le (Nat.lt_succ_self _) (Nat.le_max_right fuel (w.heap.cells.length + 1)))
    rw [he] at h1
    injection h1 with h1
    subst h1
    exact ⟨_, hd2⟩

theorem WellFormed.step_move_construct {E : Type} {w : World E} {d s : Nat}
    (hw : WellFormed w) (hds : d ≠ s) : WellFormed (move_construct w d s) := by
  obtain ⟨shapes, hd⟩ := hw
  exact ⟨_, hd.after_move_construct hds⟩

theorem WellFormed.step_move_assign {E : Type} {w w1 : World E} {d s fuel : Nat}
    (hw : WellFormed w) (h : move_assign fuel w d s = some w1) : WellFormed w1 := by
  by_cases hds : d = s
  · simp only [move_assign, hds, ne_eq, not_true_eq_false, if_false, Option.some.injEq] at h
    subst h
    exact hw
  · obtain ⟨shapes, hd⟩ := hw
    have h1 := move_assign_mono_le (Nat.le_max_left fuel (w.heap.cells.length + 1)) h
    obtain ⟨w2, he, _, _, _, _, _, _, hd2⟩ := move_assign_done hd hds
      (lt_of_lt_of_le (Nat.lt_succ_self _) (Nat.le_max_right fuel (w.heap.cells.length + 1)))
    rw [he] at h1
    injection h1 with h1
    subst h1
    exact ⟨_, hd2⟩

theorem ReachableAll.wellFormed_all {E : Type} {w : World E} (hw : ReachableAll w) :
    WellFormed w := by
  induction hw with
  | init => exact ⟨_, Describes.init E⟩
  | add_root _ h ih => exact ih.step_add_root h
  | add_left _ hp h ih => exact ih.step_add_left hp h
  | add_right _ hp h ih => exact ih.step_add_right hp h
  | erase _ hp h ih => exact ih.step_erase hp h
  | attach _ hp hlr hli hri h ih => exact ih.step_attach hp hlr hli hri h
  | copy_construct _ hct h ih => exact ih.step_copy_construct hct h
  | copy_assign _ h ih => exact ih.step_copy_assign h
  | move_construct _ hds ih => exact ih.step_move_construct hds
  | move_assign _ h ih => exact ih.step_move_assign h

theorem Reachable.reachableAll {E : Type} {w : World E} (hw : Reachable w) :
    ReachableAll w := by
  induction hw with
  | init => exact ReachableAll.init
  | add_root _ h ih => exact ih.add_root h
  | add_left _ hp h ih => exact ih.add_left hp h
  | add_right _ hp h ih => exact ih.add_right hp h
  | erase _ hp h ih => exact ih.erase hp h
  | attach _ hp hlr hli hri h ih => exact ih.attach hp hlr hli hri h

/-! ## The positions of a tree after `attach` -/

/-- Filling both empty slots of the leaf `n` of a held shape puts the addresses of the two
new subshapes right after `n` in the preorder list. -/
theorem Shape.addrs_attach {E : Type} {h : Heap E} {n : Nat} {nd : Node E} (tL tR : Shape E)
    (hn : h.read n = some nd) (hl : nd.left = none) (hr : nd.right = none) :
    ∀ {s : Shape E} {par : Option Nat}, Models h par s → s.addrs.Nodup → n ∈ s.addrs →
      ∃ pre post, s.addrs = pre ++ n :: post ∧
        (Shape.setRight n tR (Shape.setLeft n tL s)).addrs =
          pre ++ n :: (tL.addrs ++ tR.addrs ++ post) := by
  intro s
  induction s with
  | nil => intro par _ _ hmem; simp [Shape.addrs] at hmem
  | node a e l r ihl ihr =>
    intro par hm hnd hmem
    obtain ⟨hra, hml, hmr⟩ := hm
    simp only [Shape.addrs, List.nodup_cons, List.mem_append, not_or, List.nodup_append] at hnd
    obtain ⟨⟨hal, har⟩, hndl, hndr, hdisj⟩ := hnd
    by_cases ha : a = n
    · subst ha
      rw [hn] at hra
      simp only [Option.some.injEq] at hra
      subst hra
      have hlnil : l = .nil := Shape.root_eq_none hl
      have hrnil : r = .nil := Shape.root_eq_none hr
      subst hlnil hrnil
      exact ⟨[], [], by simp [Shape.addrs], by simp [Shape.setLeft, Shape.setRight, Shape.addrs]⟩
    · simp only [Shape.addrs, List.mem_cons, List.mem_append] at hmem
      simp only [Shape.setLeft, if_neg ha, Shape.setRight, Shape.addrs]
      rcases hmem with hmem | hmem | hmem
      · exact absurd hmem.symm ha
      · have hnr : n ∉ r.addrs := fun hx => hdisj hmem hx
        obtain ⟨pre, post, h1, h2⟩ := ihl hml hndl hmem
        rw [Shape.setLeft_of_not_mem n tL r hnr, Shape.setRight_of_not_mem n tR r hnr, h1, h2]
        exact ⟨a :: pre, post ++ r.addrs, by simp, by simp⟩
      · have hnl : n ∉ l.addrs := fun hx => hdisj hx hmem
        obtain ⟨pre, post, h1, h2⟩ := ihr hmr hndr hmem
        rw [Shape.setLeft_of_not_mem n tL l hnl, Shape.setRight_of_not_mem n tR l hnl, h1, h2]
        exact ⟨a :: (l.addrs ++ pre), post, by simp, by simp⟩

/-! ## Parent and child pointers agree -/

/-- Parent and child pointers of a described tree agree: the root has no parent, every other
node is exactly one of the two children of its parent, and every child points back. -/
theorem Describes.consistent {E : Type} {w : World E} {shapes : Nat → Shape E}
    (hd : Describes w shapes) (i : Nat) :
    (∀ r, (w.trees i).rt = some r → (root w i).parent w.heap = some ⟨none⟩) ∧
    (∀ r x, (w.trees i).rt = some r → Reaches w.heap r x → x ≠ r →
      ∃ pa, (pos x).parent w.heap = some (pos pa) ∧ Reaches w.heap r pa ∧
        (((pos pa).left w.heap = some (pos x) ∧ (pos pa).right w.heap ≠ some (pos x)) ∨
         ((pos pa).left w.heap ≠ some (pos x) ∧ (pos pa).right w.heap = some (pos x)))) ∧
    (∀ a c, a ∈ (shapes i).addrs → c.is_null = false →
      ((pos a).left w.heap = some c ∨ (pos a).right w.heap = some c) →
      c.parent w.heap = some (pos a)) := by
  have hm := hd.models i
  have hnd := hd.nodup i
  refine ⟨?_, ?_, ?_⟩
  · intro r hr
    rw [hd.rt_eq i] at hr
    cases hs : shapes i with
    | nil => rw [hs] at hr; simp [Shape.root] at hr
    | node a e l1 r1 =>
      rw [hs] at hr hm
      simp only [Shape.root, Option.some.injEq] at hr
      subst hr
      have hrt : (w.trees i).rt = some a := by rw [hd.rt_eq i, hs]; rfl
      simp [root, hrt, Position.parent, hm.1]
  · intro r x hr hreach hxr
    rw [hd.rt_eq i] at hr
    have hx : x ∈ (shapes i).addrs := hm.mem_of_reaches hnd hr hreach
    obtain ⟨nd, hnd1⟩ := hm.live x hx
    rcases hm.parent_info hnd hx hnd1 with ⟨hroot, _⟩ | ⟨_, pa, pd, hp1, hp2, _, _, hp5, hp6⟩
    · rw [hr] at hroot
      simp only [Option.some.injEq] at hroot
      exact absurd hroot.symm hxr
    · obtain ⟨r2, hr2, hreach2⟩ := hm.reaches_of_mem hp2
      rw [hr] at hr2
      simp only [Option.some.injEq] at hr2
      subst hr2
      obtain ⟨e, p, l1, r1, h1, _, _, h4, _, _, _⟩ := hm.locate hnd hp2
      rw [hp5] at h1
      simp only [Option.some.injEq] at h1
      subst h1
      simp only [List.nodup_cons, List.nodup_append] at h4
      have hnot : ¬(l1.root = some x ∧ r1.root = some x) := fun hb =>
        h4.2.2.2 (Shape.root_mem hb.1) (Shape.root_mem hb.2)
      refine ⟨pa, by simp [pos, Position.parent, hnd1, hp1], hreach2, ?_⟩
      simp only [pos, Position.left, Position.right, hp5, Option.some.injEq,
        Position.mk.injEq, ne_eq]
      rcases hp6 with h6 | h6
      · exact Or.inl ⟨h6, fun hx2 => hnot ⟨h6, hx2⟩⟩
      · exact Or.inr ⟨fun hx2 => hnot ⟨hx2, h6⟩, h6⟩
  · intro a c ha hc hchild
    obtain ⟨e, p, l1, r1, h1, hl1, hr1, _, _, _, _⟩ := hm.locate hnd ha
    have hcn : c.node ≠ none := by simpa [Position.is_null] using hc
    obtain ⟨cn, hcn1⟩ := Option.ne_none_iff_exists'.1 hcn
    have key : ∀ t : Shape E, Models w.heap (some a) t → t.root = some cn →
        c.parent w.heap = some (pos a) := by
      intro t ht hroot
      cases t with
      | nil => simp [Shape.root] at hroot
      | node b e2 l2 r2 =>
        simp only [Shape.root, Option.some.injEq] at hroot
        subst hroot
        simp [Position.parent, hcn1, ht.1, pos]
    simp only [pos, Position.left, Position.right, h1, Option.some.injEq] at hchild
    rcases hchild with h2 | h2
    · refine key l1 hl1 ?_
      have := congrArg Position.node h2
      simpa [hcn1] using this
    · refine key r1 hr1 ?_
      have := congrArg Position.node h2
      simpa [hcn1] using this

/-! ## The claims -/

/-- C1: in every world reachable from the initial one (every tree default-constructed) by
successful `add_root`, `add_left`, `add_right`, `erase` and `attach` calls on live positions
of the tree operated on, with `attach` sources distinct from each other and from the target,
`positions()` of every tree returns (with any fuel above the heap size, and with the same
result whenever it returns), and `size()` is the length of the list it returns; in
particular `size()` is 0 when the root is null. -/
theorem size_eq_length_positions {E : Type} (w : World E) (hw : Reachable w) (i : Nat) :
    ∃ ps : List Position,
      (∀ fuel, w.heap.cells.length < fuel → positions fuel w i = some ps) ∧
      (∀ fuel qs, positions fuel w i = some qs → qs = ps) ∧
      size w i = (ps.length : Int) ∧
      ((root w i).is_null = true → size w i = 0) := by
  obtain ⟨shapes, hd⟩ := hw.wellFormed
  refine ⟨(shapes i).addrs.map pos, fun fuel hf => hd.positions_eq i hf, ?_, ?_, ?_⟩
  · intro fuel qs hq
    unfold positions at hq
    rw [hd.rt_eq i] at hq
    simpa using preorder_models_inv (hd.models i) fuel [] qs hq
  · simp [size, hd.sz_eq i, Shape.size_eq_length]
  · intro hnull
    have hrt : (shapes i).root = none := by
      have := hd.rt_eq i
      simp only [Position.is_null, root, beq_iff_eq] at hnull
      rw [← this, hnull]
    simp [size, hd.sz_eq i, Shape.root_eq_none hrt, Shape.size]

theorem size_eq_length_positions_witness :
    Reachable sample4 ∧ ∃ ps : List Position,
      (∀ fuel, sample4.heap.cells.length < fuel → positions fuel sample4 0 = some ps) ∧
      (∀ fuel qs, positions fuel sample4 0 = some qs → qs = ps) ∧
      size sample4 0 = (ps.length : Int) ∧
      ((root sample4 0).is_null = true → size sample4 0 = 0) :=
  ⟨sample4_reachable, size_eq_length_positions sample4 sample4_reachable 0⟩

/-- C2: `positions()` is the preorder listing of the specification (empty for a null root;
otherwise the root, then the listing of the left subtree, then that of the right subtree),
whatever the heap and the fuel; and on a well-formed world it returns, with any fuel above
the heap size, a list without repetition whose members are exactly the nodes reachable from
the root, so that every reachable node appears exactly once. -/
theorem positions_is_preorder_listing {E : Type} (w : World E) (hw : WellFormed w) (i : Nat) :
    (∀ fuel, positions fuel w i = preorder_listing w.heap fuel (w.trees i).rt) ∧
    ∃ ps : List Position,
      (∀ fuel, w.heap.cells.length < fuel → positions fuel w i = some ps) ∧
      ((root w i).is_null = true → ps = []) ∧
      (∀ r, (w.trees i).rt = some r → ps.head? = some ⟨some r⟩) ∧
      ps.Nodup ∧
      (∀ q, q ∈ ps ↔ ∃ r a, (w.trees i).rt = some r ∧ Reaches w.heap r a ∧ q = ⟨some a⟩) := by
  obtain ⟨shapes, hd⟩ := hw
  refine ⟨?_, (shapes i).addrs.map pos, fun fuel hf => hd.positions_eq i hf, ?_, ?_, ?_, ?_⟩
  · intro fuel
    unfold positions
    rw [preorder_eq_listing]
    cases preorder_listing w.heap fuel (w.trees i).rt <;> simp
  · intro hnull
    have hrt : (shapes i).root = none := by
      have := hd.rt_eq i
      simp only [Position.is_null, root, beq_iff_eq] at hnull
      rw [← this, hnull]
    simp [Shape.root_eq_none hrt, Shape.addrs]
  · intro r hr
    rw [hd.rt_eq i] at hr
    cases hs : shapes i with
    | nil => rw [hs] at hr; simp [Shape.root] at hr
    | node a e l1 r1 =>
      rw [hs] at hr
      simp only [Shape.root, Option.some.injEq] at hr
      subst hr
      simp [Shape.addrs, pos]
  · exact (hd.nodup i).map pos_injective
  · intro q
    simp only [List.mem_map]
    constructor
    · rintro ⟨a, ha, rfl⟩
      obtain ⟨r, hr, hra⟩ := (hd.models i).reaches_of_mem ha
      exact ⟨r, a, by rw [hd.rt_eq i, hr], hra, rfl⟩
    · rintro ⟨r, a, hr, hra, rfl⟩
      rw [hd.rt_eq i] at hr
      exact ⟨a, (hd.models i).mem_of_reaches (hd.nodup i) hr hra, rfl⟩

theorem positions_is_preorder_listing_witness :
    WellFormed sample4 ∧
    (∀ fuel, positions fuel sample4 0 = preorder_listing sample4.heap fuel (sample4.trees 0).rt) ∧
    ∃ ps : List Position,
      (∀ fuel, sample4.heap.cells.length < fuel → positions fuel sample4 0 = some ps) ∧
      ((root sample4 0).is_null = true → ps = []) ∧
      (∀ r, (sample4.trees 0).rt = some r → ps.head? = some ⟨some r⟩) ∧
      ps.Nodup ∧
      (∀ q, q ∈ ps ↔
        ∃ r a, (sample4.trees 0).rt = some r ∧ Reaches sample4.heap r a ∧ q = ⟨some a⟩) :=
  ⟨sample4_reachable.wellFormed,
    positions_is_preorder_listing sample4 sample4_reachable.wellFormed 0⟩

/-- C3: on a well-formed world, for a position `p` of a leaf of tree `i`, `erase(p)` returns
normally, `size()` afterwards is the previous size minus 1, and `positions()` afterwards is
the previous list with `p` filtered out, the other positions keeping their order. -/
theorem erase_leaf {E : Type} (w : World E) (hw : WellFormed w) (i : Nat) (p : Position)
    (hp : Live w i p) (hleaf : p.is_external w.heap = some true) :
    ∃ (w1 : World E) (ps : List Position),
      erase w i p = .done w1 ∧
      size w1 i = size w i - 1 ∧
      (∀ fuel, w.heap.cells.length < fuel → positions fuel w i = some ps) ∧
      p ∈ ps ∧
      (∀ fuel, w1.heap.cells.length < fuel →
        positions fuel w1 i = some (ps.filter (fun q => q ≠ p))) := by
  obtain ⟨shapes, hd⟩ := hw
  obtain ⟨n, nd, rfl, hn, hr⟩ := hd.mem_of_live hp
  have hl : nd.left = none := by
    simp only [Position.is_external, hr, Option.some.injEq, Bool.and_eq_true,
      beq_iff_eq] at hleaf
    exact hleaf.1
  obtain ⟨w1, he, _, htrees, hd1, haddrs⟩ := erase_spec hd hn hr (Or.inl hl)
  refine ⟨w1, (shapes i).addrs.map pos, he, ?_, fun fuel hf => hd.positions_eq i hf,
    List.mem_map.2 ⟨n, hn, rfl⟩, ?_⟩
  · simp [size, htrees]
  · intro fuel hf
    rw [hd1.positions_eq i hf, Function.update_same, haddrs, map_pos_erase (hd.nodup i)]
    rfl

theorem erase_leaf_witness :
    WellFormed sample4 ∧ Live sample4 0 (pos 2) ∧
    (pos 2).is_external sample4.heap = some true ∧
    ∃ (w1 : World Nat) (ps : List Position),
      erase sample4 0 (pos 2) = .done w1 ∧
      size w1 0 = size sample4 0 - 1 ∧
      (∀ fuel, sample4.heap.cells.length < fuel → positions fuel sample4 0 = some ps) ∧
      pos 2 ∈ ps ∧
      (∀ fuel, w1.heap.cells.length < fuel →
        positions fuel w1 0 = some (ps.filter (fun q => q ≠ pos 2))) :=
  ⟨sample4_reachable.wellFormed, ⟨5, [pos 0, pos 1, pos 3, pos 2], rfl, by simp⟩, rfl,
    erase_leaf sample4 sample4_reachable.wellFormed 0 (pos 2)
      ⟨5, [pos 0, pos 1, pos 3, pos 2], rfl, by simp⟩ rfl⟩

/-- C4: on a well-formed world, for a position `p` of tree `i` whose node has exactly one
child `c`, `erase(p)` returns normally and `size()` has decreased by 1.  If `p` was the root,
`c` is the new root and `c.parent()` is null.  Otherwise the root is unchanged, and with `q`
the former parent of `p`: `c.parent()` is `q`, `c` sits in the slot of `q` that held `p`, and
the other slot, the element and the parent of `q` are unchanged.  The node of `c` keeps its
element and its two child pointers, every node other than `p`, `c` and `q` keeps its whole
record, the node of `p` is gone, and `positions()` is the previous list without `p`. -/
theorem erase_one_child {E : Type} (w : World E) (hw : WellFormed w) (i : Nat)
    (p c : Position) (hp : Live w i p) (hc : p.children w.heap = some [c]) :
    ∃ (w1 : World E) (ps : List Position),
      erase w i p = .done w1 ∧
      size w1 i = size w i - 1 ∧
      (p = root w i → root w1 i = c ∧ c.parent w1.heap = some ⟨none⟩) ∧
      (p ≠ root w i → root w1 i = root w i ∧
        ∃ q : Position, q.is_null = false ∧ p.parent w.heap = some q ∧
          c.parent w1.heap = some q ∧
          ((q.left w.heap = some p ∧ q.left w1.heap = some c ∧
              q.right w1.heap = q.right w.heap) ∨
           (q.left w.heap ≠ some p ∧ q.right w.heap = some p ∧ q.right w1.heap = some c ∧
              q.left w1.heap = q.left w.heap)) ∧
          q.element w1.heap = q.element w.heap ∧ q.parent w1.heap = q.parent w.heap) ∧
      (c.is_null = false ∧ c.element w1.heap = c.element w.heap ∧
        c.left w1.heap = c.left w.heap ∧ c.right w1.heap = c.right w.heap) ∧
      (∀ a : Nat, (⟨some a⟩ : Position) ≠ p → (⟨some a⟩ : Position) ≠ c →
        some (⟨some a⟩ : Position) ≠ p.parent w.heap → w1.heap.read a = w.heap.read a) ∧
      p.element w1.heap = none ∧
      (∀ fuel, w.heap.cells.length < fuel → positions fuel w i = some ps) ∧
      c ∈ ps ∧
      (∀ fuel, w1.heap.cells.length < fuel →
        positions fuel w1 i = some (ps.filter (fun q => q ≠ p))) := by
  obtain ⟨shapes, hd⟩ := hw
  obtain ⟨n, nd, rfl, hn, hr⟩ := hd.mem_of_live hp
  have hm := hd.models i
  have hnd := hd.nodup i
  -- the only child is what `erase` calls `child`
  have hchild : (nd.left = none ∨ nd.right = none) ∧ c = ⟨erase_child nd⟩ ∧
      ∃ cn, erase_child nd = some cn := by
    simp only [Position.children, hr, Option.some.injEq] at hc
    unfold erase_child
    by_cases hl : nd.left = none
    · by_cases hrr : nd.right = none
      · simp [hl, hrr] at hc
      · obtain ⟨cn, hcn⟩ := Option.ne_none_iff_exists'.1 hrr
        simp [hl, hrr] at hc
        refine ⟨Or.inl hl, ?_, cn, by simp [hl, hcn]⟩
        simp [hl, ← hc]
    · by_cases hrr : nd.right = none
      · obtain ⟨cn, hcn⟩ := Option.ne_none_iff_exists'.1 hl
        simp [hl, hrr] at hc
        refine ⟨Or.inr hrr, ?_, cn, by simp [hcn]⟩
        simp [hl, ← hc]
      · simp [hl, hrr] at hc
  obtain ⟨hle, rfl, cn, hcn⟩ := hchild
  obtain ⟨hcm, hcne, cd, hcd⟩ := hm.child_mem hnd hn hr hcn
  obtain ⟨w1, he, her, htrees, hd1, haddrs⟩ := erase_spec hd hn hr hle
  have hc1 : w1.heap.read cn = some { cd with par := nd.par } := her.child cn cd hcn hcd
  refine ⟨w1, (shapes i).addrs.map pos, he, ?_, ?_, ?_, ?_, ?_, ?_,
    fun fuel hf => hd.positions_eq i hf, ?_, ?_⟩
  · simp [size, htrees]
  · intro hroot
    have hrt : (w.trees i).rt = some n := by
      simp only [root, Position.mk.injEq] at hroot
      exact hroot.symm
    rcases hm.parent_info hnd hn hr with ⟨_, hpar⟩ | ⟨hne, _⟩
    · refine ⟨by simp [root, htrees, hrt], ?_⟩
      simp [Position.parent, hcn, hc1, hpar]
    · exact absurd (by rw [← hd.rt_eq i, hrt]) hne
  · intro hroot
    have hrt : (w.trees i).rt ≠ some n := by
      intro hx
      apply hroot
      simp [root, hx]
    rcases hm.parent_info hnd hn hr with ⟨hx, _⟩ | ⟨_, pa, pd, hp1, _, hp3, hp4, hp5, hp6⟩
    · exact absurd (by rw [hd.rt_eq i, hx]) hrt
    · refine ⟨by simp [root, htrees, hrt], ⟨some pa⟩, rfl, ?_, ?_, ?_, ?_, ?_⟩
      · simp [Position.parent, hr, hp1]
      · simp [Position.parent, hcn, hc1, hp1]
      · have hpa1 := her.parent pa pd hp1 hp5
        by_cases hl : pd.left = some n
        · left
          rw [if_pos hl] at hpa1
          simp [Position.left, Position.right, hp5, hpa1, hl]
        · right
          rw [if_neg hl] at hpa1
          have hrr : pd.right = some n := hp6.resolve_left hl
          simp [Position.left, Position.right, hp5, hpa1, hl, hrr]
      · have hpa1 := her.parent pa pd hp1 hp5
        by_cases hl : pd.left = some n
        · rw [if_pos hl] at hpa1; simp [Position.element, hp5, hpa1]
        · rw [if_neg hl] at hpa1; simp [Position.element, hp5, hpa1]
      · have hpa1 := her.parent pa pd hp1 hp5
        by_cases hl : pd.left = some n
        · rw [if_pos hl] at hpa1; simp [Position.parent, hp5, hpa1]
        · rw [if_neg hl] at hpa1; simp [Position.parent, hp5, hpa1]
  · simp [Position.is_null, Position.element, Position.left, Position.right, hcn, hc1, hcd]
  · intro a hap hac hapar
    refine her.rest a ?_ ?_ ?_
    · rintro rfl; exact hap rfl
    · intro hx; exact hac (by rw [hx])
    · intro hx
      apply hapar
      simp [Position.parent, hr, ← hx]
  · simp [Position.element, her.dead]
  · exact List.mem_map.2 ⟨cn, hcm, by simp [pos, hcn]⟩
  · intro fuel hf
    rw [hd1.positions_eq i hf, Function.update_same, haddrs, map_pos_erase hnd]
    rfl

theorem erase_one_child_witness :
    WellFormed sample4 ∧ Live sample4 0 (pos 1) ∧
    (pos 1).children sample4.heap = some [pos 3] ∧
    ∃ w1 : World Nat, erase sample4 0 (pos 1) = .done w1 ∧ size w1 0 = size sample4 0 - 1 ∧
      (pos 3).parent w1.heap = some (pos 0) ∧ (pos 0).left w1.heap = some (pos 3) := by
  have hlive : Live sample4 0 (pos 1) := ⟨5, [pos 0, pos 1, pos 3, pos 2], rfl, by simp⟩
  refine ⟨sample4_reachable.wellFormed, hlive, rfl, ?_⟩
  obtain ⟨w1, ps, he, hsz, _, _, _⟩ :=
    erase_one_child sample4 sample4_reachable.wellFormed 0 (pos 1) (pos 3) hlive rfl
  refine ⟨w1, he, hsz, ?_, ?_⟩
  · have h2 : erase sample4 0 (pos 1) = .done ⟨(sample4.heap.write 3 ⟨40, some 0, none, none⟩
        |>.write 0 ⟨10, none, some 3, some 2⟩).free 1,
        Function.update sample4.trees 0 ⟨some 0, 3⟩⟩ := rfl
    rw [h2] at he
    injection he with he
    subst he
    rfl
  · have h2 : erase sample4 0 (pos 1) = .done ⟨(sample4.heap.write 3 ⟨40, some 0, none, none⟩
        |>.write 0 ⟨10, none, some 3, some 2⟩).free 1,
        Function.update sample4.trees 0 ⟨some 0, 3⟩⟩ := rfl
    rw [h2] at he
    injection he with he
    subst he
    rfl

/-- C5: on a well-formed world, for a leaf position `p` of tree `i` and non-empty source
trees `l` and `r`, distinct from each other and from `i`, `attach(p, l, r)` returns normally;
afterwards the size of `i` is the sum of the three previous sizes, `l` and `r` are empty with
null roots, `p.left()` is the former root of `l`, `p.right()` is the former root of `r`
(both non-null), and both of these nodes have `p` as parent. -/
theorem attach_leaf {E : Type} (w : World E) (hw : WellFormed w) (i l r : Nat) (p : Position)
    (hp : Live w i p) (hleaf : p.is_external w.heap = some true)
    (hl : empty w l = false) (hr : empty w r = false)
    (hlr : l ≠ r) (hli : l ≠ i) (hri : r ≠ i) :
    ∃ w1 : World E, attach w i p l r = .done w1 ∧
      size w1 i = size w i + size w l + size w r ∧
      empty w1 l = true ∧ empty w1 r = true ∧
      root w1 l = ⟨none⟩ ∧ root w1 r = ⟨none⟩ ∧
      (root w l).is_null = false ∧ (root w r).is_null = false ∧
      p.left w1.heap = some (root w l) ∧ p.right w1.heap = some (root w r) ∧
      (root w l).parent w1.heap = some p ∧ (root w r).parent w1.heap = some p := by
  obtain ⟨shapes, hd⟩ := hw
  obtain ⟨n, nd, rfl, hn, hrd⟩ := hd.mem_of_live hp
  have hleaf1 : nd.left = none ∧ nd.right = none := by
    simpa [Position.is_external, hrd] using hleaf
  have hszl : (w.trees l).sz ≠ 0 := by simpa [empty] using hl
  have hszr : (w.trees r).sz ≠ 0 := by simpa [empty] using hr
  obtain ⟨rl, rld, hrl, hrlm, hrlr⟩ := hd.root_of_nonempty hszl
  obtain ⟨rr, rrd, hrr, hrrm, hrrr⟩ := hd.root_of_nonempty hszr
  have hrln : rl ≠ n := by rintro rfl; exact hd.disjoint l i hli _ hrlm hn
  have hrrn : rr ≠ n := by rintro rfl; exact hd.disjoint r i hri _ hrrm hn
  have hrlrr : rl ≠ rr := by rintro rfl; exact hd.disjoint l r hlr _ hrlm hrrm
  obtain ⟨wa, wb, he, hat1, hat2, _⟩ :=
    attach_done hd hn hrd hleaf1.1 hleaf1.2 hli hri hlr
  have htr : wa.trees r = w.trees r := hat1.others r hri (Ne.symm hlr)
  have hnode : wb.heap.read n =
      some { nd with left := (w.trees l).rt, right := (w.trees r).rt } := by
    rw [hat2.node, htr]
  have hrl1 : wb.heap.read rl = some { rld with par := some n } := by
    rw [hat2.rest rl hrln (by rw [htr, hrr]; simpa using hrlrr)]
    exact hat1.root rl rld hrl hrlr
  have hrr1 : wb.heap.read rr = some { rrd with par := some n } := by
    refine hat2.root rr rrd (by rw [htr, hrr]) ?_
    rw [hat1.rest rr hrrn (by rw [hrl]; simpa using (Ne.symm hrlrr)), hrrr]
  refine ⟨wb, he, ?_, ?_, ?_, ?_, ?_, ?_, ?_, ?_, ?_, ?_, ?_⟩
  · simp [size, hat2.target, hat1.target, htr]
  · simp [empty, hat2.others l hli hlr, hat1.source]
  · simp [empty, hat2.source]
  · simp [root, hat2.others l hli hlr, hat1.source]
  · simp [root, hat2.source]
  · simp [root, Position.is_null, hrl]
  · simp [root, Position.is_null, hrr]
  · simp [Position.left, hnode, root]
  · simp [Position.right, hnode, root]
  · simp [Position.parent, root, hrl, hrl1]
  · simp [Position.parent, root, hrr, hrr1]

theorem attach_leaf_witness :
    WellFormed sample6 ∧ Live sample6 0 (pos 0) ∧
    (pos 0).is_external sample6.heap = some true ∧
    empty sample6 1 = false ∧ empty sample6 2 = false ∧
    ∃ w1 : World Nat, attach sample6 0 (pos 0) 1 2 = .done w1 ∧
      size w1 0 = size sample6 0 + size sample6 1 + size sample6 2 ∧
      empty w1 1 = true ∧ empty w1 2 = true ∧
      root w1 1 = ⟨none⟩ ∧ root w1 2 = ⟨none⟩ ∧
      (root sample6 1).is_null = false ∧ (root sample6 2).is_null = false ∧
      (pos 0).left w1.heap = some (root sample6 1) ∧
      (pos 0).right w1.heap = some (root sample6 2) ∧
      (root sample6 1).parent w1.heap = some (pos 0) ∧
      (root sample6 2).parent w1.heap = some (pos 0) :=
  ⟨sample6_reachable.wellFormed, ⟨2, [pos 0], rfl, by simp⟩, rfl, rfl, rfl,
    attach_leaf sample6 sample6_reachable.wellFormed 0 1 2 (pos 0)
      ⟨2, [pos 0], rfl, by simp⟩ rfl rfl rfl (by decide) (by decide) (by decide)⟩

/-- C6: for two different tree objects `c` and `t` of a well-formed world and any fuel above
the heap size, copy-constructing `c` from `t` and copy-assigning `t` to `c` both return.
In the world `w1` either of them leaves: `c.size()` is the size of `t`; `c` has the shape and
the elements of `t` (same `skeleton`, same element sequence along `positions()`); no position
of `c` is a position of `t`; and in every world `w2` reached from `w1` by successful
`add_left`, `add_right`, `erase` and element writes on `c` through live positions of `c`
(the world `w1` itself included), `t` has its size, its `positions()`, its shape and
elements, and every node of `t` has the record it had before the copy. -/
theorem copy_spec {E : Type} (w : World E) (hw : WellFormed w) (c t : Nat) (hct : c ≠ t) :
    ∃ (psT : List Position) (sk : Skel E),
      (∀ f, w.heap.cells.length < f →
        positions f w t = some psT ∧ skeleton w.heap f (w.trees t).rt = some sk) ∧
      ∀ fuel, w.heap.cells.length < fuel →
        (∃ w1, copy_construct fuel w c t = some w1) ∧
        (∃ w1, copy_assign fuel w c t = some w1) ∧
        ∀ w1, (copy_construct fuel w c t = some w1 ∨ copy_assign fuel w c t = some w1) →
          size w1 c = size w t ∧
          (∃ psC : List Position,
            (∀ f, w1.heap.cells.length < f →
              positions f w1 c = some psC ∧
              skeleton w1.heap f (w1.trees c).rt = some sk) ∧
            psC.length = psT.length ∧
            psC.map (fun q => q.element w1.heap) = psT.map (fun q => q.element w.heap) ∧
            (∀ q, q ∈ psC → q ∉ psT)) ∧
          ∀ w2, Mutated c w1 w2 →
            size w2 t = size w t ∧
            (∀ f, w2.heap.cells.length < f →
              positions f w2 t = some psT ∧
              skeleton w2.heap f (w2.trees t).rt = some sk) ∧
            (∀ a, pos a ∈ psT → w2.heap.read a = w.heap.read a) := by
  obtain ⟨shapes, hd⟩ := hw
  refine ⟨(shapes t).addrs.map pos, (shapes t).skel, ?_, ?_⟩
  · intro f hf
    refine ⟨hd.positions_eq t hf, ?_⟩
    rw [hd.rt_eq t]
    exact skeleton_models (hd.models t) f ((hd.models t).height_lt (hd.nodup t) hf)
  intro fuel hf
  obtain ⟨wa, hea, _, _, _, _, hda⟩ := copy_construct_done hd hct hf
  obtain ⟨wb, heb, _, _, _, _, hdb⟩ := copy_assign_done hd hct hf
  have core : ∀ w1 : World E,
      Describes w1 (Function.update shapes c (Shape.cloneAt w.heap.cells.length (shapes t))) →
      size w1 c = size w t ∧
      (∃ psC : List Position,
        (∀ f, w1.heap.cells.length < f →
          positions f w1 c = some psC ∧
          skeleton w1.heap f (w1.trees c).rt = some (shapes t).skel) ∧
        psC.length = ((shapes t).addrs.map pos).length ∧
        psC.map (fun q => q.element w1.heap) =
          ((shapes t).addrs.map pos).map (fun q => q.element w.heap) ∧
        (∀ q, q ∈ psC → q ∉ (shapes t).addrs.map pos)) ∧
      ∀ w2, Mutated c w1 w2 →
        size w2 t = size w t ∧
        (∀ f, w2.heap.cells.length < f →
          positions f w2 t = some ((shapes t).addrs.map pos) ∧
          skeleton w2.heap f (w2.trees t).rt = some (shapes t).skel) ∧
        (∀ a, pos a ∈ (shapes t).addrs.map pos → w2.heap.read a = w.heap.read a) := by
    intro w1 hd1
    have hsc : (Function.update shapes c (Shape.cloneAt w.heap.cells.length (shapes t))) c =
        Shape.cloneAt w.heap.cells.length (shapes t) := Function.update_same _ _ _
    have hst : (Function.update shapes c (Shape.cloneAt w.heap.cells.length (shapes t))) t =
        shapes t := Function.update_noteq (Ne.symm hct) _ _
    have hmc := hd1.models c
    have hndc := hd1.nodup c
    rw [hsc] at hmc hndc
    refine ⟨?_, ⟨(Shape.cloneAt w.heap.cells.length (shapes t)).addrs.map pos, ?_, ?_, ?_, ?_⟩,
      ?_⟩
    · simp only [size]
      rw [hd1.sz_eq c, hsc, Shape.cloneAt_size, hd.sz_eq t]
    · intro f hf1
      refine ⟨by rw [hd1.positions_eq c hf1, hsc], ?_⟩
      rw [hd1.rt_eq c, hsc, skeleton_models hmc f (hmc.height_lt hndc hf1),
        Shape.cloneAt_skel]
    · simp only [List.length_map]
      rw [← Shape.size_eq_length, ← Shape.size_eq_length, Shape.cloneAt_size]
    · rw [hmc.elements, (hd.models t).elements, Shape.cloneAt_elems]
    · intro q hq hqt
      simp only [List.mem_map] at hq hqt
      obtain ⟨a, ha, rfl⟩ := hq
      obtain ⟨b, hb, hab⟩ := hqt
      have := pos_injective hab
      subst this
      have hdis := hd1.disjoint c t hct b
      rw [hsc, hst] at hdis
      exact hdis ha hb
    · intro w2 hmut
      obtain ⟨shapes2, hd2, hsame⟩ := hd1.mutated hmut
      have hs2 : shapes2 t = shapes t := by rw [hsame t (Ne.symm hct), hst]
      have hm2 := hd2.models t
      have hnd2 := hd2.nodup t
      rw [hs2] at hm2 hnd2
      refine ⟨?_, ?_, ?_⟩
      · simp only [size]
        rw [hd2.sz_eq t, hs2, hd.sz_eq t]
      · intro f hf2
        refine ⟨by rw [hd2.positions_eq t hf2, hs2], ?_⟩
        rw [hd2.rt_eq t, hs2]
        exact skeleton_models hm2 f (hm2.height_lt hnd2 hf2)
      · intro a ha
        simp only [List.mem_map] at ha
        obtain ⟨b, hb, hab⟩ := ha
        have := pos_injective hab
        subst this
        exact Models.read_eq (hd.models t) hm2 b hb
  refine ⟨⟨wa, hea⟩, ⟨wb, heb⟩, ?_⟩
  rintro w1 (h1 | h1)
  · rw [hea] at h1
    injection h1 with h1
    subst h1
    exact core wa hda
  · rw [heb] at h1
    injection h1 with h1
    subst h1
    exact core wb hdb

theorem copy_spec_witness :
    WellFormed sample4 ∧
    ∃ w1 : World Nat, copy_construct 5 sample4 1 0 = some w1 ∧ size w1 1 = size sample4 0 ∧
      ∀ w2, Mutated 1 w1 w2 → size w2 0 = size sample4 0 := by
  obtain ⟨psT, sk, _, h⟩ := copy_spec sample4 sample4_reachable.wellFormed 1 0 (by decide)
  obtain ⟨⟨w1, he⟩, _, hall⟩ := h 5 (by decide)
  obtain ⟨h1, _, h3⟩ := hall w1 (Or.inl he)
  exact ⟨sample4_reachable.wellFormed, w1, he, h1, fun w2 hm => (h3 w2 hm).1⟩

/-- C7: for two different tree objects `d` and `s` of a well-formed world.  After
move-constructing `d` from `s`: `s.size()` is 0 and `s.root()` is null, `d.size()` is the
former size of `s`, the heap is untouched and `d.positions()` is what `s.positions()` was.
After move-assigning `s` to `d` (any fuel above the heap size): the call returns, `s.size()`
is 0 and `s.root()` is null, `d.size()` is the former size of `s`, `d.positions()` is the list
`s.positions()` was, and every node of that list has the record (so the element) it had. -/
theorem move_spec {E : Type} (w : World E) (hw : WellFormed w) (d s : Nat) (hds : d ≠ s) :
    (size (move_construct w d s) s = 0 ∧ root (move_construct w d s) s = ⟨none⟩ ∧
      size (move_construct w d s) d = size w s ∧
      (move_construct w d s).heap = w.heap ∧
      (∀ fuel, positions fuel (move_construct w d s) d = positions fuel w s) ∧
      WellFormed (move_construct w d s)) ∧
    ∃ ps : List Position,
      (∀ fuel, w.heap.cells.length < fuel → positions fuel w s = some ps) ∧
      ∀ fuel, w.heap.cells.length < fuel →
        ∃ w1 : World E, move_assign fuel w d s = some w1 ∧
          size w1 s = 0 ∧ root w1 s = ⟨none⟩ ∧ size w1 d = size w s ∧
          (∀ fuel1, w1.heap.cells.length < fuel1 → positions fuel1 w1 d = some ps) ∧
          (∀ q, q ∈ ps → q.element w1.heap = q.element w.heap) ∧
          (∀ a, pos a ∈ ps → w1.heap.read a = w.heap.read a) ∧
          WellFormed w1 := by
  obtain ⟨shapes, hd⟩ := hw
  obtain ⟨c1, c2, c3, c4⟩ := move_construct_trees w hds
  refine ⟨⟨by simp [size, c3], by simp [root, c3], by simp [size, c2], c1, ?_,
    ⟨_, hd.after_move_construct hds⟩⟩, (shapes s).addrs.map pos,
    fun fuel hf => hd.positions_eq s hf, ?_⟩
  · intro fuel
    simp [positions, c1, c2]
  · intro fuel hf
    obtain ⟨w1, he, hlen, _, hkeep, t1, t2, _, hd1⟩ := move_assign_done hd hds hf
    have hread : ∀ a, a ∈ (shapes s).addrs → w1.heap.read a = w.heap.read a :=
      fun a ha => hkeep a (fun hx => hd.disjoint s d (Ne.symm hds) a ha hx)
    refine ⟨w1, he, by simp [size, t2], by simp [root, t2], by simp [size, t1], ?_, ?_, ?_,
      ⟨_, hd1⟩⟩
    · intro fuel1 hf1
      rw [hd1.positions_eq d hf1, Function.update_same]
    · intro q hq
      simp only [List.mem_map] at hq
      obtain ⟨a, ha, rfl⟩ := hq
      simp [Position.element, pos, hread a ha]
    · intro a ha
      simp only [List.mem_map] at ha
      obtain ⟨b, hb, hab⟩ := ha
      have := pos_injective hab
      subst this
      exact hread b hb

theorem move_spec_witness :
    WellFormed sample6 ∧
    (size (move_construct sample6 0 1) 1 = 0 ∧ size (move_construct sample6 0 1) 0 = 1) ∧
    ∃ w1 : World Nat, move_assign 4 sample6 0 1 = some w1 ∧
      size w1 1 = 0 ∧ root w1 1 = ⟨none⟩ ∧ size w1 0 = 1 ∧
      positions 4 w1 0 = some [pos 1] := by
  obtain ⟨⟨h1, _, h3, _⟩, ps, hps, hassign⟩ :=
    move_spec sample6 sample6_reachable.wellFormed 0 1 (by decide)
  obtain ⟨w1, he, a1, a2, a3, a4, _⟩ := hassign 4 (by decide)
  have e1 : positions 4 sample6 1 = some [pos 1] := rfl
  have e2 := hps 4 (by decide)
  rw [e1] at e2
  simp only [Option.some.injEq] at e2
  subst e2
  have hl : w1.heap.cells.length < 4 := by
    have e3 : move_assign 4 sample6 0 1 = some ⟨sample6.heap.free 0,
        Function.update (Function.update (Function.update (Function.update sample6.trees 0
          ⟨some 1, 1⟩) 0 ⟨some 1, 1⟩) 1 ⟨none, 1⟩) 1 ⟨none, 0⟩⟩ := rfl
    rw [e3] at he
    injection he with he
    subst he
    decide
  exact ⟨sample6_reachable.wellFormed, ⟨h1, h3⟩, w1, he, a1, a2, a3, a4 4 hl⟩

/-- C8: on a well-formed world, for every tree (the empty one included) and any fuel above
the heap size, `count_left_leaves()` and `count_left_leaves_bfs()` both return, and return
the same integer. -/
theorem count_left_leaves_bfs_agrees {E : Type} (w : World E) (hw : WellFormed w) (i : Nat) :
    ∃ k : Int, ∀ fuel, w.heap.cells.length < fuel →
      count_left_leaves fuel w i = some k ∧ count_left_leaves_bfs fuel w i = some k := by
  obtain ⟨shapes, hd⟩ := hw
  exact ⟨_, fun fuel hf => ⟨hd.count_left_leaves_eq i hf, hd.count_left_leaves_bfs_eq i hf⟩⟩

theorem count_left_leaves_bfs_agrees_witness :
    WellFormed sample4 ∧ ∃ k : Int, ∀ fuel, sample4.heap.cells.length < fuel →
      count_left_leaves fuel sample4 0 = some k ∧
      count_left_leaves_bfs fuel sample4 0 = some k :=
  ⟨sample4_reachable.wellFormed,
    count_left_leaves_bfs_agrees sample4 sample4_reachable.wellFormed 0⟩

/-- C9: on a well-formed world, `count_left_leaves()` returns the number of positions `q` of
`positions()` that have no children, are not the root and are the left child of their parent
(`is_left_leaf`).  It returns 0 for a tree with a null root and for a tree whose root has no
children, and a position that is the right child of its parent is not counted. -/
theorem count_left_leaves_spec {E : Type} (w : World E) (hw : WellFormed w) (i : Nat) :
    ∃ ps : List Position,
      (∀ fuel, w.heap.cells.length < fuel →
        positions fuel w i = some ps ∧
        count_left_leaves fuel w i = some ((ps.filter (is_left_leaf w.heap)).length : Int)) ∧
      ((root w i).is_null = true →
        ∀ fuel, w.heap.cells.length < fuel → count_left_leaves fuel w i = some 0) ∧
      ((root w i).is_external w.heap = some true →
        ∀ fuel, w.heap.cells.length < fuel → count_left_leaves fuel w i = some 0) ∧
      (∀ q par, q ∈ ps → q.parent w.heap = some par → par.right w.heap = some q →
        is_left_leaf w.heap q = false) := by
  obtain ⟨shapes, hd⟩ := hw
  have hm := hd.models i
  have hnd := hd.nodup i
  have hcount : ((shapes i).addrs.map pos |>.filter (is_left_leaf w.heap)).length =
      Shape.countLL false (shapes i) :=
    filter_left_leaf_models false hm hnd (by intro a _; simp)
  refine ⟨(shapes i).addrs.map pos, ?_, ?_, ?_, ?_⟩
  · intro fuel hf
    refine ⟨hd.positions_eq i hf, ?_⟩
    rw [hd.count_left_leaves_eq i hf, hcount]
  · intro hnull fuel hf
    have hrt : (shapes i).root = none := by
      have := hd.rt_eq i
      simp only [Position.is_null, root, beq_iff_eq] at hnull
      rw [← this, hnull]
    rw [hd.count_left_leaves_eq i hf, Shape.root_eq_none hrt]
    rfl
  · intro hext fuel hf
    rw [hd.count_left_leaves_eq i hf]
    cases hs : shapes i with
    | nil => rfl
    | node a e l r =>
      rw [hs] at hm
      obtain ⟨hr, _, _⟩ := hm
      have hrt : (w.trees i).rt = some a := by rw [hd.rt_eq i, hs]; rfl
      simp only [Position.is_external, root, hrt, hr, Option.some.injEq, Bool.and_eq_true,
        beq_iff_eq] at hext
      simp [Shape.countLL, hext.1, hext.2]
  · intro q par hq hpar hright
    simp only [List.mem_map] at hq
    obtain ⟨a, ha, rfl⟩ := hq
    obtain ⟨nd, hr⟩ := hm.live a ha
    rw [← Bool.not_eq_true, is_left_leaf_iff hr]
    rintro ⟨_, _, pa, pd, hp1, hp2, hp3⟩
    simp only [pos, Position.parent, hr, hp1, Option.some.injEq] at hpar
    subst hpar
    simp only [Position.right, hp2, Option.some.injEq, pos, Position.mk.injEq] at hright
    -- `a` would be both the left and the right child of `pa`
    rcases hm.parent_info hnd ha hr with ⟨_, hx⟩ | ⟨_, pa1, pd1, hq1, hq2, _⟩
    · rw [hp1] at hx; exact absurd hx (by simp)
    · rw [hp1] at hq1
      simp only [Option.some.injEq] at hq1
      subst hq1
      obtain ⟨e, p, l1, r1, h1, _, _, h4, _, _, _⟩ := hm.locate hnd hq2
      rw [hp2] at h1
      simp only [Option.some.injEq] at h1
      subst h1
      simp only [List.nodup_cons, List.nodup_append] at h4
      exact h4.2.2.2 (Shape.root_mem hp3) (Shape.root_mem hright)

theorem count_left_leaves_spec_witness :
    WellFormed sample4 ∧ ∃ ps : List Position,
      (∀ fuel, sample4.heap.cells.length < fuel →
        positions fuel sample4 0 = some ps ∧
        count_left_leaves fuel sample4 0 =
          some ((ps.filter (is_left_leaf sample4.heap)).length : Int)) ∧
      count_left_leaves 5 sample4 0 = some 1 := by
  obtain ⟨ps, h1, _⟩ := count_left_leaves_spec sample4 sample4_reachable.wellFormed 0
  exact ⟨sample4_reachable.wellFormed, ps, h1, rfl⟩

/-- C10: `add_root(v)` throws "Root already exists" exactly when the tree already has a
root, and then the world is the one before the call; otherwise it returns normally, and
afterwards `size()` is 1 and `root()` is a non-null position whose element is `v`, which is
a root and has no children, and a second `add_root` throws.  On a well-formed world this
applies in particular to a tree for which `empty()` holds. -/
theorem add_root_spec {E : Type} (w : World E) (i : Nat) (v : E) :
    ((∃ e w1, add_root w i v = .thrown e w1) ↔ (root w i).is_null = false) ∧
    ((root w i).is_null = false → add_root w i v = .thrown .rootAlreadyExists w) ∧
    ((root w i).is_null = true →
      ∃ w1 : World E, add_root w i v = .done w1 ∧ size w1 i = 1 ∧
        (root w1 i).is_null = false ∧
        (root w1 i).element w1.heap = some v ∧
        (root w1 i).is_root w1.heap = some true ∧
        (root w1 i).num_children w1.heap = some 0 ∧
        (root w1 i).left w1.heap = some ⟨none⟩ ∧
        (root w1 i).right w1.heap = some ⟨none⟩ ∧
        ∀ v2 : E, add_root w1 i v2 = .thrown .rootAlreadyExists w1) ∧
    (WellFormed w → empty w i = true → (root w i).is_null = true) := by
  have hthrow : (root w i).is_null = false → add_root w i v = .thrown .rootAlreadyExists w := by
    intro hnn
    have hrt : (w.trees i).rt ≠ none := by simpa [root, Position.is_null] using hnn
    simp [add_root, hrt]
  have hdone : (root w i).is_null = true →
      ∃ w1 : World E, add_root w i v = .done w1 ∧ size w1 i = 1 ∧
        (root w1 i).is_null = false ∧
        (root w1 i).element w1.heap = some v ∧
        (root w1 i).is_root w1.heap = some true ∧
        (root w1 i).num_children w1.heap = some 0 ∧
        (root w1 i).left w1.heap = some ⟨none⟩ ∧
        (root w1 i).right w1.heap = some ⟨none⟩ ∧
        ∀ v2 : E, add_root w1 i v2 = .thrown .rootAlreadyExists w1 := by
    intro hnull
    have hrt : (w.trees i).rt = none := by simpa [root, Position.is_null] using hnull
    have hnew := Heap.read_alloc_new w.heap (⟨v, none, none, none⟩ : Node E)
    refine ⟨_, add_root_done v hrt, ?_, ?_, ?_, ?_, ?_, ?_, ?_, ?_⟩
    · simp [size]
    · simp [root, Position.is_null]
    · simp [root, Position.element, hnew]
    · simp [root, Position.is_root, hnew]
    · simp [root, Position.num_children, hnew]
    · simp [root, Position.left, hnew]
    · simp [root, Position.right, hnew]
    · intro v2
      simp [add_root]
  refine ⟨⟨?_, fun hnn => ⟨_, _, hthrow hnn⟩⟩, hthrow, hdone,
    fun hw he => hw.root_null_of_empty he⟩
  rintro ⟨e, w1, he⟩
  by_contra hnn
  have hnull : (root w i).is_null = true := by simpa using hnn
  obtain ⟨w2, hd2, _⟩ := hdone hnull
  rw [hd2] at he
  cases he

theorem add_root_spec_witness :
    (root (World.init Nat) 0).is_null = true ∧ (root sample1 0).is_null = false ∧
    WellFormed (World.init Nat) ∧ empty (World.init Nat) 0 = true ∧
    add_root (World.init Nat) 0 10 = .done sample1 ∧
    add_root sample1 0 11 = .thrown .rootAlreadyExists sample1 ∧
    ∃ w1 : World Nat, add_root (World.init Nat) 0 10 = .done w1 ∧ size w1 0 = 1 ∧
      ∀ v2 : Nat, add_root w1 0 v2 = .thrown .rootAlreadyExists w1 := by
  obtain ⟨_, hthrow, hdone, hempty⟩ := add_root_spec (World.init Nat) 0 10
  have hnull := hempty ⟨_, Describes.init Nat⟩ rfl
  obtain ⟨w1, h1, h2, _, _, _, _, _, _, h3⟩ := hdone hnull
  exact ⟨hnull, rfl, ⟨_, Describes.init Nat⟩, rfl, rfl,
    (add_root_spec sample1 0 11).2.1 rfl, w1, h1, h2, h3⟩

/-- C11: on a well-formed world, for a position `p` of a node of tree `i` with no left child,
`add_left(p, v)` returns normally; afterwards `p.left()` is a non-null position `c` of the
tree with element `v`, parent `p` and no children, `size()` has grown by exactly 1, the world
is well formed again, and a second `add_left(p, v2)` throws "Left child already exists"
leaving the world as it is.  The same holds for `add_right` and the right slot. -/
theorem add_child_spec {E : Type} (w : World E) (hw : WellFormed w) (i : Nat) (p : Position)
    (hp : Live w i p) (v v2 : E) :
    (p.left w.heap = some ⟨none⟩ →
      ∃ (w1 : World E) (c : Position), add_left w i p v = .done w1 ∧
        p.left w1.heap = some c ∧ c.is_null = false ∧ c.element w1.heap = some v ∧
        c.parent w1.heap = some p ∧ c.num_children w1.heap = some 0 ∧
        c.left w1.heap = some ⟨none⟩ ∧ c.right w1.heap = some ⟨none⟩ ∧
        size w1 i = size w i + 1 ∧ Live w1 i c ∧ WellFormed w1 ∧
        add_left w1 i p v2 = .thrown .leftChildAlreadyExists w1) ∧
    (p.right w.heap = some ⟨none⟩ →
      ∃ (w1 : World E) (c : Position), add_right w i p v = .done w1 ∧
        p.right w1.heap = some c ∧ c.is_null = false ∧ c.element w1.heap = some v ∧
        c.parent w1.heap = some p ∧ c.num_children w1.heap = some 0 ∧
        c.left w1.heap = some ⟨none⟩ ∧ c.right w1.heap = some ⟨none⟩ ∧
        size w1 i = size w i + 1 ∧ Live w1 i c ∧ WellFormed w1 ∧
        add_right w1 i p v2 = .thrown .rightChildAlreadyExists w1) := by
  obtain ⟨shapes, hd⟩ := hw
  obtain ⟨n, nd, rfl, hn, hr⟩ := hd.mem_of_live hp
  have hlt := Heap.read_lt hr
  constructor
  · intro hleft
    have hl : nd.left = none := by
      simpa [Position.left, hr] using hleft
    obtain ⟨h1, h2, _⟩ := Heap.read_alloc_write w.heap ⟨v, some n, none, none⟩
      { nd with left := some w.heap.cells.length } hlt
    have hd1 := hd.after_add_left v hn hr hl
    have hperm := Shape.setLeft_perm (.node w.heap.cells.length v .nil .nil) hr hl
      (hd.models i) (hd.nodup i) hn
    refine ⟨_, ⟨some w.heap.cells.length⟩, add_left_done v hr hl, ?_, rfl, ?_, ?_, ?_, ?_, ?_,
      ?_, ?_, ⟨_, hd1⟩, ?_⟩
    · simp [Position.left, h1]
    · simp [Position.element, h2]
    · simp [Position.parent, h2]
    · simp [Position.num_children, h2]
    · simp [Position.left, h2]
    · simp [Position.right, h2]
    · simp [size]
    · refine hd1.live_of_mem ?_
      rw [Function.update_same, hperm.mem_iff]
      simp [Shape.addrs]
    · simp [add_left, h1]
  · intro hright
    have hl : nd.right = none := by
      simpa [Position.right, hr] using hright
    obtain ⟨h1, h2, _⟩ := Heap.read_alloc_write w.heap ⟨v, some n, none, none⟩
      { nd with right := some w.heap.cells.length } hlt
    have hd1 := hd.after_add_right v hn hr hl
    have hperm := Shape.setRight_perm (.node w.heap.cells.length v .nil .nil) hr hl
      (hd.models i) (hd.nodup i) hn
    refine ⟨_, ⟨some w.heap.cells.length⟩, add_right_done v hr hl, ?_, rfl, ?_, ?_, ?_, ?_, ?_,
      ?_, ?_, ⟨_, hd1⟩, ?_⟩
    · simp [Position.right, h1]
    · simp [Position.element, h2]
    · simp [Position.parent, h2]
    · simp [Position.num_children, h2]
    · simp [Position.left, h2]
    · simp [Position.right, h2]
    · simp [size]
    · refine hd1.live_of_mem ?_
      rw [Function.update_same, hperm.mem_iff]
      simp [Shape.addrs]
    · simp [add_right, h1]

theorem add_child_spec_witness :
    WellFormed sample1 ∧ Live sample1 0 (pos 0) ∧
    (pos 0).left sample1.heap = some ⟨none⟩ ∧ (pos 0).right sample1.heap = some ⟨none⟩ ∧
    (∃ (w1 : World Nat) (c : Position), add_left sample1 0 (pos 0) 20 = .done w1 ∧
      (pos 0).left w1.heap = some c ∧ c.element w1.heap = some 20 ∧
      size w1 0 = size sample1 0 + 1 ∧
      add_left w1 0 (pos 0) 21 = .thrown .leftChildAlreadyExists w1) ∧
    (∃ (w1 : World Nat) (c : Position), add_right sample1 0 (pos 0) 30 = .done w1 ∧
      (pos 0).right w1.heap = some c ∧ c.element w1.heap = some 30 ∧
      size w1 0 = size sample1 0 + 1 ∧
      add_right w1 0 (pos 0) 31 = .thrown .rightChildAlreadyExists w1) := by
  have hlive : Live sample1 0 (pos 0) := ⟨2, [pos 0], rfl, by simp⟩
  obtain ⟨hL, _⟩ := add_child_spec sample1 sample1_reachable.wellFormed 0 (pos 0) hlive 20 21
  obtain ⟨_, hR⟩ := add_child_spec sample1 sample1_reachable.wellFormed 0 (pos 0) hlive 30 31
  obtain ⟨w1, c, a1, a2, _, a4, _, _, _, _, a9, _, _, a12⟩ := hL rfl
  obtain ⟨w2, c2, b1, b2, _, b4, _, _, _, _, b9, _, _, b12⟩ := hR rfl
  exact ⟨sample1_reachable.wellFormed, hlive, rfl, rfl, ⟨w1, c, a1, a2, a4, a9, a12⟩,
    ⟨w2, c2, b1, b2, b4, b9, b12⟩⟩

/-- C12: `erase(p)` on a position whose node has both a left and a right child throws
"Cannot erase node with two children" and leaves the world (so `size()`) as it is; and on a
well-formed world, for a position `p` of tree `i`, whenever `erase(p)` does not return
normally the node has two children. -/
theorem erase_two_children {E : Type} (w : World E) (i : Nat) (p : Position) :
    (p.num_children w.heap = some 2 →
      erase w i p = .thrown .cannotEraseTwoChildren w ∧
      (∀ w1, erase w i p = .thrown .cannotEraseTwoChildren w1 → size w1 i = size w i)) ∧
    (WellFormed w → Live w i p → (∀ w1, erase w i p ≠ .done w1) →
      p.num_children w.heap = some 2) := by
  constructor
  · intro hnum
    have key : erase w i p = .thrown .cannotEraseTwoChildren w := by
      cases hpn : p.node with
      | none => simp [Position.num_children, hpn] at hnum
      | some n =>
        cases hr : w.heap.read n with
        | none => simp [Position.num_children, hpn, hr] at hnum
        | some nd =>
          simp only [Position.num_children, hpn, hr, Option.some.injEq] at hnum
          have hboth : nd.left ≠ none ∧ nd.right ≠ none := by
            by_cases h1 : nd.left = none <;> by_cases h2 : nd.right = none <;>
              simp [h1, h2] at hnum ⊢
          simp [erase, hpn, hr, hboth]
    refine ⟨key, ?_⟩
    intro w1 h1
    rw [key] at h1
    injection h1 with _ h1
    rw [h1]
  · intro hw hp hfail
    obtain ⟨shapes, hd⟩ := hw
    obtain ⟨n, nd, rfl, hn, hr⟩ := hd.mem_of_live hp
    by_cases hle : nd.left = none ∨ nd.right = none
    · obtain ⟨h1, _, he⟩ := erase_done hd hn hr hle
      exact absurd he (hfail _)
    · have h1 : nd.left ≠ none := fun hx => hle (Or.inl hx)
      have h2 : nd.right ≠ none := fun hx => hle (Or.inr hx)
      simp [Position.num_children, hr, h1, h2]

theorem erase_two_children_witness :
    (pos 0).num_children sample3.heap = some 2 ∧
    erase sample3 0 (pos 0) = .thrown .cannotEraseTwoChildren sample3 ∧
    WellFormed sample3 ∧ Live sample3 0 (pos 0) ∧
    (∀ w1, erase sample3 0 (pos 0) ≠ .done w1) ∧
    (pos 0).num_children sample3.heap = some 2 := by
  have hlive : Live sample3 0 (pos 0) := ⟨3, [pos 0, pos 1, pos 2], rfl, by simp⟩
  obtain ⟨h1, h2⟩ := erase_two_children sample3 0 (pos 0)
  have hne : ∀ w1, erase sample3 0 (pos 0) ≠ .done w1 := by
    intro w1 hx
    rw [(h1 rfl).1] at hx
    cases hx
  exact ⟨rfl, (h1 rfl).1, sample3_reachable.wellFormed, hlive, hne,
    h2 sample3_reachable.wellFormed hlive hne⟩

/-- C13 (amended): `add_left`, `add_right` and `attach` throw "Invalid position" exactly when
`p` is null, and then the world is the one before the call; a non-null position is never
rejected as invalid, whichever tree its node belongs to. -/
theorem invalid_position_iff_null {E : Type} (w : World E) (i : Nat) (p : Position) (e : E)
    (l r : Nat) :
    (p.is_null = true →
      add_left w i p e = .thrown .invalidPosition w ∧
      add_right w i p e = .thrown .invalidPosition w ∧
      attach w i p l r = .thrown .invalidPosition w) ∧
    (p.is_null = false →
      (∀ w1, add_left w i p e ≠ .thrown .invalidPosition w1) ∧
      (∀ w1, add_right w i p e ≠ .thrown .invalidPosition w1) ∧
      (∀ w1, attach w i p l r ≠ .thrown .invalidPosition w1)) := by
  constructor
  · intro hnull
    have hpn : p.node = none := by simpa [Position.is_null] using hnull
    simp [add_left, add_right, attach, hpn]
  · intro hnn
    have hpn : p.node ≠ none := by simpa [Position.is_null] using hnn
    obtain ⟨n, hn⟩ := Option.ne_none_iff_exists'.1 hpn
    refine ⟨?_, ?_, ?_⟩
    · intro w1
      simp only [add_left, hn]
      cases hr : w.heap.read n with
      | none => simp
      | some nd =>
        by_cases hl : nd.left = none
        · simp [hl, Heap.alloc]
        · simp [hl]
    · intro w1
      simp only [add_right, hn]
      cases hr : w.heap.read n with
      | none => simp
      | some nd =>
        by_cases hl : nd.right = none
        · simp [hl, Heap.alloc]
        · simp [hl]
    · intro w1
      simp only [attach, hn]
      cases hr : w.heap.read n with
      | none => simp
      | some nd =>
        by_cases hl : nd.left ≠ none ∨ nd.right ≠ none
        · simp [hl]
        · simp only [hl, if_false]
          cases h1 : attach_left w i n l with
          | none => simp
          | some wa =>
            cases h2 : attach_right wa i n r with
            | none => simp [h2]
            | some wb => simp [h2]

theorem invalid_position_iff_null_witness :
    (⟨none⟩ : Position).is_null = true ∧ (pos 1).is_null = false ∧
    add_left sample5 0 ⟨none⟩ 9 = .thrown .invalidPosition sample5 ∧
    add_right sample5 0 ⟨none⟩ 9 = .thrown .invalidPosition sample5 ∧
    attach sample5 0 ⟨none⟩ 1 2 = .thrown .invalidPosition sample5 ∧
    (∀ w1, add_left sample5 0 (pos 1) 9 ≠ .thrown .invalidPosition w1) := by
  obtain ⟨h1, h2, h3⟩ := (invalid_position_iff_null sample5 0 ⟨none⟩ 9 1 2).1 rfl
  exact ⟨rfl, rfl, h1, h2, h3, ((invalid_position_iff_null sample5 0 (pos 1) 9 1 2).2 rfl).1⟩

/-- C13 (counterexample): in `sample5` the node at address 1 belongs to tree 1 and not to
tree 0; yet `add_left` called on tree 0 with that position is not rejected: it returns
normally, gives the node of tree 1 a left child and raises the size of tree 0. -/
theorem foreign_position_not_rejected :
    Live sample5 1 (pos 1) ∧ ¬ Live sample5 0 (pos 1) ∧ (pos 1).is_null = false ∧
    (pos 1).left sample5.heap = some ⟨none⟩ ∧ size sample5 0 = 1 ∧
    ∃ w1 : World Nat, add_left sample5 0 (pos 1) 99 = .done w1 ∧
      (pos 1).left w1.heap = some (pos 2) ∧ size w1 0 = 2 ∧ size w1 1 = 1 ∧
      add_left sample5 0 (pos 1) 99 ≠ .thrown .invalidPosition sample5 := by
  refine ⟨⟨2, [pos 1], rfl, by simp⟩, ?_, rfl, rfl, rfl, ?_⟩
  · rintro ⟨fuel, ps, hps, hmem⟩
    rw [sample5_positions_tree0 fuel ps hps] at hmem
    simp [pos] at hmem
  · have he : add_left sample5 0 (pos 1) 99 = .done ⟨(sample5.heap.alloc
        ⟨99, some 1, none, none⟩).1.write 1 ⟨7, none, some 2, none⟩,
        Function.update sample5.trees 0 ⟨some 0, 2⟩⟩ := rfl
    refine ⟨_, he, rfl, rfl, rfl, ?_⟩
    rw [he]
    intro hx
    cases hx

/-- C14: on a well-formed world, for a position `p` of tree `i` and any trees `l` and `r`,
`attach(p, l, r)` throws "Node already has children" if and only if the node at `p` has a
left child or a right child; it throws nothing else, and whenever it throws the world (the
target and both sources) is the one before the call. -/
theorem attach_not_leaf {E : Type} (w : World E) (hw : WellFormed w) (i : Nat) (p : Position)
    (hp : Live w i p) (l r : Nat) :
    ((∃ w1, attach w i p l r = .thrown .nodeAlreadyHasChildren w1) ↔
      ∃ c : Position, c.is_null = false ∧
        (p.left w.heap = some c ∨ p.right w.heap = some c)) ∧
    (∀ e w1, attach w i p l r = .thrown e w1 → e = .nodeAlreadyHasChildren ∧ w1 = w) := by
  obtain ⟨shapes, hd⟩ := hw
  obtain ⟨n, nd, rfl, _, hr⟩ := hd.mem_of_live hp
  have hchild : (∃ c : Position, c.is_null = false ∧
      (Position.left w.heap ⟨some n⟩ = some c ∨ Position.right w.heap ⟨some n⟩ = some c)) ↔
      (nd.left ≠ none ∨ nd.right ≠ none) := by
    simp only [Position.left, Position.right, hr, Option.some.injEq, Position.is_null]
    constructor
    · rintro ⟨c, hc, h1 | h1⟩
      · left; rw [← h1] at hc; simpa using hc
      · right; rw [← h1] at hc; simpa using hc
    · rintro (h1 | h1)
      · exact ⟨⟨nd.left⟩, by simpa using h1, Or.inl rfl⟩
      · exact ⟨⟨nd.right⟩, by simpa using h1, Or.inr rfl⟩
  rw [hchild]
  by_cases hl : nd.left ≠ none ∨ nd.right ≠ none
  · have he : attach w i ⟨some n⟩ l r = .thrown .nodeAlreadyHasChildren w := by
      simp [attach, hr, hl]
    refine ⟨⟨fun _ => hl, fun _ => ⟨w, he⟩⟩, ?_⟩
    intro e w1 h1
    rw [he] at h1
    injection h1 with h2 h3
    exact ⟨h2.symm, h3.symm⟩
  · have hno : ∀ e w1, attach w i ⟨some n⟩ l r ≠ .thrown e w1 := by
      intro e w1
      simp only [attach, hr, hl, if_false]
      cases h1 : attach_left w i n l with
      | none => simp
      | some wa =>
        cases h2 : attach_right wa i n r with
        | none => simp [h2]
        | some wb => simp [h2]
    refine ⟨⟨fun ⟨w1, h1⟩ => absurd h1 (hno _ _), fun h1 => absurd h1 hl⟩, ?_⟩
    intro e w1 h1
    exact absurd h1 (hno _ _)

theorem attach_not_leaf_witness :
    WellFormed sample6 ∧ WellFormed sample2 ∧ Live sample2 0 (pos 0) ∧
    (∃ w1, attach sample2 0 (pos 0) 1 2 = .thrown .nodeAlreadyHasChildren w1) ∧
    (∀ e w1, attach sample2 0 (pos 0) 1 2 = .thrown e w1 →
      e = .nodeAlreadyHasChildren ∧ w1 = sample2) := by
  have hlive : Live sample2 0 (pos 0) := ⟨3, [pos 0, pos 1], rfl, by simp⟩
  obtain ⟨h1, h2⟩ := attach_not_leaf sample2 sample2_reachable.wellFormed 0 (pos 0) hlive 1 2
  exact ⟨sample6_reachable.wellFormed, sample2_reachable.wellFormed, hlive,
    h1.2 ⟨pos 1, rfl, Or.inl rfl⟩, h2⟩

/-- C15 (amended): `attach` makes no aliasing check and has no invalid-argument error.  On a
well-formed world, for a leaf position `p` of tree `i`, `attach(p, l, r)` returns normally
for all tree objects `l` and `r`, aliased or not.  When `l` and `r` are the same tree object,
different from `i`, that tree becomes the left subtree of `p` and is emptied, the right slot
of `p` stays empty, the size of `i` grows by the size of the source, and the world is well
formed again. -/
theorem attach_no_alias_check {E : Type} (w : World E) (hw : WellFormed w) (i : Nat)
    (p : Position) (hp : Live w i p) (hleaf : p.is_external w.heap = some true) (l r : Nat) :
    (∃ w1, attach w i p l r = .done w1) ∧
    (l = r → l ≠ i →
      ∃ w1, attach w i p l r = .done w1 ∧ size w1 i = size w i + size w l ∧
        p.left w1.heap = some (root w l) ∧ p.right w1.heap = some ⟨none⟩ ∧
        empty w1 l = true ∧ root w1 l = ⟨none⟩ ∧ WellFormed w1) := by
  obtain ⟨shapes, hd⟩ := hw
  obtain ⟨n, nd, rfl, hn, hr⟩ := hd.mem_of_live hp
  have hleaf1 : nd.left = none ∧ nd.right = none := by
    simpa [Position.is_external, hr] using hleaf
  have hnot : ¬(nd.left ≠ none ∨ nd.right ≠ none) := by
    rintro (h1 | h1)
    · exact h1 hleaf1.1
    · exact h1 hleaf1.2
  constructor
  · have hself : ∃ r rd, (w.trees i).rt = some r ∧ w.heap.read r = some rd := by
      cases hs : shapes i with
      | nil => rw [hs] at hn; simp [Shape.addrs] at hn
      | node a e l1 r1 =>
        have hm := hd.models i
        rw [hs] at hm
        exact ⟨a, _, by rw [hd.rt_eq i, hs]; rfl, hm.1⟩
    obtain ⟨w1, he1, hlive1, hroots1⟩ := attach_left_total w i n l hr hd.roots_live hself
    obtain ⟨nd1, hr1⟩ := hlive1 n nd hr
    obtain ⟨w2, he2⟩ := attach_right_returns w1 i n r hr1 hroots1
    exact ⟨w2, by simp [attach, hr, hnot, he1, he2]⟩
  · intro hlr hli
    subst hlr
    obtain ⟨w1, he1, hat⟩ := attach_left_eval hd hn hr hleaf1.1 hli
    have hd1 := hd.after_attach_left hn hr hleaf1.1 hli hat
    have he2 : attach_right w1 i n l = some w1 := by
      simp [attach_right, hat.source]
    refine ⟨w1, by simp [attach, hr, hnot, he1, he2], ?_, ?_, ?_, ?_, ?_, ⟨_, hd1⟩⟩
    · simp [size, hat.target]
    · simp [Position.left, hat.node, root]
    · simp [Position.right, hat.node, hleaf1.2]
    · simp [empty, hat.source]
    · simp [root, hat.source]

theorem attach_no_alias_check_witness :
    WellFormed sample6 ∧ Live sample6 0 (pos 0) ∧
    (pos 0).is_external sample6.heap = some true ∧
    (∃ w1, attach sample6 0 (pos 0) 0 2 = .done w1) ∧
    ∃ w1, attach sample6 0 (pos 0) 1 1 = .done w1 ∧
      size w1 0 = size sample6 0 + size sample6 1 ∧
      (pos 0).left w1.heap = some (root sample6 1) ∧ (pos 0).right w1.heap = some ⟨none⟩ ∧
      empty w1 1 = true ∧ root w1 1 = ⟨none⟩ ∧ WellFormed w1 := by
  have hlive : Live sample6 0 (pos 0) := ⟨2, [pos 0], rfl, by simp⟩
  exact ⟨sample6_reachable.wellFormed, hlive, rfl,
    (attach_no_alias_check sample6 sample6_reachable.wellFormed 0 (pos 0) hlive rfl 0 2).1,
    (attach_no_alias_check sample6 sample6_reachable.wellFormed 0 (pos 0) hlive rfl 1 1).2
      rfl (by decide)⟩

/-- C15 (counterexample): in `sample6`, `attach` on the leaf root of tree 0 is not rejected
when both sources are tree 1 (tree 1 ends as the left subtree, the right slot stays empty),
nor when the left source is tree 0 itself (the call returns normally and leaves tree 0 with a
null root). -/
theorem aliased_attach_not_rejected :
    Live sample6 0 (pos 0) ∧ (pos 0).is_external sample6.heap = some true ∧
    (∃ w1 : World Nat, attach sample6 0 (pos 0) 1 1 = .done w1 ∧ size w1 0 = 2 ∧
      size w1 1 = 0 ∧ (pos 0).left w1.heap = some (pos 1) ∧
      (pos 0).right w1.heap = some ⟨none⟩) ∧
    (∃ w1 : World Nat, attach sample6 0 (pos 0) 0 2 = .done w1 ∧ root w1 0 = ⟨none⟩ ∧
      (pos 0).left w1.heap = some (pos 0) ∧ (pos 0).parent w1.heap = some (pos 0)) :=
  ⟨⟨2, [pos 0], rfl, by simp⟩, rfl, ⟨_, rfl, rfl, rfl, rfl, rfl⟩, ⟨_, rfl, rfl, rfl, rfl⟩⟩

/-- C16: whenever `add_root`, `add_left`, `add_right`, `erase` or `attach` throws, the world
at the throw is the world before the call: the heap (elements and links of every node) and
every tree object (root and size) are untouched, for the target and for the sources. -/
theorem no_partial_mutation {E : Type} (w w1 : World E) (i : Nat) (p : Position) (e : E)
    (l r : Nat) (err : Err) :
    (add_root w i e = .thrown err w1 → w1 = w) ∧
    (add_left w i p e = .thrown err w1 → w1 = w) ∧
    (add_right w i p e = .thrown err w1 → w1 = w) ∧
    (erase w i p = .thrown err w1 → w1 = w) ∧
    (attach w i p l r = .thrown err w1 → w1 = w) := by
  refine ⟨?_, ?_, ?_, ?_, ?_⟩
  · intro h
    by_cases hrt : (w.trees i).rt = none
    · simp [add_root, hrt, Heap.alloc] at h
    · simp only [add_root, ne_eq, hrt, not_false_eq_true, if_true] at h
      injection h with _ h
      exact h.symm
  · intro h
    cases hpn : p.node with
    | none =>
      simp only [add_left, hpn] at h
      injection h with _ h
      exact h.symm
    | some n =>
      cases hr : w.heap.read n with
      | none => simp [add_left, hpn, hr] at h
      | some nd =>
        by_cases hl : nd.left = none
        · simp [add_left, hpn, hr, hl, Heap.alloc] at h
        · simp only [add_left, hpn, hr, ne_eq, hl, not_false_eq_true, if_true] at h
          injection h with _ h
          exact h.symm
  · intro h
    cases hpn : p.node with
    | none =>
      simp only [add_right, hpn] at h
      injection h with _ h
      exact h.symm
    | some n =>
      cases hr : w.heap.read n with
      | none => simp [add_right, hpn, hr] at h
      | some nd =>
        by_cases hl : nd.right = none
        · simp [add_right, hpn, hr, hl, Heap.alloc] at h
        · simp only [add_right, hpn, hr, ne_eq, hl, not_false_eq_true, if_true] at h
          injection h with _ h
          exact h.symm
  · intro h
    cases hpn : p.node with
    | none =>
      simp only [erase, hpn] at h
      injection h with _ h
      exact h.symm
    | some n =>
      cases hr : w.heap.read n with
      | none => simp [erase, hpn, hr] at h
      | some nd =>
        by_cases hboth : nd.left ≠ none ∧ nd.right ≠ none
        · simp only [erase, hpn, hr] at h
          rw [if_pos hboth] at h
          injection h with _ h
          exact h.symm
        · simp only [erase, hpn, hr] at h
          rw [if_neg hboth] at h
          cases h1 : erase_reparent w.heap (erase_child nd) nd.par with
          | none => simp [h1] at h
          | some h1v =>
            simp only [h1] at h
            by_cases hroot : some n = (w.trees i).rt
            · simp [hroot] at h
            · simp only [hroot, if_false] at h
              cases h2 : erase_unlink h1v n (erase_child nd) with
              | none => simp [h2] at h
              | some h2v => simp [h2] at h
  · intro h
    cases hpn : p.node with
    | none =>
      simp only [attach, hpn] at h
      injection h with _ h
      exact h.symm
    | some n =>
      cases hr : w.heap.read n with
      | none => simp [attach, hpn, hr] at h
      | some nd =>
        by_cases hl : nd.left ≠ none ∨ nd.right ≠ none
        · simp only [attach, hpn, hr, hl, if_true] at h
          injection h with _ h
          exact h.symm
        · simp only [attach, hpn, hr, hl, if_false] at h
          cases h1 : attach_left w i n l with
          | none => simp [h1] at h
          | some wa =>
            simp only [h1] at h
            cases h2 : attach_right wa i n r with
            | none => simp [h2] at h
            | some wb => simp [h2] at h

theorem no_partial_mutation_witness :
    add_root sample3 0 5 = .thrown .rootAlreadyExists sample3 ∧
    add_left sample3 0 (pos 0) 5 = .thrown .leftChildAlreadyExists sample3 ∧
    add_right sample3 0 (pos 0) 5 = .thrown .rightChildAlreadyExists sample3 ∧
    erase sample3 0 (pos 0) = .thrown .cannotEraseTwoChildren sample3 ∧
    attach sample3 0 (pos 0) 1 2 = .thrown .nodeAlreadyHasChildren sample3 ∧
    (∀ w1, add_root sample3 0 5 = .thrown .rootAlreadyExists w1 → w1 = sample3) ∧
    (∀ w1, add_left sample3 0 (pos 0) 5 = .thrown .leftChildAlreadyExists w1 → w1 = sample3) ∧
    (∀ w1, add_right sample3 0 (pos 0) 5 = .thrown .rightChildAlreadyExists w1 →
      w1 = sample3) ∧
    (∀ w1, erase sample3 0 (pos 0) = .thrown .cannotEraseTwoChildren w1 → w1 = sample3) ∧
    (∀ w1, attach sample3 0 (pos 0) 1 2 = .thrown .nodeAlreadyHasChildren w1 → w1 = sample3) :=
  ⟨rfl, rfl, rfl, rfl, rfl,
    fun w1 => (no_partial_mutation sample3 w1 0 (pos 0) 5 1 2 .rootAlreadyExists).1,
    fun w1 => (no_partial_mutation sample3 w1 0 (pos 0) 5 1 2 .leftChildAlreadyExists).2.1,
    fun w1 => (no_partial_mutation sample3 w1 0 (pos 0) 5 1 2 .rightChildAlreadyExists).2.2.1,
    fun w1 => (no_partial_mutation sample3 w1 0 (pos 0) 5 1 2 .cannotEraseTwoChildren).2.2.2.1,
    fun w1 => (no_partial_mutation sample3 w1 0 (pos 0) 5 1 2 .nodeAlreadyHasChildren).2.2.2.2⟩

/-- C17: for all elements `A`, `B`, `C`, `D`, starting from the default-constructed tree 0 of
the initial world: `add_root(A)`, `add_left(root, B)`, `add_right(root, C)` and
`add_left(position of B, D)` all return normally; then `size()` is 4, the elements along
`positions()` are `[A, B, D, C]` and `count_left_leaves()` is 1; then `erase(position of C)`
returns normally, and afterwards `size()` is 3 and the elements along `positions()` are
`[A, B, D]`. -/
theorem end_to_end_scenario {E : Type} (A B C D : E) :
    ∃ (w1 w2 w3 w4 w5 : World E) (pB pC : Position),
      add_root (World.init E) 0 A = .done w1 ∧
      add_left w1 0 (root w1 0) B = .done w2 ∧
      add_right w2 0 (root w2 0) C = .done w3 ∧
      (root w3 0).left w3.heap = some pB ∧ (root w3 0).right w3.heap = some pC ∧
      pB.element w3.heap = some B ∧ pC.element w3.heap = some C ∧
      add_left w3 0 pB D = .done w4 ∧
      size w4 0 = 4 ∧
      (∀ fuel, w4.heap.cells.length < fuel →
        (positions fuel w4 0).map (List.map (Position.element w4.heap)) =
          some [some A, some B, some D, some C]) ∧
      (∀ fuel, w4.heap.cells.length < fuel → count_left_leaves fuel w4 0 = some 1) ∧
      (∀ fuel, w4.heap.cells.length < fuel → count_left_leaves_bfs fuel w4 0 = some 1) ∧
      erase w4 0 pC = .done w5 ∧
      size w5 0 = 3 ∧
      (∀ fuel, w5.heap.cells.length < fuel →
        (positions fuel w5 0).map (List.map (Position.element w5.heap)) =
          some [some A, some B, some D]) := by
  refine ⟨_, _, _, _, _, _, _, rfl, rfl, rfl, rfl, rfl, rfl, rfl, rfl, rfl, ?_, ?_, ?_, rfl, rfl,
    ?_⟩
  · intro fuel hf
    obtain ⟨k, rfl⟩ : ∃ k, fuel = k + 5 := ⟨fuel - 5, by
      have : 4 < fuel := hf
      omega⟩
    rfl
  · intro fuel hf
    obtain ⟨k, rfl⟩ : ∃ k, fuel = k + 5 := ⟨fuel - 5, by
      have : 4 < fuel := hf
      omega⟩
    rfl
  · intro fuel hf
    obtain ⟨k, rfl⟩ : ∃ k, fuel = k + 5 := ⟨fuel - 5, by
      have : 4 < fuel := hf
      omega⟩
    rfl
  · intro fuel hf
    obtain ⟨k, rfl⟩ : ∃ k, fuel = k + 5 := ⟨fuel - 5, by
      have : 4 < fuel := hf
      omega⟩
    rfl

/-- C18: in every world reachable from the initial one by successful `add_root`, `add_left`,
`add_right`, `erase`, `attach`, copy and move operations (live positions of the tree operated
on, non-aliasing `attach` sources), for every tree: the parent of the root is null; every
node `x` reachable from the root and different from it has a parent that is reachable from
the root and has `x` as exactly one of its two children; and for every position `q` of
`positions()`, each non-null child `c` of `q` satisfies `c.parent() == q`. -/
theorem parent_child_consistency {E : Type} (w : World E) (hw : ReachableAll w) (i : Nat) :
    (∀ r, (w.trees i).rt = some r → (root w i).parent w.heap = some ⟨none⟩) ∧
    (∀ r x, (w.trees i).rt = some r → Reaches w.heap r x → x ≠ r →
      ∃ pa, (pos x).parent w.heap = some (pos pa) ∧ Reaches w.heap r pa ∧
        (((pos pa).left w.heap = some (pos x) ∧ (pos pa).right w.heap ≠ some (pos x)) ∨
         ((pos pa).left w.heap ≠ some (pos x) ∧ (pos pa).right w.heap = some (pos x)))) ∧
    ∃ ps : List Position,
      (∀ fuel, w.heap.cells.length < fuel → positions fuel w i = some ps) ∧
      ∀ q c, q ∈ ps → c.is_null = false →
        (q.left w.heap = some c ∨ q.right w.heap = some c) → c.parent w.heap = some q := by
  obtain ⟨shapes, hd⟩ := hw.wellFormed_all
  obtain ⟨h1, h2, h3⟩ := hd.consistent i
  refine ⟨h1, h2, (shapes i).addrs.map pos, fun fuel hf => hd.positions_eq i hf, ?_⟩
  intro q c hq hc hchild
  simp only [List.mem_map] at hq
  obtain ⟨a, ha, rfl⟩ := hq
  exact h3 a c ha hc hchild

theorem parent_child_consistency_witness :
    ReachableAll sample4 ∧
    (root sample4 0).parent sample4.heap = some ⟨none⟩ ∧
    ∃ ps : List Position,
      (∀ fuel, sample4.heap.cells.length < fuel → positions fuel sample4 0 = some ps) ∧
      ∀ q c, q ∈ ps → c.is_null = false →
        (q.left sample4.heap = some c ∨ q.right sample4.heap = some c) →
        c.parent sample4.heap = some q := by
  obtain ⟨h1, _, h3⟩ := parent_child_consistency sample4 sample4_reachable.reachableAll 0
  exact ⟨sample4_reachable.reachableAll, h1 0 rfl, h3⟩

/-- C19: on a well-formed world, for a leaf position `p` of tree `i` and trees `l` and `r`
distinct from each other and from `i`, `attach(p, l, r)` returns normally, and the new
`positions()` of `i` is the previous list with the previous `positions()` of `l` followed by
those of `r` inserted immediately after `p`, all other positions keeping their order; when
`l` and `r` are both empty the world is unchanged. -/
theorem attach_positions {E : Type} (w : World E) (hw : WellFormed w) (i l r : Nat)
    (p : Position) (hp : Live w i p) (hleaf : p.is_external w.heap = some true)
    (hlr : l ≠ r) (hli : l ≠ i) (hri : r ≠ i) :
    ∃ (w1 : World E) (psL psR pre post : List Position),
      attach w i p l r = .done w1 ∧
      (∀ fuel, w.heap.cells.length < fuel →
        positions fuel w i = some (pre ++ p :: post) ∧
        positions fuel w l = some psL ∧ positions fuel w r = some psR) ∧
      (∀ fuel, w1.heap.cells.length < fuel →
        positions fuel w1 i = some (pre ++ p :: (psL ++ psR ++ post))) ∧
      (empty w l = true → empty w r = true → w1 = w) := by
  obtain ⟨shapes, hd⟩ := hw
  obtain ⟨n, nd, rfl, hn, hrd⟩ := hd.mem_of_live hp
  have hleaf1 : nd.left = none ∧ nd.right = none := by
    simpa [Position.is_external, hrd] using hleaf
  obtain ⟨wa, wb, he, _, _, hdb⟩ := attach_done hd hn hrd hleaf1.1 hleaf1.2 hli hri hlr
  obtain ⟨pre, post, h1, h2⟩ := Shape.addrs_attach (shapes l) (shapes r) hrd hleaf1.1 hleaf1.2
    (hd.models i) (hd.nodup i) hn
  refine ⟨wb, (shapes l).addrs.map pos, (shapes r).addrs.map pos, pre.map pos, post.map pos,
    he, ?_, ?_, ?_⟩
  · intro fuel hf
    refine ⟨?_, hd.positions_eq l hf, hd.positions_eq r hf⟩
    rw [hd.positions_eq i hf, h1]
    simp [pos]
  · intro fuel hf
    rw [hdb.positions_eq i hf, Function.update_same, h2]
    simp [pos]
  · intro hel her
    have hszl : (w.trees l).sz = 0 := by simpa [empty] using hel
    have hszr : (w.trees r).sz = 0 := by simpa [empty] using her
    have hnot : ¬(nd.left ≠ none ∨ nd.right ≠ none) := by
      rintro (hx | hx)
      · exact hx hleaf1.1
      · exact hx hleaf1.2
    have he2 : attach w i ⟨some n⟩ l r = .done w := by
      simp [attach, hrd, hnot, attach_left, attach_right, hszl, hszr]
    rw [he2] at he
    injection he with he
    exact he.symm

theorem attach_positions_witness :
    WellFormed sample6 ∧ Live sample6 0 (pos 0) ∧
    (pos 0).is_external sample6.heap = some true ∧
    (∃ (w1 : World Nat) (psL psR pre post : List Position),
      attach sample6 0 (pos 0) 1 2 = .done w1 ∧
      (∀ fuel, sample6.heap.cells.length < fuel →
        positions fuel sample6 0 = some (pre ++ pos 0 :: post) ∧
        positions fuel sample6 1 = some psL ∧ positions fuel sample6 2 = some psR) ∧
      (∀ fuel, w1.heap.cells.length < fuel →
        positions fuel w1 0 = some (pre ++ pos 0 :: (psL ++ psR ++ post))) ∧
      (empty sample6 1 = true → empty sample6 2 = true → w1 = sample6)) ∧
    (WellFormed sample1 ∧ Live sample1 0 (pos 0) ∧ empty sample1 1 = true ∧
      empty sample1 2 = true ∧ attach sample1 0 (pos 0) 1 2 = .done sample1) := by
  have hlive1 : Live sample1 0 (pos 0) := ⟨2, [pos 0], rfl, by simp⟩
  obtain ⟨w1, _, _, _, _, he, _, _, hsame⟩ :=
    attach_positions sample1 sample1_reachable.wellFormed 0 1 2 (pos 0) hlive1 rfl
      (by decide) (by decide) (by decide)
  have hw1 := hsame rfl rfl
  subst hw1
  exact ⟨sample6_reachable.wellFormed, ⟨2, [pos 0], rfl, by simp⟩, rfl,
    attach_positions sample6 sample6_reachable.wellFormed 0 1 2 (pos 0)
      ⟨2, [pos 0], rfl, by simp⟩ rfl (by decide) (by decide) (by decide),
    sample1_reachable.wellFormed, hlive1, rfl, rfl, he⟩

/-- C20: in every world reachable from the initial one by successful operations, the
unchecked dereferences are safe.  For every tree, `size() == 0` if and only if `root()` is
null, and a tree that is not `empty()` has a live root, so `left.rt->par` and `right.rt->par`
in `attach` never go through null; every position of the tree other than the root has a
non-null parent whose node is live, so `parent->left` in `erase` never goes through null; and
neither `erase` nor `attach` on a position of the tree ends in undefined behaviour. -/
theorem no_null_dereference {E : Type} (w : World E) (hw : ReachableAll w) (i : Nat) :
    (size w i = 0 ↔ (root w i).is_null = true) ∧
    (empty w i = false →
      (root w i).is_null = false ∧ ∃ e, (root w i).element w.heap = some e) ∧
    (∀ p, Live w i p → p ≠ root w i →
      ∃ q : Position, p.parent w.heap = some q ∧ q.is_null = false ∧
        ∃ e, q.element w.heap = some e) ∧
    (∀ p, Live w i p → erase w i p ≠ .undefined) ∧
    (∀ p l r, Live w i p → attach w i p l r ≠ .undefined) := by
  obtain ⟨shapes, hd⟩ := hw.wellFormed_all
  have hm := hd.models i
  have hnd := hd.nodup i
  refine ⟨?_, ?_, ?_, ?_, ?_⟩
  · simp only [size, root, Position.is_null, beq_iff_eq]
    rw [hd.sz_eq i, hd.rt_eq i]
    cases shapes i with
    | nil => simp [Shape.size, Shape.root]
    | node a e l r => simp [Shape.size, Shape.root]; omega
  · intro hne
    have hsz : (w.trees i).sz ≠ 0 := by simpa [empty] using hne
    obtain ⟨r, rd, h1, _, h2⟩ := hd.root_of_nonempty hsz
    exact ⟨by simp [root, Position.is_null, h1], rd.elem, by simp [root, Position.element, h1, h2]⟩
  · intro p hp hroot
    obtain ⟨n, nd, rfl, hn, hr⟩ := hd.mem_of_live hp
    rcases hm.parent_info hnd hn hr with ⟨hx, _⟩ | ⟨_, pa, pd, hp1, _, _, _, hp5, _⟩
    · exact absurd (by simp [root, hd.rt_eq i, hx]) hroot
    · exact ⟨⟨some pa⟩, by simp [Position.parent, hr, hp1], rfl, pd.elem,
        by simp [Position.element, hp5]⟩
  · intro p hp
    obtain ⟨n, nd, rfl, hn, hr⟩ := hd.mem_of_live hp
    by_cases hle : nd.left = none ∨ nd.right = none
    · obtain ⟨h1, _, he⟩ := erase_done hd hn hr hle
      rw [he]
      intro hx
      cases hx
    · have hboth : nd.left ≠ none ∧ nd.right ≠ none := by
        constructor
        · intro hx; exact hle (Or.inl hx)
        · intro hx; exact hle (Or.inr hx)
      simp only [erase, hr]
      rw [if_pos hboth]
      intro hx
      cases hx
  · intro p l r hp
    obtain ⟨n, nd, rfl, hn, hr⟩ := hd.mem_of_live hp
    by_cases hl : nd.left ≠ none ∨ nd.right ≠ none
    · simp [attach, hr, hl]
    · have hself : ∃ r rd, (w.trees i).rt = some r ∧ w.heap.read r = some rd := by
        cases hs : shapes i with
        | nil => rw [hs] at hn; simp [Shape.addrs] at hn
        | node a e l1 r1 =>
          rw [hs] at hm
          exact ⟨a, _, by rw [hd.rt_eq i, hs]; rfl, hm.1⟩
      obtain ⟨w1, he1, hlive1, hroots1⟩ := attach_left_total w i n l hr hd.roots_live hself
      obtain ⟨nd1, hr1⟩ := hlive1 n nd hr
      obtain ⟨w2, he2⟩ := attach_right_returns w1 i n r hr1 hroots1
      simp [attach, hr, hl, he1, he2]

theorem no_null_dereference_witness :
    ReachableAll sample4 ∧ (size sample4 0 = 0 ↔ (root sample4 0).is_null = true) ∧
    empty sample4 0 = false ∧ (root sample4 0).is_null = false ∧
    Live sample4 0 (pos 3) ∧ pos 3 ≠ root sample4 0 ∧
    (∃ q : Position, (pos 3).parent sample4.heap = some q ∧ q.is_null = false ∧
      ∃ e, q.element sample4.heap = some e) ∧
    erase sample4 0 (pos 3) ≠ .undefined ∧ attach sample4 0 (pos 3) 1 2 ≠ .undefined := by
  have hlive : Live sample4 0 (pos 3) := ⟨5, [pos 0, pos 1, pos 3, pos 2], rfl, by simp⟩
  obtain ⟨h1, h2, h3, h4, h5⟩ := no_null_dereference sample4 sample4_reachable.reachableAll 0
  exact ⟨sample4_reachable.reachableAll, h1, rfl, (h2 rfl).1, hlive, by decide,
    h3 (pos 3) hlive (by decide), h4 (pos 3) hlive, h5 (pos 3) 1 2 hlive⟩

end LBT
